import Mathlib

/-! bfi, a brainfuck interpreter (`src/bfi.c`)

A shallow embedding of the interpreter core of `bfi.c` and theorems about it.

Modelling conventions.

* A byte is a `Fin 256`.  `fgetc` and `getchar` return a C `int`: the byte as a
  non-negative number, or `EOF`.
* C `int` values (cell contents, cell numbers, counters, option values) are
  mathematical integers.  Signed overflow is undefined behaviour in C and the
  program never reduces a cell value; the model therefore describes the runs in
  which no `int` leaves its range.  The one place where the program narrows an
  `int` is `putchar`, which writes its argument converted to `unsigned char`;
  that conversion is modelled explicitly (`% 256`).
* The brainfuck source file `opts->in` is a `FILE`: its content and a read
  position.  `fgetpos`/`fsetpos` save and restore the position.
* The doubly linked list of memory cells is a zipper around the node `*ptr`:
  the nodes reached by following `prev` (nearest first), the node itself, and
  the nodes reached by following `next` (nearest first).
* `stdin`, `stdout` and `stderr` are part of the state (`World`).  `stdout` is
  the sequence of things written (a byte by `putchar`, the header and the rows
  of `mem_dump` by `printf`), `stderr` the sequence of `warning` calls.
* `isgraph` is defined for the values of `unsigned char` and for `EOF` only.
  `mem_dump` calls it on the content of a cell, which can be any `int`; outside
  the domain of `isgraph` the character column of the row is left undetermined.
* `malloc` is taken to succeed.
* Functions whose C loops need not terminate take a fuel argument and return
  `none` when it runs out.
-/

namespace Bfi

/-- One byte of a file or of a stream. -/
abbrev Byte := Fin 256

/-- The value `fgetc` and `getchar` return at end of file. -/
def EOF : Int := -1

/-- The brainfuck source file (`opts->in`): content and read position. -/
structure FILE where
  content : List Byte
  pos : Nat
deriving DecidableEq, Repr

/-- `fgetc(in)`: the byte at the read position, which then advances; `EOF`
when the position is at (or past) the end of the content. -/
def fgetc (f : FILE) : Int × FILE :=
  match f.content[f.pos]? with
  | some b => ((b.val : Int), { f with pos := f.pos + 1 })
  | none => (EOF, f)

/-- `fgetpos(in, &p)`: the current read position. -/
def fgetpos (f : FILE) : Nat := f.pos

/-- `fsetpos(in, &p)`: move the read position back to a saved one. -/
def fsetpos (f : FILE) (p : Nat) : FILE := { f with pos := p }

/-- The options of `struct conf` that the interpreter reads (`in` is the
`FILE`, kept apart because it is the part that changes). -/
structure conf where
  dump : Int
  eof : Int
  warn : Int
deriving DecidableEq, Repr

/-- The options as `main` sets them before `parse_args`: no dump character, no
replacement for EOF, no warnings. -/
def default_conf : conf := { dump := 9999, eof := 9999, warn := 0 }

/-- A memory cell (`struct node` without its two links). -/
structure node where
  data : Int
  cell : Int
deriving DecidableEq, Repr

/-- The doubly linked list seen from `*ptr`. -/
structure Tape where
  prev : List node
  cur : node
  next : List node
deriving DecidableEq, Repr

/-- What the program writes to standard output.  A row of `mem_dump` is the
three arguments of its `printf`; the argument of `%c` is `none` where the
program does not determine it (see `dump_row`). -/
inductive Out where
  | char (b : Byte)
  | dump_header
  | dump_row (cell : Int) (data : Int) (ch : Option Int)
deriving DecidableEq, Repr

/-- The calls of `warning`, with the arguments of the format. -/
inductive Warn where
  | negative_value (cell : Int)
  | negative_cell
  | eof_input
deriving DecidableEq, Repr

/-- Everything the interpreter changes apart from the source file. -/
structure World where
  ptr : Tape
  stdin : List Byte
  stdout : List Out
  stderr : List Warn
deriving DecidableEq, Repr

/-- The cell `main` allocates: number 0, content 0, no neighbours. -/
def initial_tape : Tape := { prev := [], cur := { data := 0, cell := 0 }, next := [] }

/-- The state in which `main` starts interpreting, for a given standard input. -/
def initial_world (input : List Byte) : World :=
  { ptr := initial_tape, stdin := input, stdout := [], stderr := [] }

/-- `insert_last`: a new last cell after `*last`, which becomes current. -/
def insert_last (t : Tape) : Tape :=
  { prev := t.cur :: t.prev, cur := { data := 0, cell := t.cur.cell + 1 }, next := [] }

/-- `insert_first`: a new first cell before `*first`, which becomes current. -/
def insert_first (t : Tape) : Tape :=
  { prev := [], cur := { data := 0, cell := t.cur.cell - 1 }, next := t.cur :: t.next }

/-- `next_cell`, the instruction `>`. -/
def next_cell (t : Tape) : Tape :=
  match t.next with
  | [] => insert_last t
  | n :: ns => { prev := t.cur :: t.prev, cur := n, next := ns }

/-- `prev_cell`, the instruction `<`. -/
def prev_cell (opts : conf) (w : World) : World :=
  match w.ptr.prev with
  | [] =>
    let t := insert_first w.ptr
    if t.cur.cell = -1 ∧ opts.warn ≠ 0 then
      { w with ptr := t, stderr := w.stderr ++ [Warn.negative_cell] }
    else
      { w with ptr := t }
  | p :: ps => { w with ptr := { prev := ps, cur := p, next := w.ptr.cur :: w.ptr.next } }

/-- `getchar()`: the next byte of standard input, or `EOF`. -/
def getchar (w : World) : Int × World :=
  match w.stdin with
  | [] => (EOF, w)
  | b :: rest => ((b.val : Int), { w with stdin := rest })

/-- Store a value in the current cell (`(*ptr)->data = v`). -/
def set_data (w : World) (v : Int) : World :=
  { w with ptr := { w.ptr with cur := { w.ptr.cur with data := v } } }

/-- `get_cell_data`, the instruction `,`. -/
def get_cell_data (opts : conf) (w : World) : World :=
  let (tmp, w1) := getchar w
  if tmp = EOF then
    let w2 := if opts.warn ≠ 0 then { w1 with stderr := w1.stderr ++ [Warn.eof_input] } else w1
    if opts.eof ≠ 9999 then set_data w2 opts.eof else w2
  else
    set_data w1 tmp

/-- `putchar(v)`: writes `v` converted to `unsigned char`. -/
def putchar (v : Int) (w : World) : World :=
  { w with stdout := w.stdout ++ [Out.char ⟨(v % 256).toNat, by omega⟩] }

/-- `isgraph` of `<ctype.h>`, in the "C" locale.  The function is defined for
the values of `unsigned char` (0..255) and for `EOF`, where it is true of the
printing characters other than the space (33..126).  For any other argument
the behaviour is undefined; the answer is then `none`. -/
def isgraph (v : Int) : Option Bool :=
  if (0 ≤ v ∧ v ≤ 255) ∨ v = EOF then some (decide (33 ≤ v ∧ v ≤ 126)) else none

/-- The row `mem_dump` prints for one cell: the cell number, the content, and
`isgraph(ptr->data) ? ptr->data : ' '`.  The program hands the content to
`isgraph` as it is; where `isgraph` has no defined answer the third argument
is not determined (`none`). -/
def dump_row (n : node) : Out :=
  Out.dump_row n.cell n.data
    (match isgraph n.data with
    | some r => some (if r then n.data else 32)
    | none => none)

/-- `mem_dump`: rewind to the first cell, print the header, then one row per
cell following `next`. -/
def mem_dump (w : World) : World :=
  { w with stdout := w.stdout ++ Out.dump_header ::
      ((w.ptr.prev.reverse ++ w.ptr.cur :: w.ptr.next).map dump_row) }

/-- The loop of `skip_loop`, with the number of iterations bounded by `n`. -/
def skip_loop_go : Nat → Int → FILE → FILE
  | 0, _, f => f
  | n + 1, depth, f =>
    let (c, f1) := fgetc f
    if c = EOF then f1
    else if c = 91 then skip_loop_go n (depth + 1) f1
    else if c = 93 then
      if depth = 0 then f1 else skip_loop_go n (depth - 1) f1
    else skip_loop_go n depth f1

/-- `skip_loop`: read up to and including the `]` that closes the loop (or to
the end of the file).  The loop reads one byte per iteration, so it runs at most
once more than there are unread bytes. -/
def skip_loop (f : FILE) : FILE :=
  skip_loop_go (f.content.length - f.pos + 1) 0 f

mutual

/-- `interpret`: one character of the source.  Returns 0 for `]`, 1 otherwise. -/
def interpret : Nat → Int → conf → FILE → World → Option (Int × FILE × World)
  | 0, _, _, _, _ => none
  | n + 1, c, opts, f, w0 =>
    let w := if c = opts.dump then mem_dump w0 else w0
    if c = 62 then some (1, f, { w with ptr := next_cell w.ptr })
    else if c = 60 then some (1, f, prev_cell opts w)
    else if c = 43 then some (1, f, set_data w (w.ptr.cur.data + 1))
    else if c = 45 then
      let w1 := set_data w (w.ptr.cur.data - 1)
      if w1.ptr.cur.data = -1 ∧ opts.warn ≠ 0 then
        some (1, f, { w1 with stderr := w1.stderr ++ [Warn.negative_value w1.ptr.cur.cell] })
      else some (1, f, w1)
    else if c = 46 then some (1, f, putchar w.ptr.cur.data w)
    else if c = 44 then some (1, f, get_cell_data opts w)
    else if c = 91 then
      match loop n opts f w with
      | none => none
      | some (f1, w1) => some (1, f1, w1)
    else if c = 93 then some (0, f, w)
    else some (1, f, w)

/-- `loop`: the instruction `[`. -/
def loop : Nat → conf → FILE → World → Option (FILE × World)
  | 0, _, _, _ => none
  | n + 1, opts, f, w =>
    if w.ptr.cur.data ≤ 0 then some (skip_loop f, w)
    else loop_while n opts (fgetpos f) f w

/-- The outer `while ((*ptr)->data > 0)` of `loop`. -/
def loop_while : Nat → conf → Nat → FILE → World → Option (FILE × World)
  | 0, _, _, _, _ => none
  | n + 1, opts, loop_start, f, w =>
    if w.ptr.cur.data > 0 then
      match loop_body n opts (fsetpos f loop_start) w with
      | none => none
      | some (f1, w1) => loop_while n opts loop_start f1 w1
    else some (f, w)

/-- The inner `while ((c = fgetc(opts->in)) != EOF)` of `loop`, which stops
when `interpret` returns 0. -/
def loop_body : Nat → conf → FILE → World → Option (FILE × World)
  | 0, _, _, _ => none
  | n + 1, opts, f, w =>
    let (c, f1) := fgetc f
    if c = EOF then some (f1, w)
    else
      match interpret n c opts f1 w with
      | none => none
      | some (r, f2, w2) => if r = 0 then some (f2, w2) else loop_body n opts f2 w2

end

/-- The loop of `parens_match`, with the number of iterations bounded by `n`. -/
def parens_match_go : Nat → FILE → Int → Int → FILE × Int × Int
  | 0, f, open_parens, close_parens => (f, open_parens, close_parens)
  | n + 1, f, open_parens, close_parens =>
    let (c, f1) := fgetc f
    if c = EOF then (f1, open_parens, close_parens)
    else if c = 91 then parens_match_go n f1 (open_parens + 1) close_parens
    else if c = 93 then parens_match_go n f1 open_parens (close_parens + 1)
    else parens_match_go n f1 open_parens close_parens

/-- `parens_match`: count `[` and `]` to the end of the file, go back to where
the file was, and return whether the counts are equal (1) or not (0). -/
def parens_match (f : FILE) : Int × FILE :=
  let file_start := fgetpos f
  let (f1, open_parens, close_parens) := parens_match_go (f.content.length - f.pos + 1) f 0 0
  (if open_parens = close_parens then 1 else 0, fsetpos f1 file_start)

/-- The read loop of `main`: interpret every character up to the end of the
file; the value `interpret` returns is not used. -/
def main_loop : Nat → conf → FILE → World → Option (FILE × World)
  | 0, _, _, _ => none
  | n + 1, opts, f, w =>
    let (c, f1) := fgetc f
    if c = EOF then some (f1, w)
    else
      match interpret n c opts f1 w with
      | none => none
      | some (_, f2, w2) => main_loop n opts f2 w2

/-- How the process ends. -/
inductive Exit where
  | success
  | failure (msg : String)
deriving DecidableEq, Repr

/-- `main` after `parse_args`: `opts` are the parsed options, `source` the
content of the source file and `input` the standard input. -/
def main (fuel : Nat) (opts : conf) (source : List Byte) (input : List Byte) :
    Option (Exit × FILE × World) :=
  let w := initial_world input
  let (ok, f) := parens_match { content := source, pos := 0 }
  if ok = 0 then some (Exit.failure "parens don't match", f, w)
  else
    match main_loop fuel opts f w with
    | none => none
    | some (f1, w1) => some (Exit.success, f1, w1)

/-- A well-nested program: a sequence of characters other than `[` and `]`
(`op`) and of loops `[body]` (`loop`), each followed by the rest of the
sequence. -/
inductive Prog where
  | nil : Prog
  | op (c : Byte) (rest : Prog) : Prog
  | loop (body : Prog) (rest : Prog) : Prog
deriving DecidableEq, Repr

/-- The source text of a structured program. -/
def Prog.flatten : Prog → List Byte
  | .nil => []
  | .op c rest => c :: rest.flatten
  | .loop body rest => 91 :: (body.flatten ++ 93 :: rest.flatten)

/-- The characters under `op` are not brackets, so that every bracket of the
source text comes from a `loop`. -/
def Prog.ok : Prog → Bool
  | .nil => true
  | .op c rest => c != 91 && c != 93 && rest.ok
  | .loop body rest => body.ok && rest.ok

/-- Reference semantics, the effect of one character that is not a bracket:
the six instructions of the table, every other character a comment. -/
def ref_instr (opts : conf) (c : Byte) (w : World) : World :=
  if c = 62 then { w with ptr := next_cell w.ptr }
  else if c = 60 then prev_cell opts w
  else if c = 43 then set_data w (w.ptr.cur.data + 1)
  else if c = 45 then
    let w1 := set_data w (w.ptr.cur.data - 1)
    if w1.ptr.cur.data = -1 ∧ opts.warn ≠ 0 then
      { w1 with stderr := w1.stderr ++ [Warn.negative_value w1.ptr.cur.cell] }
    else w1
  else if c = 46 then putchar w.ptr.cur.data w
  else if c = 44 then get_cell_data opts w
  else w

/-- Reference semantics of a structured program: instructions in sequence,
and `[body]` meaning "while the current cell is > 0, execute body". -/
def ref_exec : Nat → conf → Prog → World → Option World
  | 0, _, _, _ => none
  | _ + 1, _, .nil, w => some w
  | n + 1, opts, .op c rest, w => ref_exec n opts rest (ref_instr opts c w)
  | n + 1, opts, .loop body rest, w =>
    if w.ptr.cur.data > 0 then
      match ref_exec n opts body w with
      | none => none
      | some w1 => ref_exec n opts (.loop body rest) w1
    else ref_exec n opts rest w

/-- The bracket scan behind "well nested": `depth` brackets are open; a `]`
needs an open bracket to close, and none may be left open at the end. -/
def well_nested_go : Nat → List Byte → Bool
  | depth, [] => depth == 0
  | depth, c :: l =>
    if c = 91 then well_nested_go (depth + 1) l
    else if c = 93 then
      match depth with
      | 0 => false
      | d + 1 => well_nested_go d l
    else well_nested_go depth l

/-- A source text is well nested when every `[` has a later matching `]` and
every `]` an earlier matching `[`. -/
def well_nested (s : List Byte) : Bool := well_nested_go 0 s

/-- The text of a program followed by the texts of the programs that come
after each of the enclosing loops' closing brackets. -/
def unwind : Prog → List Prog → List Byte
  | p, [] => p.flatten
  | p, q :: qs => p.flatten ++ 93 :: unwind q qs


/-- The largest value of a 32-bit `int`. -/
def INT_MAX : Int := 2147483647

/-- A run of characters that are not brackets, in front of a program. -/
def ops (cs : List Byte) (rest : Prog) : Prog := cs.foldr Prog.op rest

/-- The source `+`ᵃ `>` `+`ᵇ `[<+>-]<.`, which adds cell 1 to cell 0 and
prints cell 0. -/
def sum_source (a b : Nat) : List Byte :=
  List.replicate a 43 ++ 62 :: (List.replicate b 43 ++ [91, 60, 43, 62, 45, 93, 60, 46])

/-- The structure of `sum_source a b`. -/
def sum_prog (a b : Nat) : Prog :=
  ops (List.replicate a 43) (Prog.op 62 (ops (List.replicate b 43)
    (Prog.loop (ops [60, 43, 62, 45] Prog.nil) (ops [60, 46] Prog.nil))))


/-- The state of the addition program while its loop runs: cell 0 holds `x`,
cell 1 holds `y` and is current, nothing read or written yet. -/
def two_cells (input : List Byte) (x y : Int) : World :=
  { ptr := { prev := [{ data := x, cell := 0 }], cur := { data := y, cell := 1 }, next := [] },
    stdin := input, stdout := [], stderr := [] }

/-- The state in which the addition program ends when cell 0 holds `x`. -/
def sum_final (input : List Byte) (x : Nat) : World :=
  { ptr := { prev := [], cur := { data := (x : Int), cell := 0 },
             next := [{ data := 0, cell := 1 }] },
    stdin := input, stdout := [Out.char ⟨x % 256, Nat.mod_lt _ (by decide)⟩], stderr := [] }


/-- The cells of the list in the order in which `mem_dump` and `free_mem` walk
it: from the first cell (no `prev`) to the last (no `next`). -/
def Tape.cells (t : Tape) : List node := t.prev.reverse ++ t.cur :: t.next

/-- The number the first cell has when the cells are numbered consecutively. -/
def Tape.lo (t : Tape) : Int := t.cur.cell - t.prev.length

/-- The number the last cell has when the cells are numbered consecutively. -/
def Tape.hi (t : Tape) : Int := t.cur.cell + t.next.length

/-- The cells of the list carry the numbers `k`, `k - 1`, `k - 2`, ... -/
def numbered_down : Int → List node → Bool
  | _, [] => true
  | k, n :: ns => decide (n.cell = k) && numbered_down (k - 1) ns

/-- The cells of the list carry the numbers `k`, `k + 1`, `k + 2`, ... -/
def numbered_up : Int → List node → Bool
  | _, [] => true
  | k, n :: ns => decide (n.cell = k) && numbered_up (k + 1) ns

/-- The invariant of the tape: going left from the current cell the numbers go
down by one, going right they go up by one, and cell 0 is among the cells. -/
def tape_inv (t : Tape) : Bool :=
  numbered_down (t.cur.cell - 1) t.prev && numbered_up (t.cur.cell + 1) t.next &&
    decide (t.lo ≤ 0) && decide (0 ≤ t.hi)


/-- The eight characters that are instructions; every other character is a
comment. -/
def is_instruction (c : Byte) : Bool :=
  c == 62 || c == 60 || c == 43 || c == 45 || c == 46 || c == 44 || c == 91 || c == 93

/-- A source text with the comment characters removed. -/
def strip (s : List Byte) : List Byte := s.filter is_instruction

/-- The position in `strip s` that corresponds to position `p` in `s`: the
number of instruction characters before `p`. -/
def strip_pos (s : List Byte) (p : Nat) : Nat := (strip (s.take p)).length

/-- The file over the stripped text, at the corresponding position. -/
def strip_file (f : FILE) : FILE := ⟨strip f.content, strip_pos f.content f.pos⟩

/-- The number of bytes the loop of `skip_loop` reads from the unread text
`l`, starting at the given depth. -/
def skip_count : Int → List Byte → Nat
  | _, [] => 0
  | depth, c :: l =>
    if c = 91 then 1 + skip_count (depth + 1) l
    else if c = 93 then
      if depth = 0 then 1 else 1 + skip_count (depth - 1) l
    else 1 + skip_count depth l


/-- The sequence of two structured programs. -/
def Prog.append : Prog → Prog → Prog
  | .nil, q => q
  | .op c rest, q => .op c (rest.append q)
  | .loop body rest, q => .loop body (rest.append q)

/-- A text that runs to the end of the file with loops still open: a
well-nested part `p` and then either the end of the file (`closed`), or a `[`
that no `]` closes, followed by the body of that loop, which is such a text
again (`unclosed`). -/
inductive Tail where
  | closed (p : Prog) : Tail
  | unclosed (p : Prog) (body : Tail) : Tail
deriving DecidableEq, Repr

/-- The source text of a `Tail`. -/
def Tail.flatten : Tail → List Byte
  | .closed p => p.flatten
  | .unclosed p body => p.flatten ++ 91 :: body.flatten

/-- The characters under `op` are not brackets, in every part. -/
def Tail.ok : Tail → Bool
  | .closed p => p.ok
  | .unclosed p body => p.ok && body.ok

/-- The number of loops still open at the end of the text. -/
def Tail.depth : Tail → Nat
  | .closed _ => 0
  | .unclosed _ body => body.depth + 1

/-- The structured program in which every loop left open extends to the end
of the text: its text is the text of the `Tail` with the missing `]` added at
the end. -/
def Tail.close : Tail → Prog
  | .closed p => p
  | .unclosed p body => p.append (Prog.loop body.close Prog.nil)

/-- The bracket scan behind "no `]` without a `[`": `depth` brackets are
open, and a `]` needs an open bracket to close; brackets may be left open at
the end. -/
def no_stray_close_go : Nat → List Byte → Bool
  | _, [] => true
  | depth, c :: l =>
    if c = 91 then no_stray_close_go (depth + 1) l
    else if c = 93 then
      match depth with
      | 0 => false
      | d + 1 => no_stray_close_go d l
    else no_stray_close_go depth l

/-- Every `]` of the text closes an earlier `[` of the text: read as the body
of a loop, the text has no `]` for that loop. -/
def no_stray_close (s : List Byte) : Bool := no_stray_close_go 0 s

/-- The texts of programs, each followed by the `]` of an enclosing loop, and
then a text with loops left open. -/
def closes : List Prog → Tail → List Byte
  | [], t => t.flatten
  | q :: qs, t => q.flatten ++ 93 :: closes qs t

/-- Put a character that is not a bracket in front. -/
def Tail.cons_op (c : Byte) : Tail → Tail
  | .closed p => .closed (.op c p)
  | .unclosed p body => .unclosed (.op c p) body

/-- Put a whole loop `[b]` in front. -/
def Tail.cons_loop (b : Prog) : Tail → Tail
  | .closed p => .closed (.loop b p)
  | .unclosed p body => .unclosed (.loop b p) body


/-! ## Reading the source file -/

theorem byte_ne_EOF (b : Byte) : ((b.val : Nat) : Int) ≠ EOF := by
  unfold EOF; omega

theorem byte_eq_91 (b : Byte) : ((b.val : Nat) : Int) = 91 ↔ b = 91 := by
  constructor
  · intro h; apply Fin.ext; have : (91 : Byte).val = 91 := rfl; omega
  · intro h; subst h; rfl

theorem byte_eq_93 (b : Byte) : ((b.val : Nat) : Int) = 93 ↔ b = 93 := by
  constructor
  · intro h; apply Fin.ext; have : (93 : Byte).val = 93 := rfl; omega
  · intro h; subst h; rfl

theorem fgetc_at (content pre l : List Byte) (b : Byte) (p : Nat)
    (hc : content = pre ++ b :: l) (hp : p = pre.length) :
    fgetc ⟨content, p⟩ = ((b.val : Int), ⟨content, p + 1⟩) := by
  subst hc hp
  have h : (pre ++ b :: l)[pre.length]? = some b := by
    rw [List.getElem?_append_right (Nat.le_refl _)]; simp
  simp only [fgetc, h]

theorem fgetc_eof (content : List Byte) (p : Nat) (hp : content.length ≤ p) :
    fgetc ⟨content, p⟩ = (EOF, ⟨content, p⟩) := by
  have h : content[p]? = none := List.getElem?_eq_none hp
  simp only [fgetc, h]

/-! ## The balance check -/

theorem parens_match_go_spec (content : List Byte) :
    ∀ (l pre : List Byte) (n : Nat) (o c : Int), content = pre ++ l → l.length < n →
      parens_match_go n ⟨content, pre.length⟩ o c
        = (⟨content, content.length⟩, o + (l.count 91 : Nat), c + (l.count 93 : Nat)) := by
  intro l
  induction l with
  | nil =>
    intro pre n o c hc hn
    obtain ⟨n, rfl⟩ : ∃ k, n = k + 1 := ⟨n - 1, by simp at hn; omega⟩
    have hlen : content.length = pre.length := by simp [hc]
    simp [parens_match_go, fgetc_eof content pre.length (by omega), hlen]
  | cons b l ih =>
    intro pre n o c hc hn
    obtain ⟨n, rfl⟩ : ∃ k, n = k + 1 := ⟨n - 1, by simp at hn; omega⟩
    have hn' : l.length < n := by simp at hn; omega
    have hc' : content = (pre ++ [b]) ++ l := by simp [hc]
    have ih' := fun o c => ih (pre ++ [b]) n o c hc' hn'
    simp only [List.length_append, List.length_singleton] at ih'
    simp only [parens_match_go, fgetc_at content pre l b pre.length hc rfl]
    simp only [byte_ne_EOF, if_false, byte_eq_91, byte_eq_93]
    by_cases h1 : b = 91
    · subst h1
      simp [ih']; omega
    · by_cases h2 : b = 93
      · subst h2
        simp [ih']; omega
      · simp [h1, h2, ih', List.count_cons, Ne.symm h1, Ne.symm h2]

theorem parens_match_eq (s : List Byte) :
    parens_match ⟨s, 0⟩ = (if s.count 91 = s.count 93 then 1 else 0, ⟨s, 0⟩) := by
  have h := parens_match_go_spec s s [] (s.length - 0 + 1) 0 0 rfl (by omega)
  simp only [List.length_nil] at h
  simp only [parens_match, h, fgetpos, fsetpos]
  by_cases hc : s.count 91 = s.count 93
  · simp [hc]
  · have : ¬ ((0 : Int) + (s.count 91 : Nat) = 0 + (s.count 93 : Nat)) := by omega
    simp [hc, this]

/-- C1: the balance check reports "balanced" (returns 1) exactly when the
source has as many `[` as `]`, and "unbalanced" (returns 0) exactly when the
counts differ, whatever the order of the brackets: `][` is balanced, `[[]` is
not. -/
theorem parens_match_iff_counts_equal :
    (∀ s : List Byte, (parens_match ⟨s, 0⟩).1 = 1 ↔ s.count 91 = s.count 93) ∧
    (∀ s : List Byte, (parens_match ⟨s, 0⟩).1 = 0 ↔ s.count 91 ≠ s.count 93) ∧
    (parens_match ⟨[93, 91], 0⟩).1 = 1 ∧
    (parens_match ⟨[91, 91, 93], 0⟩).1 = 0 := by
  refine ⟨?_, ?_, ?_, ?_⟩
  · intro s
    rw [parens_match_eq]
    by_cases hc : s.count 91 = s.count 93 <;> simp [hc]
  · intro s
    rw [parens_match_eq]
    by_cases hc : s.count 91 = s.count 93 <;> simp [hc]
  · rw [parens_match_eq]; decide
  · rw [parens_match_eq]; decide

/-- C2: when the counts of `[` and `]` differ, `main` ends with the fatal
error "parens don't match" whatever the fuel, options and input: nothing was
written, the input is untouched, the source file is at its start and the tape
is the single initial cell holding 0. -/
theorem main_unbalanced_aborts (fuel : Nat) (opts : conf) (source input : List Byte)
    (h : source.count 91 ≠ source.count 93) :
    main fuel opts source input
      = some (Exit.failure "parens don't match", ⟨source, 0⟩,
          { ptr := { prev := [], cur := { data := 0, cell := 0 }, next := [] },
            stdin := input, stdout := [], stderr := [] }) := by
  simp [main, parens_match_eq, h, initial_world, initial_tape]

theorem main_unbalanced_aborts_witness :
    ([91, 91, 93] : List Byte).count 91 ≠ ([91, 91, 93] : List Byte).count 93 ∧
    main 5 default_conf [91, 91, 93] [65]
      = some (Exit.failure "parens don't match", ⟨[91, 91, 93], 0⟩,
          { ptr := { prev := [], cur := { data := 0, cell := 0 }, next := [] },
            stdin := [65], stdout := [], stderr := [] }) :=
  ⟨by decide, main_unbalanced_aborts 5 default_conf [91, 91, 93] [65] (by decide)⟩

/-! ## Skipping a loop -/

theorem int91_ne_EOF : ¬ ((91 : Int) = EOF) := by unfold EOF; omega

theorem int93_ne_EOF : ¬ ((93 : Int) = EOF) := by unfold EOF; omega

theorem skip_loop_go_prog (content : List Byte) :
    ∀ (p : Prog), p.ok = true → ∀ (pre rest : List Byte) (pos n : Nat) (depth : Int),
      content = pre ++ (p.flatten ++ rest) → pos = pre.length → 0 ≤ depth →
      p.flatten.length ≤ n →
      skip_loop_go n depth ⟨content, pos⟩
        = skip_loop_go (n - p.flatten.length) depth ⟨content, pos + p.flatten.length⟩ := by
  intro p
  induction p with
  | nil => intro _ pre rest pos n depth _ _ _ _; simp [Prog.flatten]
  | op c r ih =>
    intro hok pre rest pos n depth hc hp hd hn
    simp only [Prog.ok, Bool.and_eq_true, bne_iff_ne, ne_eq] at hok
    obtain ⟨⟨h1, h2⟩, hr⟩ := hok
    simp only [Prog.flatten, List.length_cons] at hn ⊢
    obtain ⟨n, rfl⟩ : ∃ k, n = k + 1 := ⟨n - 1, by omega⟩
    have hg := fgetc_at content pre (r.flatten ++ rest) c pos (by simpa [Prog.flatten] using hc) hp
    simp only [skip_loop_go, hg, byte_ne_EOF, if_false, byte_eq_91, byte_eq_93, h1, h2]
    rw [ih hr (pre ++ [c]) rest (pos + 1) n depth (by simpa [Prog.flatten] using hc)
      (by simp [hp]) hd (by omega)]
    have e1 : n + 1 - (r.flatten.length + 1) = n - r.flatten.length := by omega
    have e2 : pos + (r.flatten.length + 1) = pos + 1 + r.flatten.length := by omega
    rw [e1, e2]
  | loop b r ihb ihr =>
    intro hok pre rest pos n depth hc hp hd hn
    simp only [Prog.ok, Bool.and_eq_true] at hok
    obtain ⟨hb, hr⟩ := hok
    simp only [Prog.flatten, List.length_cons, List.length_append] at hn ⊢
    obtain ⟨n, rfl⟩ : ∃ k, n = k + 1 := ⟨n - 1, by omega⟩
    have hg := fgetc_at content pre (b.flatten ++ 93 :: r.flatten ++ rest) 91 pos
      (by simpa [Prog.flatten] using hc) hp
    have h91 : (((91 : Byte).val : Nat) : Int) = 91 := rfl
    have h93 : (((93 : Byte).val : Nat) : Int) = 93 := rfl
    simp only [skip_loop_go, hg, int91_ne_EOF, if_false, h91, if_true]
    rw [ihb hb (pre ++ [91]) (93 :: r.flatten ++ rest) (pos + 1) n (depth + 1)
      (by simpa [Prog.flatten] using hc) (by simp [hp]) (by omega) (by omega)]
    obtain ⟨k, hk⟩ : ∃ k, n - b.flatten.length = k + 1 := ⟨n - b.flatten.length - 1, by omega⟩
    have hg2 := fgetc_at content (pre ++ 91 :: b.flatten) (r.flatten ++ rest) 93
      (pos + 1 + b.flatten.length) (by simpa [Prog.flatten] using hc)
      (by simp [hp]; omega)
    have hd1 : ¬ (depth + 1 = 0) := by omega
    rw [hk]
    simp only [skip_loop_go, hg2, int93_ne_EOF, if_false, h93, if_true, hd1]
    have h9391 : ¬ ((93 : Int) = 91) := by decide
    simp only [h9391, if_false, Int.add_sub_cancel]
    rw [ihr hr (pre ++ 91 :: b.flatten ++ [93]) rest (pos + 1 + b.flatten.length + 1) k depth
      (by simpa [Prog.flatten] using hc) (by simp [hp]; omega) hd (by omega)]
    have e1 : n + 1 - (b.flatten.length + (r.flatten.length + 1) + 1) = k - r.flatten.length := by
      omega
    have e2 : pos + (b.flatten.length + (r.flatten.length + 1) + 1)
        = pos + 1 + b.flatten.length + 1 + r.flatten.length := by omega
    rw [e1, e2]

theorem skip_loop_prog (b : Prog) (hb : b.ok = true) (pre rest : List Byte) :
    skip_loop ⟨pre ++ 91 :: (b.flatten ++ 93 :: rest), pre.length + 1⟩
      = ⟨pre ++ 91 :: (b.flatten ++ 93 :: rest), pre.length + 1 + b.flatten.length + 1⟩ := by
  have h93 : (((93 : Byte).val : Nat) : Int) = 93 := rfl
  have h9391 : ¬ ((93 : Int) = 91) := by decide
  unfold skip_loop
  rw [skip_loop_go_prog _ b hb (pre ++ [91]) (93 :: rest) (pre.length + 1) _ 0
    (by simp) (by simp) (by omega) (by simp; omega)]
  have hg2 := fgetc_at (pre ++ 91 :: (b.flatten ++ 93 :: rest)) (pre ++ 91 :: b.flatten) rest 93
      (pre.length + 1 + b.flatten.length) (by simp) (by simp; omega)
  obtain ⟨k, hk⟩ : ∃ k, (pre ++ 91 :: (b.flatten ++ 93 :: rest)).length - (pre.length + 1) + 1
      - b.flatten.length = k + 1 := ⟨rest.length + 1, by simp; omega⟩
  simp only [FILE.pos, FILE.content] at hk ⊢
  rw [hk]
  simp only [skip_loop_go, hg2, int93_ne_EOF, if_false, h93, h9391, if_true]

/-- C4: a loop `[B]` met while the current cell is ≤ 0, with `B` well nested
to any depth and any text `R` after it, runs no pass of the body: tape,
position, input, output and warnings are unchanged, and the source file is
left just after the `]` that closes the loop, so that what remains to be read
is `R`. -/
theorem loop_skips_when_cell_not_positive (b : Prog) (hb : b.ok = true) (pre R : List Byte)
    (n : Nat) (opts : conf) (w : World) (h : w.ptr.cur.data ≤ 0) :
    loop (n + 1) opts ⟨pre ++ 91 :: (b.flatten ++ 93 :: R), pre.length + 1⟩ w
      = some (⟨pre ++ 91 :: (b.flatten ++ 93 :: R), pre.length + 1 + b.flatten.length + 1⟩, w)
    ∧ (pre ++ 91 :: (b.flatten ++ 93 :: R)).drop (pre.length + 1 + b.flatten.length + 1) = R := by
  constructor
  · simp only [loop, h, if_true, skip_loop_prog b hb pre R]
  · have e : pre.length + 1 + b.flatten.length + 1 = (pre ++ 91 :: (b.flatten ++ [93])).length := by
      simp; omega
    have e2 : pre ++ 91 :: (b.flatten ++ 93 :: R) = (pre ++ 91 :: (b.flatten ++ [93])) ++ R := by
      simp
    rw [e, e2, List.drop_left]

theorem loop_skips_when_cell_not_positive_witness :
    (Prog.op 45 Prog.nil).ok = true ∧ (initial_world []).ptr.cur.data ≤ 0 ∧
    loop 1 default_conf ⟨[91, 45, 93], 1⟩ (initial_world [])
      = some (⟨[91, 45, 93], 3⟩, initial_world []) ∧
    main 3 default_conf [91, 45, 93] []
      = some (Exit.success, ⟨[91, 45, 93], 3⟩, initial_world []) :=
  ⟨by decide, by decide,
    (loop_skips_when_cell_not_positive (Prog.op 45 Prog.nil) (by decide) [] [] 0 default_conf
      (initial_world []) (by decide)).1,
    by decide⟩

/-! ## More fuel does not change a finished run -/

theorem interpret_mono_of_loop (n m : Nat)
    (hl : ∀ opts f w r, loop n opts f w = some r → loop m opts f w = some r)
    (c : Int) (opts : conf) (f : FILE) (w : World) (r : Int × FILE × World)
    (h : interpret (n + 1) c opts f w = some r) : interpret (m + 1) c opts f w = some r := by
  simp only [interpret] at h ⊢
  by_cases h91 : c = 91
  · subst h91
    simp only [show ¬ ((91 : Int) = 62) by decide, show ¬ ((91 : Int) = 60) by decide,
      show ¬ ((91 : Int) = 43) by decide, show ¬ ((91 : Int) = 45) by decide,
      show ¬ ((91 : Int) = 46) by decide, show ¬ ((91 : Int) = 44) by decide, if_false,
      if_true] at h ⊢
    cases hq : loop n opts f (if 91 = opts.dump then mem_dump w else w) with
    | none => simp [hq] at h
    | some q =>
      rw [hq] at h
      rw [hl _ _ _ _ hq]
      exact h
  · simp only [h91, if_false] at h ⊢
    exact h

theorem fuel_mono : ∀ n,
    (∀ m, n ≤ m → ∀ c opts f w r, interpret n c opts f w = some r →
      interpret m c opts f w = some r) ∧
    (∀ m, n ≤ m → ∀ opts f w r, loop n opts f w = some r → loop m opts f w = some r) ∧
    (∀ m, n ≤ m → ∀ opts s f w r, loop_while n opts s f w = some r →
      loop_while m opts s f w = some r) ∧
    (∀ m, n ≤ m → ∀ opts f w r, loop_body n opts f w = some r →
      loop_body m opts f w = some r) := by
  intro n
  induction n with
  | zero =>
    refine ⟨?_, ?_, ?_, ?_⟩ <;> intros <;> simp_all [interpret, loop, loop_while, loop_body]
  | succ n ih =>
    obtain ⟨ihi, ihl, ihw, ihb⟩ := ih
    refine ⟨?_, ?_, ?_, ?_⟩
    · intro m hm c opts f w r h
      obtain ⟨m, rfl⟩ : ∃ k, m = k + 1 := ⟨m - 1, by omega⟩
      exact interpret_mono_of_loop n m (ihl m (by omega)) c opts f w r h
    · intro m hm opts f w r h
      obtain ⟨m, rfl⟩ : ∃ k, m = k + 1 := ⟨m - 1, by omega⟩
      simp only [loop] at h ⊢
      by_cases hd : w.ptr.cur.data ≤ 0
      · simp only [hd, if_true] at h ⊢; exact h
      · simp only [hd, if_false] at h ⊢
        exact ihw m (by omega) _ _ _ _ _ h
    · intro m hm opts s f w r h
      obtain ⟨m, rfl⟩ : ∃ k, m = k + 1 := ⟨m - 1, by omega⟩
      simp only [loop_while] at h ⊢
      by_cases hd : w.ptr.cur.data > 0
      · simp only [hd, if_true] at h ⊢
        cases hq : loop_body n opts (fsetpos f s) w with
        | none => simp [hq] at h
        | some q =>
          rw [hq] at h
          rw [ihb m (by omega) _ _ _ _ hq]
          exact ihw m (by omega) _ _ _ _ _ h
      · simp only [hd, if_false] at h ⊢; exact h
    · intro m hm opts f w r h
      obtain ⟨m, rfl⟩ : ∃ k, m = k + 1 := ⟨m - 1, by omega⟩
      simp only [loop_body] at h ⊢
      by_cases he : (fgetc f).1 = EOF
      · simp only [he, if_true] at h ⊢; exact h
      · simp only [he, if_false] at h ⊢
        cases hq : interpret n (fgetc f).1 opts (fgetc f).2 w with
        | none => simp [hq] at h
        | some q =>
          rw [hq] at h
          rw [ihi m (by omega) _ _ _ _ _ hq]
          obtain ⟨rv, f2, w2⟩ := q
          simp only at h ⊢
          by_cases hr : rv = 0
          · simp only [hr, if_true] at h ⊢; exact h
          · simp only [hr, if_false] at h ⊢
            exact ihb m (by omega) _ _ _ _ h


theorem interpret_mono {n m : Nat} (h : n ≤ m) {c : Int} {opts : conf} {f : FILE} {w : World}
    {r : Int × FILE × World} (hr : interpret n c opts f w = some r) :
    interpret m c opts f w = some r :=
  (fuel_mono n).1 m h c opts f w r hr

theorem loop_mono {n m : Nat} (h : n ≤ m) {opts : conf} {f : FILE} {w : World}
    {r : FILE × World} (hr : loop n opts f w = some r) : loop m opts f w = some r :=
  (fuel_mono n).2.1 m h opts f w r hr

theorem loop_while_mono {n m : Nat} (h : n ≤ m) {opts : conf} {s : Nat} {f : FILE} {w : World}
    {r : FILE × World} (hr : loop_while n opts s f w = some r) :
    loop_while m opts s f w = some r :=
  (fuel_mono n).2.2.1 m h opts s f w r hr

theorem loop_body_mono {n m : Nat} (h : n ≤ m) {opts : conf} {f : FILE} {w : World}
    {r : FILE × World} (hr : loop_body n opts f w = some r) : loop_body m opts f w = some r :=
  (fuel_mono n).2.2.2 m h opts f w r hr

theorem main_loop_mono : ∀ (n m : Nat), n ≤ m → ∀ (opts : conf) (f : FILE) (w : World)
    (r : FILE × World), main_loop n opts f w = some r → main_loop m opts f w = some r := by
  intro n
  induction n with
  | zero => intro m _ opts f w r h; simp [main_loop] at h
  | succ n ih =>
    intro m hm opts f w r h
    obtain ⟨m, rfl⟩ : ∃ k, m = k + 1 := ⟨m - 1, by omega⟩
    simp only [main_loop] at h ⊢
    by_cases he : (fgetc f).1 = EOF
    · simp only [he, if_true] at h ⊢; exact h
    · simp only [he, if_false] at h ⊢
      cases hq : interpret n (fgetc f).1 opts (fgetc f).2 w with
      | none => simp [hq] at h
      | some q =>
        rw [hq] at h
        rw [interpret_mono (by omega) hq]
        obtain ⟨rv, f2, w2⟩ := q
        simp only at h ⊢
        exact ih m (by omega) _ _ _ _ h

theorem ref_exec_mono : ∀ (n m : Nat), n ≤ m → ∀ (opts : conf) (p : Prog) (w r : World),
    ref_exec n opts p w = some r → ref_exec m opts p w = some r := by
  intro n
  induction n with
  | zero => intro m _ opts p w r h; simp [ref_exec] at h
  | succ n ih =>
    intro m hm opts p w r h
    obtain ⟨m, rfl⟩ : ∃ k, m = k + 1 := ⟨m - 1, by omega⟩
    cases p with
    | nil => simp only [ref_exec] at h ⊢; exact h
    | op c rest =>
      simp only [ref_exec] at h ⊢
      exact ih m (by omega) _ _ _ _ h
    | loop body rest =>
      simp only [ref_exec] at h ⊢
      by_cases hd : w.ptr.cur.data > 0
      · simp only [hd, if_true] at h ⊢
        cases hq : ref_exec n opts body w with
        | none => simp [hq] at h
        | some q =>
          rw [hq] at h
          rw [ih m (by omega) _ _ _ _ hq]
          exact ih m (by omega) _ _ _ _ h
      · simp only [hd, if_false] at h ⊢
        exact ih m (by omega) _ _ _ _ h

/-! ## One character -/

theorem byte_ne_9999 (b : Byte) : ¬ (((b.val : Nat) : Int) = 9999) := by omega

theorem byte_eq_lit (b : Byte) (k : Nat) (hk : k < 256) :
    ((b.val : Nat) : Int) = (k : Int) ↔ b = ⟨k, hk⟩ := by
  constructor
  · intro h; apply Fin.ext; simp only; omega
  · intro h; subst h; rfl

/-- With no dump character, a character that is not a bracket has the effect
the reference semantics gives it, and `interpret` returns 1. -/
theorem interpret_op (n : Nat) (c : Byte) (opts : conf) (f : FILE) (w : World)
    (hd : opts.dump = 9999) (h1 : c ≠ 91) (h2 : c ≠ 93) :
    interpret (n + 1) (c.val : Int) opts f w = some (1, f, ref_instr opts c w) := by
  have e62 : ((c.val : Nat) : Int) = 62 ↔ c = 62 := byte_eq_lit c 62 (by omega)
  have e60 : ((c.val : Nat) : Int) = 60 ↔ c = 60 := byte_eq_lit c 60 (by omega)
  have e43 : ((c.val : Nat) : Int) = 43 ↔ c = 43 := byte_eq_lit c 43 (by omega)
  have e45 : ((c.val : Nat) : Int) = 45 ↔ c = 45 := byte_eq_lit c 45 (by omega)
  have e46 : ((c.val : Nat) : Int) = 46 ↔ c = 46 := byte_eq_lit c 46 (by omega)
  have e44 : ((c.val : Nat) : Int) = 44 ↔ c = 44 := byte_eq_lit c 44 (by omega)
  simp only [interpret, ref_instr, hd, byte_ne_9999, if_false, e62, e60, e43, e45, e46, e44,
    byte_eq_91, byte_eq_93, h1, h2]
  split_ifs <;> rfl

theorem interpret_open (n : Nat) (opts : conf) (f : FILE) (w : World) (hd : opts.dump = 9999) :
    interpret (n + 1) 91 opts f w
      = match loop n opts f w with
        | none => none
        | some (f1, w1) => some (1, f1, w1) := by
  simp only [interpret, hd]
  simp

theorem interpret_close (n : Nat) (opts : conf) (f : FILE) (w : World) (hd : opts.dump = 9999) :
    interpret (n + 1) 93 opts f w = some (0, f, w) := by
  simp only [interpret, hd]
  simp


/-! ## The two read loops, one character at a time -/

theorem loop_body_at (n : Nat) (opts : conf) (content pre l : List Byte) (c : Byte) (pos : Nat)
    (w : World) (hc : content = pre ++ c :: l) (hp : pos = pre.length) :
    loop_body (n + 1) opts ⟨content, pos⟩ w
      = match interpret n (c.val : Int) opts ⟨content, pos + 1⟩ w with
        | none => none
        | some (r, f2, w2) => if r = 0 then some (f2, w2) else loop_body n opts f2 w2 := by
  simp only [loop_body, fgetc_at content pre l c pos hc hp, byte_ne_EOF, if_false]

theorem loop_body_eof (n : Nat) (opts : conf) (content : List Byte) (pos : Nat) (w : World)
    (hp : content.length ≤ pos) :
    loop_body (n + 1) opts ⟨content, pos⟩ w = some (⟨content, pos⟩, w) := by
  simp only [loop_body, fgetc_eof content pos hp, if_true]

theorem main_loop_at (n : Nat) (opts : conf) (content pre l : List Byte) (c : Byte) (pos : Nat)
    (w : World) (hc : content = pre ++ c :: l) (hp : pos = pre.length) :
    main_loop (n + 1) opts ⟨content, pos⟩ w
      = match interpret n (c.val : Int) opts ⟨content, pos + 1⟩ w with
        | none => none
        | some (_, f2, w2) => main_loop n opts f2 w2 := by
  simp only [main_loop, fgetc_at content pre l c pos hc hp, byte_ne_EOF, if_false]

theorem main_loop_eof (n : Nat) (opts : conf) (content : List Byte) (pos : Nat) (w : World)
    (hp : content.length ≤ pos) :
    main_loop (n + 1) opts ⟨content, pos⟩ w = some (⟨content, pos⟩, w) := by
  simp only [main_loop, fgetc_eof content pos hp, if_true]

theorem int_val_91 : (((91 : Byte).val : Nat) : Int) = 91 := rfl

theorem int_val_93 : (((93 : Byte).val : Nat) : Int) = 93 := rfl

/-! ## From the interpreter to the reference semantics -/

theorem loop_while_sound (opts : conf) (hd : opts.dump = 9999) (content pre rest : List Byte)
    (b : Prog) (pos : Nat) (hc : content = pre ++ 91 :: (b.flatten ++ 93 :: rest))
    (hp : pos = pre.length)
    (hb1 : ∀ (n : Nat) (w : World) (res : FILE × World),
      loop_body n opts ⟨content, pos + 1⟩ w = some res →
      ∃ m w', ref_exec m opts b w = some w' ∧
        loop_body n opts ⟨content, pos + 1 + b.flatten.length⟩ w' = some res) :
    ∀ (k : Nat) (f : FILE) (w : World) (f2 : FILE) (w2 : World), f.content = content →
      0 < w.ptr.cur.data →
      loop_while k opts (pos + 1) f w = some (f2, w2) →
      f2 = ⟨content, pos + 1 + b.flatten.length + 1⟩ ∧
      ∀ (r : Prog) (m : Nat) (wr : World), ref_exec m opts r w2 = some wr →
        ∃ m', ref_exec m' opts (Prog.loop b r) w = some wr := by
  intro k
  induction k with
  | zero => intro f w f2 w2 _ _ h; simp [loop_while] at h
  | succ k ih =>
    intro f w f2 w2 hf hpos h
    have hgt : w.ptr.cur.data > 0 := hpos
    simp only [loop_while, hgt, if_true] at h
    have hfs : fsetpos f (pos + 1) = ⟨content, pos + 1⟩ := by
      cases f; simp only [fsetpos] at hf ⊢; simp_all
    rw [hfs] at h
    cases hq : loop_body k opts ⟨content, pos + 1⟩ w with
    | none => simp [hq] at h
    | some q =>
      obtain ⟨f1, w1⟩ := q
      rw [hq] at h
      simp only at h
      obtain ⟨m, w', href, hlb⟩ := hb1 k w (f1, w1) hq
      -- the pass ends by reading the closing bracket
      obtain ⟨j, rfl⟩ : ∃ j, k = j + 1 := by
        cases k with
        | zero => simp [loop_body] at hlb
        | succ j => exact ⟨j, rfl⟩
      rw [loop_body_at j opts content (pre ++ 91 :: b.flatten) rest 93
        (pos + 1 + b.flatten.length) w' (by simp [hc]) (by simp [hp]; omega), int_val_93] at hlb
      obtain ⟨i, rfl⟩ : ∃ i, j = i + 1 := by
        cases j with
        | zero => simp [interpret] at hlb
        | succ i => exact ⟨i, rfl⟩
      rw [interpret_close i opts _ _ hd] at hlb
      simp only [if_true, Option.some.injEq, Prod.mk.injEq] at hlb
      obtain ⟨hf1, hw1⟩ := hlb
      subst hf1 hw1
      by_cases hd' : 0 < w'.ptr.cur.data
      · obtain ⟨hf2, hrest⟩ := ih _ w' f2 w2 rfl hd' h
        refine ⟨hf2, ?_⟩
        intro r mm wr hr
        obtain ⟨m', hm'⟩ := hrest r mm wr hr
        refine ⟨max m m' + 1, ?_⟩
        simp only [ref_exec, hgt, if_true]
        rw [ref_exec_mono m (max m m') (le_max_left _ _) _ _ _ _ href]
        exact ref_exec_mono m' (max m m') (le_max_right _ _) _ _ _ _ hm'
      · have hng : ¬ (w'.ptr.cur.data > 0) := hd'
        simp only [loop_while, hng, if_false, Option.some.injEq, Prod.mk.injEq] at h
        obtain ⟨hf2, hw2⟩ := h
        subst hf2 hw2
        refine ⟨rfl, ?_⟩
        intro r mm wr hr
        refine ⟨max m (mm + 1) + 1, ?_⟩
        simp only [ref_exec, hgt, if_true]
        rw [ref_exec_mono m (max m (mm + 1)) (le_max_left _ _) _ _ _ _ href]
        apply ref_exec_mono (mm + 1) (max m (mm + 1)) (le_max_right _ _)
        simp only [ref_exec, hng, if_false]
        exact hr

theorem interpret_open_sound (opts : conf) (hd : opts.dump = 9999) (content pre rest : List Byte)
    (b : Prog) (hbok : b.ok = true) (pos : Nat)
    (hc : content = pre ++ 91 :: (b.flatten ++ 93 :: rest)) (hp : pos = pre.length)
    (hb1 : ∀ (n : Nat) (w : World) (res : FILE × World),
      loop_body n opts ⟨content, pos + 1⟩ w = some res →
      ∃ m w', ref_exec m opts b w = some w' ∧
        loop_body n opts ⟨content, pos + 1 + b.flatten.length⟩ w' = some res)
    (n : Nat) (w : World) (rv : Int) (f2 : FILE) (w2 : World)
    (h : interpret n 91 opts ⟨content, pos + 1⟩ w = some (rv, f2, w2)) :
    rv = 1 ∧ f2 = ⟨content, pos + 1 + b.flatten.length + 1⟩ ∧
      ∀ (r : Prog) (m : Nat) (wr : World), ref_exec m opts r w2 = some wr →
        ∃ m', ref_exec m' opts (Prog.loop b r) w = some wr := by
  obtain ⟨n, rfl⟩ : ∃ j, n = j + 1 := by
    cases n with
    | zero => simp [interpret] at h
    | succ j => exact ⟨j, rfl⟩
  rw [interpret_open n opts _ _ hd] at h
  cases hq : loop n opts ⟨content, pos + 1⟩ w with
  | none => simp [hq] at h
  | some q =>
    obtain ⟨f1, w1⟩ := q
    rw [hq] at h
    simp only [Option.some.injEq, Prod.mk.injEq] at h
    obtain ⟨hrv, hf, hw⟩ := h
    subst hrv hf hw
    refine ⟨rfl, ?_⟩
    obtain ⟨k, rfl⟩ : ∃ j, n = j + 1 := by
      cases n with
      | zero => simp [loop] at hq
      | succ j => exact ⟨j, rfl⟩
    by_cases hle : w.ptr.cur.data ≤ 0
    · simp only [loop, hle, if_true, Option.some.injEq, Prod.mk.injEq] at hq
      obtain ⟨hf, hw⟩ := hq
      subst hw
      have hskip := skip_loop_prog b hbok pre rest
      rw [← hc, ← hp] at hskip
      rw [hskip] at hf
      refine ⟨hf.symm, ?_⟩
      intro r m wr hr
      refine ⟨m + 1, ?_⟩
      have hng : ¬ (w.ptr.cur.data > 0) := by omega
      simp only [ref_exec, hng, if_false]
      exact hr
    · simp only [loop, hle, if_false, fgetpos] at hq
      exact loop_while_sound opts hd content pre rest b pos hc hp hb1 k _ w f1 w1 rfl
        (by omega) hq

theorem loop_body_sound (opts : conf) (hd : opts.dump = 9999) :
    ∀ (p : Prog), p.ok = true → ∀ (content pre rest : List Byte) (pos n : Nat) (w : World)
      (res : FILE × World), content = pre ++ (p.flatten ++ rest) → pos = pre.length →
      loop_body n opts ⟨content, pos⟩ w = some res →
      ∃ m w', ref_exec m opts p w = some w' ∧
        loop_body n opts ⟨content, pos + p.flatten.length⟩ w' = some res := by
  intro p
  induction p with
  | nil =>
    intro _ content pre rest pos n w res _ _ h
    exact ⟨1, w, by simp [ref_exec], by simpa [Prog.flatten] using h⟩
  | op c r ih =>
    intro hok content pre rest pos n w res hc hp h
    simp only [Prog.ok, Bool.and_eq_true, bne_iff_ne, ne_eq] at hok
    obtain ⟨⟨h1, h2⟩, hr⟩ := hok
    obtain ⟨n, rfl⟩ : ∃ j, n = j + 1 := by
      cases n with
      | zero => simp [loop_body] at h
      | succ j => exact ⟨j, rfl⟩
    rw [loop_body_at n opts content pre (r.flatten ++ rest) c pos w
      (by simpa [Prog.flatten] using hc) hp] at h
    obtain ⟨n, rfl⟩ : ∃ j, n = j + 1 := by
      cases n with
      | zero => simp [interpret] at h
      | succ j => exact ⟨j, rfl⟩
    rw [interpret_op n c opts _ w hd h1 h2] at h
    simp only [one_ne_zero, if_false] at h
    obtain ⟨m, w', href, hlb⟩ := ih hr content (pre ++ [c]) rest (pos + 1) (n + 1)
      (ref_instr opts c w) res (by simpa [Prog.flatten] using hc) (by simp [hp]) h
    refine ⟨m + 1, w', by simpa [ref_exec] using href, ?_⟩
    have e : pos + (Prog.op c r).flatten.length = pos + 1 + r.flatten.length := by
      simp [Prog.flatten]; omega
    rw [e]
    exact loop_body_mono (by omega) hlb
  | loop b r ihb ihr =>
    intro hok content pre rest pos n w res hc hp h
    simp only [Prog.ok, Bool.and_eq_true] at hok
    obtain ⟨hbok, hrok⟩ := hok
    have hc' : content = pre ++ 91 :: (b.flatten ++ 93 :: (r.flatten ++ rest)) := by
      simpa [Prog.flatten] using hc
    obtain ⟨n, rfl⟩ : ∃ j, n = j + 1 := by
      cases n with
      | zero => simp [loop_body] at h
      | succ j => exact ⟨j, rfl⟩
    rw [loop_body_at n opts content pre _ 91 pos w hc' hp, int_val_91] at h
    cases hq : interpret n 91 opts ⟨content, pos + 1⟩ w with
    | none => simp [hq] at h
    | some q =>
      obtain ⟨rv, f2, w2⟩ := q
      rw [hq] at h
      obtain ⟨hrv, hf2, href⟩ := interpret_open_sound opts hd content pre (r.flatten ++ rest) b
        hbok pos hc' hp
        (fun n w res h => ihb hbok content (pre ++ [91]) (93 :: (r.flatten ++ rest)) (pos + 1)
          n w res (by simp [hc']) (by simp [hp]) h)
        n w rv f2 w2 hq
      subst hrv hf2
      simp only [one_ne_zero, if_false] at h
      obtain ⟨m, w', hr, hlb⟩ := ihr hrok content (pre ++ 91 :: (b.flatten ++ [93])) rest
        (pos + 1 + b.flatten.length + 1) n w2 res (by simp [hc']) (by simp [hp]; omega) h
      obtain ⟨m', hm'⟩ := href r m w' hr
      refine ⟨m', w', hm', ?_⟩
      have e : pos + (Prog.loop b r).flatten.length
          = pos + 1 + b.flatten.length + 1 + r.flatten.length := by
        simp [Prog.flatten]; omega
      rw [e]
      exact loop_body_mono (by omega) hlb


theorem main_loop_sound (opts : conf) (hd : opts.dump = 9999) :
    ∀ (p : Prog), p.ok = true → ∀ (content pre rest : List Byte) (pos n : Nat) (w : World)
      (res : FILE × World), content = pre ++ (p.flatten ++ rest) → pos = pre.length →
      main_loop n opts ⟨content, pos⟩ w = some res →
      ∃ m w', ref_exec m opts p w = some w' ∧
        main_loop n opts ⟨content, pos + p.flatten.length⟩ w' = some res := by
  intro p
  induction p with
  | nil =>
    intro _ content pre rest pos n w res _ _ h
    exact ⟨1, w, by simp [ref_exec], by simpa [Prog.flatten] using h⟩
  | op c r ih =>
    intro hok content pre rest pos n w res hc hp h
    simp only [Prog.ok, Bool.and_eq_true, bne_iff_ne, ne_eq] at hok
    obtain ⟨⟨h1, h2⟩, hr⟩ := hok
    obtain ⟨n, rfl⟩ : ∃ j, n = j + 1 := by
      cases n with
      | zero => simp [main_loop] at h
      | succ j => exact ⟨j, rfl⟩
    rw [main_loop_at n opts content pre (r.flatten ++ rest) c pos w
      (by simpa [Prog.flatten] using hc) hp] at h
    obtain ⟨n, rfl⟩ : ∃ j, n = j + 1 := by
      cases n with
      | zero => simp [interpret] at h
      | succ j => exact ⟨j, rfl⟩
    rw [interpret_op n c opts _ w hd h1 h2] at h
    simp only at h
    obtain ⟨m, w', href, hlb⟩ := ih hr content (pre ++ [c]) rest (pos + 1) (n + 1)
      (ref_instr opts c w) res (by simpa [Prog.flatten] using hc) (by simp [hp]) h
    refine ⟨m + 1, w', by simpa [ref_exec] using href, ?_⟩
    have e : pos + (Prog.op c r).flatten.length = pos + 1 + r.flatten.length := by
      simp [Prog.flatten]; omega
    rw [e]
    exact main_loop_mono _ _ (by omega) _ _ _ _ hlb
  | loop b r _ ihr =>
    intro hok content pre rest pos n w res hc hp h
    simp only [Prog.ok, Bool.and_eq_true] at hok
    obtain ⟨hbok, hrok⟩ := hok
    have hc' : content = pre ++ 91 :: (b.flatten ++ 93 :: (r.flatten ++ rest)) := by
      simpa [Prog.flatten] using hc
    obtain ⟨n, rfl⟩ : ∃ j, n = j + 1 := by
      cases n with
      | zero => simp [main_loop] at h
      | succ j => exact ⟨j, rfl⟩
    rw [main_loop_at n opts content pre _ 91 pos w hc' hp, int_val_91] at h
    cases hq : interpret n 91 opts ⟨content, pos + 1⟩ w with
    | none => simp [hq] at h
    | some q =>
      obtain ⟨rv, f2, w2⟩ := q
      rw [hq] at h
      obtain ⟨hrv, hf2, href⟩ := interpret_open_sound opts hd content pre (r.flatten ++ rest) b
        hbok pos hc' hp
        (fun n w res h => loop_body_sound opts hd b hbok content (pre ++ [91])
          (93 :: (r.flatten ++ rest)) (pos + 1) n w res (by simp [hc']) (by simp [hp]) h)
        n w rv f2 w2 hq
      subst hrv hf2
      simp only at h
      obtain ⟨m, w', hr, hlb⟩ := ihr hrok content (pre ++ 91 :: (b.flatten ++ [93])) rest
        (pos + 1 + b.flatten.length + 1) n w2 res (by simp [hc']) (by simp [hp]; omega) h
      obtain ⟨m', hm'⟩ := href r m w' hr
      refine ⟨m', w', hm', ?_⟩
      have e : pos + (Prog.loop b r).flatten.length
          = pos + 1 + b.flatten.length + 1 + r.flatten.length := by
        simp [Prog.flatten]; omega
      rw [e]
      exact main_loop_mono _ _ (by omega) _ _ _ _ hlb

/-! ## From the reference semantics to the interpreter -/

/-- While the current cell is > 0 the outer loop of `loop` starts by moving
the file to `loop_start`, so where the file was does not matter. -/
theorem loop_while_pos_irrelevant (k : Nat) (opts : conf) (s : Nat) (content : List Byte)
    (p1 p2 : Nat) (w : World) (h : 0 < w.ptr.cur.data) :
    loop_while k opts s ⟨content, p1⟩ w = loop_while k opts s ⟨content, p2⟩ w := by
  cases k with
  | zero => simp [loop_while]
  | succ k =>
    have hgt : w.ptr.cur.data > 0 := h
    simp only [loop_while, hgt, if_true, fsetpos]

/-- One more pass in front: if a pass of the body takes `w` (cell > 0) to `w1`
and ends just after the closing bracket, then whatever the loop does when it
is met in `w1`, it does when it is met in `w`. -/
theorem interpret_open_unroll (opts : conf) (hd : opts.dump = 9999)
    (content pre rest : List Byte) (b : Prog) (hbok : b.ok = true) (pos : Nat)
    (hc : content = pre ++ 91 :: (b.flatten ++ 93 :: rest)) (hp : pos = pre.length)
    (w w1 : World) (hpos : 0 < w.ptr.cur.data) (n1 : Nat)
    (hpass : loop_body n1 opts ⟨content, pos + 1⟩ w
      = some (⟨content, pos + 1 + b.flatten.length + 1⟩, w1))
    (n : Nat) (x : Int × FILE × World)
    (h : interpret n 91 opts ⟨content, pos + 1⟩ w1 = some x) :
    ∃ n', interpret n' 91 opts ⟨content, pos + 1⟩ w = some x := by
  obtain ⟨n, rfl⟩ : ∃ j, n = j + 1 := by
    cases n with
    | zero => simp [interpret] at h
    | succ j => exact ⟨j, rfl⟩
  rw [interpret_open n opts _ _ hd] at h
  cases hq : loop n opts ⟨content, pos + 1⟩ w1 with
  | none => simp [hq] at h
  | some q =>
    obtain ⟨f2, w2⟩ := q
    rw [hq] at h
    simp only [Option.some.injEq] at h
    subst h
    obtain ⟨k, rfl⟩ : ∃ j, n = j + 1 := by
      cases n with
      | zero => simp [loop] at hq
      | succ j => exact ⟨j, rfl⟩
    have hgt : w.ptr.cur.data > 0 := hpos
    have hnle : ¬ (w.ptr.cur.data ≤ 0) := by omega
    -- what the outer loop does after the first pass
    have hrest : ∃ j, loop_while j opts (pos + 1)
        ⟨content, pos + 1 + b.flatten.length + 1⟩ w1 = some (f2, w2) := by
      by_cases hle : w1.ptr.cur.data ≤ 0
      · simp only [loop, hle, if_true, Option.some.injEq, Prod.mk.injEq] at hq
        obtain ⟨hf, hw⟩ := hq
        subst hw
        have hskip := skip_loop_prog b hbok pre rest
        rw [← hc, ← hp] at hskip
        rw [hskip] at hf
        subst hf
        have hng : ¬ (w1.ptr.cur.data > 0) := by omega
        exact ⟨1, by simp only [loop_while, hng, if_false]⟩
      · simp only [loop, hle, if_false, fgetpos] at hq
        refine ⟨k, ?_⟩
        rw [loop_while_pos_irrelevant k opts (pos + 1) content _ (pos + 1) w1 (by omega)]
        exact hq
    obtain ⟨j, hj⟩ := hrest
    refine ⟨max n1 j + 3, ?_⟩
    rw [interpret_open _ opts _ _ hd]
    have hl : loop (max n1 j + 2) opts ⟨content, pos + 1⟩ w = some (f2, w2) := by
      simp only [loop, hnle, if_false, fgetpos, loop_while, hgt, if_true, fsetpos]
      rw [loop_body_mono (le_max_left n1 j) hpass]
      exact loop_while_mono (le_max_right n1 j) hj
    rw [hl]


theorem loop_body_close (opts : conf) (hd : opts.dump = 9999) (content pre rest : List Byte)
    (pos : Nat) (w : World) (hc : content = pre ++ 93 :: rest) (hp : pos = pre.length) :
    loop_body 2 opts ⟨content, pos⟩ w = some (⟨content, pos + 1⟩, w) := by
  rw [loop_body_at 1 opts content pre rest 93 pos w hc hp, int_val_93,
    interpret_close 0 opts _ _ hd]
  simp

theorem interpret_open_skip (opts : conf) (hd : opts.dump = 9999) (content pre rest : List Byte)
    (b : Prog) (hbok : b.ok = true) (pos : Nat)
    (hc : content = pre ++ 91 :: (b.flatten ++ 93 :: rest)) (hp : pos = pre.length)
    (w : World) (hle : w.ptr.cur.data ≤ 0) (n : Nat) :
    interpret (n + 2) 91 opts ⟨content, pos + 1⟩ w
      = some (1, ⟨content, pos + 1 + b.flatten.length + 1⟩, w) := by
  have hskip := skip_loop_prog b hbok pre rest
  rw [← hc, ← hp] at hskip
  rw [interpret_open _ opts _ _ hd]
  simp only [loop, hle, if_true, hskip]

theorem loop_body_complete (opts : conf) (hd : opts.dump = 9999) :
    ∀ (m : Nat) (p : Prog) (w w' : World), p.ok = true → ref_exec m opts p w = some w' →
      ∀ (content pre rest : List Byte) (pos n : Nat) (res : FILE × World),
        content = pre ++ (p.flatten ++ rest) → pos = pre.length →
        loop_body n opts ⟨content, pos + p.flatten.length⟩ w' = some res →
        ∃ n', loop_body n' opts ⟨content, pos⟩ w = some res := by
  intro m
  induction m with
  | zero => intro p w w' _ h; simp [ref_exec] at h
  | succ m ih =>
    intro p w w' hok h content pre rest pos n res hc hp hres
    cases p with
    | nil =>
      simp only [ref_exec, Option.some.injEq] at h
      subst h
      exact ⟨n, by simpa [Prog.flatten] using hres⟩
    | op c r =>
      simp only [Prog.ok, Bool.and_eq_true, bne_iff_ne, ne_eq] at hok
      obtain ⟨⟨h1, h2⟩, hr⟩ := hok
      simp only [ref_exec] at h
      have e : pos + (Prog.op c r).flatten.length = pos + 1 + r.flatten.length := by
        simp [Prog.flatten]; omega
      rw [e] at hres
      obtain ⟨n1, hn1⟩ := ih r _ w' hr h content (pre ++ [c]) rest (pos + 1) n res
        (by simpa [Prog.flatten] using hc) (by simp [hp]) hres
      refine ⟨n1 + 2, ?_⟩
      rw [loop_body_at (n1 + 1) opts content pre (r.flatten ++ rest) c pos w
        (by simpa [Prog.flatten] using hc) hp, interpret_op n1 c opts _ w hd h1 h2]
      simp only [one_ne_zero, if_false]
      exact loop_body_mono (by omega) hn1
    | loop b r =>
      simp only [Prog.ok, Bool.and_eq_true] at hok
      obtain ⟨hbok, hrok⟩ := hok
      have hc' : content = pre ++ 91 :: (b.flatten ++ 93 :: (r.flatten ++ rest)) := by
        simpa [Prog.flatten] using hc
      have e : pos + (Prog.loop b r).flatten.length
          = pos + 1 + b.flatten.length + 1 + r.flatten.length := by
        simp [Prog.flatten]; omega
      simp only [ref_exec] at h
      by_cases hgt : w.ptr.cur.data > 0
      · simp only [hgt, if_true] at h
        cases hq : ref_exec m opts b w with
        | none => simp [hq] at h
        | some w1 =>
          rw [hq] at h
          simp only at h
          obtain ⟨n2, hn2⟩ := ih (Prog.loop b r) w1 w' (by simp [Prog.ok, hbok, hrok]) h
            content pre rest pos n res hc hp hres
          obtain ⟨n1, hpass⟩ := ih b w w1 hbok hq content (pre ++ [91])
            (93 :: (r.flatten ++ rest)) (pos + 1) 2 (⟨content, pos + 1 + b.flatten.length + 1⟩, w1)
            (by simp [hc']) (by simp [hp])
            (loop_body_close opts hd content (pre ++ 91 :: b.flatten) (r.flatten ++ rest) _ w1
              (by simp [hc']) (by simp [hp]; omega))
          obtain ⟨N, rfl⟩ : ∃ j, n2 = j + 1 := by
            cases n2 with
            | zero => simp [loop_body] at hn2
            | succ j => exact ⟨j, rfl⟩
          rw [loop_body_at N opts content pre _ 91 pos w1 hc' hp, int_val_91] at hn2
          cases hx : interpret N 91 opts ⟨content, pos + 1⟩ w1 with
          | none => simp [hx] at hn2
          | some x =>
            rw [hx] at hn2
            obtain ⟨N', hN'⟩ := interpret_open_unroll opts hd content pre (r.flatten ++ rest) b
              hbok pos hc' hp w w1 hgt n1 hpass N x hx
            refine ⟨max N N' + 1, ?_⟩
            rw [loop_body_at _ opts content pre _ 91 pos w hc' hp, int_val_91,
              interpret_mono (le_max_right N N') hN']
            obtain ⟨rv, f2, w2⟩ := x
            simp only at hn2 ⊢
            by_cases hrv : rv = 0
            · simp only [hrv, if_true] at hn2 ⊢; exact hn2
            · simp only [hrv, if_false] at hn2 ⊢
              exact loop_body_mono (le_max_left N N') hn2
      · simp only [hgt, if_false] at h
        rw [e] at hres
        obtain ⟨n1, hn1⟩ := ih r w w' hrok h content (pre ++ 91 :: (b.flatten ++ [93])) rest
          (pos + 1 + b.flatten.length + 1) n res (by simp [hc']) (by simp [hp]; omega) hres
        refine ⟨n1 + 3, ?_⟩
        rw [loop_body_at _ opts content pre _ 91 pos w hc' hp, int_val_91,
          interpret_open_skip opts hd content pre (r.flatten ++ rest) b hbok pos hc' hp w
            (by omega) n1]
        simp only [one_ne_zero, if_false]
        exact loop_body_mono (by omega) hn1

theorem main_loop_complete (opts : conf) (hd : opts.dump = 9999) :
    ∀ (m : Nat) (p : Prog) (w w' : World), p.ok = true → ref_exec m opts p w = some w' →
      ∀ (content pre rest : List Byte) (pos n : Nat) (res : FILE × World),
        content = pre ++ (p.flatten ++ rest) → pos = pre.length →
        main_loop n opts ⟨content, pos + p.flatten.length⟩ w' = some res →
        ∃ n', main_loop n' opts ⟨content, pos⟩ w = some res := by
  intro m
  induction m with
  | zero => intro p w w' _ h; simp [ref_exec] at h
  | succ m ih =>
    intro p w w' hok h content pre rest pos n res hc hp hres
    cases p with
    | nil =>
      simp only [ref_exec, Option.some.injEq] at h
      subst h
      exact ⟨n, by simpa [Prog.flatten] using hres⟩
    | op c r =>
      simp only [Prog.ok, Bool.and_eq_true, bne_iff_ne, ne_eq] at hok
      obtain ⟨⟨h1, h2⟩, hr⟩ := hok
      simp only [ref_exec] at h
      have e : pos + (Prog.op c r).flatten.length = pos + 1 + r.flatten.length := by
        simp [Prog.flatten]; omega
      rw [e] at hres
      obtain ⟨n1, hn1⟩ := ih r _ w' hr h content (pre ++ [c]) rest (pos + 1) n res
        (by simpa [Prog.flatten] using hc) (by simp [hp]) hres
      refine ⟨n1 + 2, ?_⟩
      rw [main_loop_at (n1 + 1) opts content pre (r.flatten ++ rest) c pos w
        (by simpa [Prog.flatten] using hc) hp, interpret_op n1 c opts _ w hd h1 h2]
      simp only
      exact main_loop_mono _ _ (by omega) _ _ _ _ hn1
    | loop b r =>
      simp only [Prog.ok, Bool.and_eq_true] at hok
      obtain ⟨hbok, hrok⟩ := hok
      have hc' : content = pre ++ 91 :: (b.flatten ++ 93 :: (r.flatten ++ rest)) := by
        simpa [Prog.flatten] using hc
      have e : pos + (Prog.loop b r).flatten.length
          = pos + 1 + b.flatten.length + 1 + r.flatten.length := by
        simp [Prog.flatten]; omega
      simp only [ref_exec] at h
      by_cases hgt : w.ptr.cur.data > 0
      · simp only [hgt, if_true] at h
        cases hq : ref_exec m opts b w with
        | none => simp [hq] at h
        | some w1 =>
          rw [hq] at h
          simp only at h
          obtain ⟨n2, hn2⟩ := ih (Prog.loop b r) w1 w' (by simp [Prog.ok, hbok, hrok]) h
            content pre rest pos n res hc hp hres
          obtain ⟨n1, hpass⟩ := loop_body_complete opts hd m b w w1 hbok hq content (pre ++ [91])
            (93 :: (r.flatten ++ rest)) (pos + 1) 2 (⟨content, pos + 1 + b.flatten.length + 1⟩, w1)
            (by simp [hc']) (by simp [hp])
            (loop_body_close opts hd content (pre ++ 91 :: b.flatten) (r.flatten ++ rest) _ w1
              (by simp [hc']) (by simp [hp]; omega))
          obtain ⟨N, rfl⟩ : ∃ j, n2 = j + 1 := by
            cases n2 with
            | zero => simp [main_loop] at hn2
            | succ j => exact ⟨j, rfl⟩
          rw [main_loop_at N opts content pre _ 91 pos w1 hc' hp, int_val_91] at hn2
          cases hx : interpret N 91 opts ⟨content, pos + 1⟩ w1 with
          | none => simp [hx] at hn2
          | some x =>
            rw [hx] at hn2
            obtain ⟨N', hN'⟩ := interpret_open_unroll opts hd content pre (r.flatten ++ rest) b
              hbok pos hc' hp w w1 hgt n1 hpass N x hx
            refine ⟨max N N' + 1, ?_⟩
            rw [main_loop_at _ opts content pre _ 91 pos w hc' hp, int_val_91,
              interpret_mono (le_max_right N N') hN']
            obtain ⟨rv, f2, w2⟩ := x
            simp only at hn2 ⊢
            exact main_loop_mono _ _ (le_max_left N N') _ _ _ _ hn2
      · simp only [hgt, if_false] at h
        rw [e] at hres
        obtain ⟨n1, hn1⟩ := ih r w w' hrok h content (pre ++ 91 :: (b.flatten ++ [93])) rest
          (pos + 1 + b.flatten.length + 1) n res (by simp [hc']) (by simp [hp]; omega) hres
        refine ⟨n1 + 3, ?_⟩
        rw [main_loop_at _ opts content pre _ 91 pos w hc' hp, int_val_91,
          interpret_open_skip opts hd content pre (r.flatten ++ rest) b hbok pos hc' hp w
            (by omega) n1]
        simp only
        exact main_loop_mono _ _ (by omega) _ _ _ _ hn1


/-! ## Well-nested texts are the texts of structured programs -/

theorem well_nested_go_flatten : ∀ (p : Prog), p.ok = true → ∀ (d : Nat) (rest : List Byte),
    well_nested_go d (p.flatten ++ rest) = well_nested_go d rest := by
  intro p
  induction p with
  | nil => intro _ d rest; simp [Prog.flatten]
  | op c r ih =>
    intro hok d rest
    simp only [Prog.ok, Bool.and_eq_true, bne_iff_ne, ne_eq] at hok
    obtain ⟨⟨h1, h2⟩, hr⟩ := hok
    simp only [Prog.flatten, List.cons_append, well_nested_go, h1, h2, if_false]
    exact ih hr d rest
  | loop b r ihb ihr =>
    intro hok d rest
    simp only [Prog.ok, Bool.and_eq_true] at hok
    obtain ⟨hb, hr⟩ := hok
    have h9391 : ¬ ((93 : Byte) = 91) := by decide
    have e : (Prog.loop b r).flatten ++ rest
        = 91 :: (b.flatten ++ 93 :: (r.flatten ++ rest)) := by simp [Prog.flatten]
    rw [e]
    simp only [well_nested_go, if_true]
    rw [ihb hb (d + 1) (93 :: (r.flatten ++ rest))]
    simp only [well_nested_go, h9391, if_false, if_true]
    exact ihr hr d rest

theorem well_nested_go_unwind : ∀ (s : List Byte) (d : Nat), well_nested_go d s = true →
    ∃ (p : Prog) (qs : List Prog), qs.length = d ∧ p.ok = true ∧ (∀ q ∈ qs, q.ok = true) ∧
      unwind p qs = s := by
  intro s
  induction s with
  | nil =>
    intro d h
    simp only [well_nested_go, beq_iff_eq] at h
    subst h
    exact ⟨Prog.nil, [], rfl, rfl, by simp, rfl⟩
  | cons c l ih =>
    intro d h
    simp only [well_nested_go] at h
    by_cases h1 : c = 91
    · simp only [h1, if_true] at h
      obtain ⟨p, qs, hlen, hp, hqs, hu⟩ := ih (d + 1) h
      cases qs with
      | nil => simp at hlen
      | cons q qs =>
        refine ⟨Prog.loop p q, qs, by simpa using hlen, ?_, ?_, ?_⟩
        · simp [Prog.ok, hp, hqs q (List.mem_cons_self _ _)]
        · intro x hx; exact hqs x (List.mem_cons_of_mem _ hx)
        · subst h1
          rw [← hu]
          cases qs <;> simp [unwind, Prog.flatten]
    · simp only [h1, if_false] at h
      by_cases h2 : c = 93
      · simp only [h2, if_true] at h
        cases d with
        | zero => simp at h
        | succ d =>
          simp only at h
          obtain ⟨p, qs, hlen, hp, hqs, hu⟩ := ih d h
          refine ⟨Prog.nil, p :: qs, by simp [hlen], rfl, ?_, ?_⟩
          · intro x hx
            rcases List.mem_cons.mp hx with rfl | hx
            · exact hp
            · exact hqs x hx
          · subst h2
            rw [← hu]
            simp [unwind, Prog.flatten]
      · simp only [h2, if_false] at h
        obtain ⟨p, qs, hlen, hp, hqs, hu⟩ := ih d h
        refine ⟨Prog.op c p, qs, hlen, ?_, hqs, ?_⟩
        · simp [Prog.ok, h1, h2, hp]
        · rw [← hu]
          cases qs <;> simp [unwind, Prog.flatten]

theorem well_nested_iff (s : List Byte) :
    well_nested s = true ↔ ∃ p : Prog, p.ok = true ∧ p.flatten = s := by
  constructor
  · intro h
    obtain ⟨p, qs, hlen, hp, _, hu⟩ := well_nested_go_unwind s 0 h
    cases qs with
    | nil => exact ⟨p, hp, by simpa [unwind] using hu⟩
    | cons q qs => simp at hlen
  · rintro ⟨p, hp, rfl⟩
    have h := well_nested_go_flatten p hp 0 []
    simp only [List.append_nil] at h
    simp [well_nested, h, well_nested_go]

/-- C3: for a well-nested source, with no dump character configured, the read
loop of `main` (with `interpret`, `loop` and `skip_loop`, which read the body
of a loop again from the saved position on every pass) agrees with the
reference semantics of the structured program the text stands for, in which
`[B]` is "while the current cell is > 0, execute B": from every tape and input
one ends exactly when the other does, in the same tape, position, remaining
input, output and warnings; the interpreter then stands at the end of the
source. -/
theorem main_loop_refines_reference (s : List Byte) (hs : well_nested s = true) (opts : conf)
    (hd : opts.dump = 9999) :
    (∃ p : Prog, p.ok = true ∧ p.flatten = s) ∧
    ∀ p : Prog, p.ok = true → p.flatten = s → ∀ w w' : World,
      ((∃ n f', main_loop n opts ⟨s, 0⟩ w = some (f', w')) ↔
        (∃ m, ref_exec m opts p w = some w')) ∧
      (∀ n f', main_loop n opts ⟨s, 0⟩ w = some (f', w') → f' = ⟨s, s.length⟩) := by
  refine ⟨(well_nested_iff s).mp hs, ?_⟩
  intro p hp hflat w w'
  have key : ∀ n f', main_loop n opts ⟨s, 0⟩ w = some (f', w') →
      f' = ⟨s, s.length⟩ ∧ ∃ m, ref_exec m opts p w = some w' := by
    intro n f' h
    obtain ⟨m, w1, href, hend⟩ := main_loop_sound opts hd p hp s [] [] 0 n w (f', w')
      (by simp [hflat]) rfl h
    obtain ⟨n, rfl⟩ : ∃ j, n = j + 1 := by
      cases n with
      | zero => simp [main_loop] at h
      | succ j => exact ⟨j, rfl⟩
    rw [main_loop_eof n opts s _ w1 (by simp [hflat])] at hend
    simp only [Option.some.injEq, Prod.mk.injEq] at hend
    obtain ⟨hf, hw⟩ := hend
    subst hw
    exact ⟨by rw [← hf, hflat]; simp, m, href⟩
  refine ⟨⟨?_, ?_⟩, ?_⟩
  · rintro ⟨n, f', h⟩
    exact (key n f' h).2
  · rintro ⟨m, h⟩
    obtain ⟨n, hn⟩ := main_loop_complete opts hd m p w w' hp h s [] [] 0 1 (⟨s, s.length⟩, w')
      (by simp [hflat]) rfl
      (by
        have := main_loop_eof 0 opts s (0 + p.flatten.length) w' (by simp [hflat])
        rw [this, hflat]; simp)
    exact ⟨n, _, hn⟩
  · intro n f' h
    exact (key n f' h).1

theorem main_loop_refines_reference_witness :
    well_nested [43, 91, 45, 93] = true ∧ default_conf.dump = 9999 ∧
    main_loop 8 default_conf ⟨[43, 91, 45, 93], 0⟩ (initial_world [])
      = some (⟨[43, 91, 45, 93], 4⟩, initial_world []) ∧
    ref_exec 5 default_conf (Prog.op 43 (Prog.loop (Prog.op 45 Prog.nil) Prog.nil))
      (initial_world []) = some (initial_world []) ∧
    ((∃ p : Prog, p.ok = true ∧ p.flatten = [43, 91, 45, 93]) ∧
      ∀ p : Prog, p.ok = true → p.flatten = [43, 91, 45, 93] → ∀ w w' : World,
        ((∃ n f', main_loop n default_conf ⟨[43, 91, 45, 93], 0⟩ w = some (f', w')) ↔
          (∃ m, ref_exec m default_conf p w = some w')) ∧
        (∀ n f', main_loop n default_conf ⟨[43, 91, 45, 93], 0⟩ w = some (f', w') →
          f' = ⟨[43, 91, 45, 93], ([43, 91, 45, 93] : List Byte).length⟩)) :=
  ⟨by decide, rfl, by decide, by decide,
    main_loop_refines_reference [43, 91, 45, 93] (by decide) default_conf rfl⟩


/-! ## The addition program -/

theorem ops_flatten (cs : List Byte) (rest : Prog) : (ops cs rest).flatten = cs ++ rest.flatten := by
  induction cs with
  | nil => rfl
  | cons c cs ih => simp [ops, Prog.flatten] at ih ⊢; exact ih

theorem ops_ok (cs : List Byte) (rest : Prog) (h : ∀ c ∈ cs, c ≠ 91 ∧ c ≠ 93)
    (hr : rest.ok = true) : (ops cs rest).ok = true := by
  induction cs with
  | nil => exact hr
  | cons c cs ih =>
    have hc := h c (List.mem_cons_self _ _)
    have := ih (fun x hx => h x (List.mem_cons_of_mem _ hx))
    simp only [ops, List.foldr_cons, Prog.ok, Bool.and_eq_true, bne_iff_ne, ne_eq] at this ⊢
    exact ⟨⟨hc.1, hc.2⟩, this⟩

theorem ref_exec_ops (opts : conf) (rest : Prog) : ∀ (cs : List Byte) (n : Nat) (w : World),
    ref_exec (n + cs.length) opts (ops cs rest) w
      = ref_exec n opts rest (cs.foldl (fun w c => ref_instr opts c w) w) := by
  intro cs
  induction cs with
  | nil => intro n w; rfl
  | cons c cs ih =>
    intro n w
    have e : n + (c :: cs).length = (n + cs.length) + 1 := by simp; omega
    rw [e]
    simp only [ops, List.foldr_cons, ref_exec, List.foldl_cons]
    exact ih n (ref_instr opts c w)

theorem sum_prog_flatten (a b : Nat) : (sum_prog a b).flatten = sum_source a b := by
  simp [sum_prog, sum_source, ops_flatten, Prog.flatten]

theorem replicate_43_not_bracket (n : Nat) : ∀ c ∈ List.replicate n (43 : Byte), c ≠ 91 ∧ c ≠ 93 := by
  intro c hc
  rw [List.eq_of_mem_replicate hc]
  decide

theorem sum_prog_ok (a b : Nat) : (sum_prog a b).ok = true := by
  unfold sum_prog
  apply ops_ok _ _ (replicate_43_not_bracket a)
  simp only [Prog.ok, Bool.and_eq_true]
  refine ⟨by decide, ?_⟩
  apply ops_ok _ _ (replicate_43_not_bracket b)
  decide

theorem foldl_plus (opts : conf) : ∀ (n : Nat) (w : World),
    (List.replicate n (43 : Byte)).foldl (fun w c => ref_instr opts c w) w
      = set_data w (w.ptr.cur.data + n) := by
  intro n
  induction n with
  | zero => intro w; simp [set_data]
  | succ n ih =>
    intro w
    simp only [List.replicate_succ, List.foldl_cons]
    rw [ih]
    simp only [ref_instr, set_data, show ¬ ((43 : Byte) = 62) by decide,
      show ¬ ((43 : Byte) = 60) by decide, if_false, if_true, Nat.cast_add, Nat.cast_one]
    congr 3
    omega


theorem sum_pass (opts : conf) (input : List Byte) (x y : Int) (hy : 0 < y) :
    ([60, 43, 62, 45] : List Byte).foldl (fun w c => ref_instr opts c w) (two_cells input x y)
      = two_cells input (x + 1) (y - 1) := by
  have hne : ¬ (y - 1 = -1) := by omega
  simp only [List.foldl_cons, List.foldl_nil, ref_instr, two_cells, prev_cell, next_cell, set_data,
    show ¬ ((60 : Byte) = 62) by decide, show ¬ ((43 : Byte) = 62) by decide,
    show ¬ ((43 : Byte) = 60) by decide, show ¬ ((45 : Byte) = 62) by decide,
    show ¬ ((45 : Byte) = 60) by decide, show ¬ ((45 : Byte) = 43) by decide,
    if_true, if_false, hne, false_and]

theorem sum_tail (opts : conf) (input : List Byte) (x : Nat) :
    ([60, 46] : List Byte).foldl (fun w c => ref_instr opts c w) (two_cells input x 0)
      = sum_final input x := by
  simp only [List.foldl_cons, List.foldl_nil, ref_instr, two_cells, prev_cell, putchar, sum_final,
    show ¬ ((60 : Byte) = 62) by decide, show ¬ ((46 : Byte) = 62) by decide,
    show ¬ ((46 : Byte) = 60) by decide, show ¬ ((46 : Byte) = 43) by decide,
    show ¬ ((46 : Byte) = 45) by decide, if_true, if_false, List.nil_append]
  have e : ((x : Int) % 256).toNat = x % 256 := by omega
  simp only [e]

theorem sum_head (opts : conf) (input : List Byte) (a b : Nat) :
    (List.replicate b (43 : Byte)).foldl (fun w c => ref_instr opts c w)
      (ref_instr opts 62 ((List.replicate a (43 : Byte)).foldl (fun w c => ref_instr opts c w)
        (initial_world input)))
      = two_cells input a b := by
  rw [foldl_plus, foldl_plus]
  simp [ref_instr, initial_world, initial_tape, set_data, next_cell, insert_last, two_cells]

theorem sum_loop (opts : conf) (input : List Byte) (rest : Prog) (r : World) :
    ∀ (k : Nat) (x : Int) (m0 : Nat),
      ref_exec m0 opts rest (two_cells input (x + k) 0) = some r →
      ∃ m, ref_exec m opts (Prog.loop (ops [60, 43, 62, 45] Prog.nil) rest)
        (two_cells input x k) = some r := by
  intro k
  induction k with
  | zero =>
    intro x m0 h
    refine ⟨m0 + 1, ?_⟩
    simp only [ref_exec, two_cells, gt_iff_lt, Nat.cast_zero, lt_self_iff_false, if_false]
    simpa [two_cells] using h
  | succ k ih =>
    intro x m0 h
    have e : x + ((k + 1 : Nat) : Int) = (x + 1) + (k : Int) := by push_cast; ring
    rw [e] at h
    obtain ⟨m, hm⟩ := ih (x + 1) m0 h
    refine ⟨max 5 m + 1, ?_⟩
    have hgt : (two_cells input x ((k + 1 : Nat) : Int)).ptr.cur.data > 0 := by
      simp only [two_cells]; omega
    have hbody : ref_exec (max 5 m) opts (ops [60, 43, 62, 45] Prog.nil)
        (two_cells input x ((k + 1 : Nat) : Int)) = some (two_cells input (x + 1) k) := by
      apply ref_exec_mono 5 _ (le_max_left _ _)
      have := ref_exec_ops opts Prog.nil [60, 43, 62, 45] 1 (two_cells input x ((k + 1 : Nat) : Int))
      simp only [List.length_cons, List.length_nil] at this
      rw [show (5 : Nat) = 1 + (0 + 1 + 1 + 1 + 1) by rfl, this, sum_pass opts input x _ (by omega)]
      simp only [ref_exec, Nat.cast_add, Nat.cast_one, add_sub_cancel_right]
    simp only [ref_exec, hgt, if_true, hbody]
    exact ref_exec_mono m _ (le_max_right _ _) _ _ _ _ hm

theorem sum_prog_ref (opts : conf) (input : List Byte) (a b : Nat) :
    ∃ m, ref_exec m opts (sum_prog a b) (initial_world input) = some (sum_final input (a + b)) := by
  have htail : ref_exec (1 + 2) opts (ops [60, 46] Prog.nil) (two_cells input ((a : Int) + b) 0)
      = some (sum_final input (a + b)) := by
    have := ref_exec_ops opts Prog.nil [60, 46] 1 (two_cells input ((a + b : Nat) : Int) 0)
    simp only [List.length_cons, List.length_nil, Nat.cast_add] at this
    rw [this, ← Nat.cast_add, sum_tail]
    simp [ref_exec]
  obtain ⟨m, hm⟩ := sum_loop opts input _ _ b a _ htail
  refine ⟨((m + b) + 1) + a, ?_⟩
  have h1 := ref_exec_ops opts (Prog.op 62 (ops (List.replicate b 43)
    (Prog.loop (ops [60, 43, 62, 45] Prog.nil) (ops [60, 46] Prog.nil))))
    (List.replicate a 43) ((m + b) + 1) (initial_world input)
  simp only [List.length_replicate] at h1
  unfold sum_prog
  rw [h1]
  simp only [ref_exec]
  have h2 := ref_exec_ops opts (Prog.loop (ops [60, 43, 62, 45] Prog.nil) (ops [60, 46] Prog.nil))
    (List.replicate b 43) m
    (ref_instr opts 62 ((List.replicate a (43 : Byte)).foldl (fun w c => ref_instr opts c w)
        (initial_world input)))
  simp only [List.length_replicate] at h2
  rw [h2, sum_head]
  exact hm

theorem sum_source_counts (a b : Nat) :
    (sum_source a b).count 91 = (sum_source a b).count 93 := by
  simp [sum_source, List.count_append, List.count_replicate, List.count_cons]

/-- C5: for all a and b with a + b in the range of `int`, with no dump
character configured and whatever the input, `main` on
`+`ᵃ `>` `+`ᵇ `[<+>-]<.` ends normally with cell 0 holding a + b and current,
cell 1 holding 0, the input untouched, no warning, and one byte, (a + b) mod
256, written. -/
theorem main_sum_program (a b : Nat) (_hrange : ((a + b : Nat) : Int) ≤ INT_MAX) (opts : conf)
    (hd : opts.dump = 9999) (input : List Byte) :
    ∃ n, main n opts (sum_source a b) input
      = some (Exit.success, ⟨sum_source a b, (sum_source a b).length⟩,
          { ptr := { prev := [], cur := { data := ((a + b : Nat) : Int), cell := 0 },
                     next := [{ data := 0, cell := 1 }] },
            stdin := input,
            stdout := [Out.char ⟨(a + b) % 256, Nat.mod_lt _ (by decide)⟩],
            stderr := [] }) := by
  obtain ⟨m, hm⟩ := sum_prog_ref opts input a b
  obtain ⟨n, hn⟩ := main_loop_complete opts hd m (sum_prog a b) _ _ (sum_prog_ok a b) hm
    (sum_source a b) [] [] 0 1 (⟨sum_source a b, (sum_source a b).length⟩, sum_final input (a + b))
    (by simp [sum_prog_flatten]) rfl
    (by
      have := main_loop_eof 0 opts (sum_source a b) (0 + (sum_prog a b).flatten.length)
        (sum_final input (a + b)) (by simp [sum_prog_flatten])
      rw [this, sum_prog_flatten]; simp)
  refine ⟨n, ?_⟩
  simp only [main, parens_match_eq, sum_source_counts, if_true, one_ne_zero, if_false, hn]
  rfl

theorem main_sum_program_witness :
    ((2 + 5 : Nat) : Int) ≤ INT_MAX ∧ default_conf.dump = 9999 ∧
    sum_source 2 5 = [43, 43, 62, 43, 43, 43, 43, 43, 91, 60, 43, 62, 45, 93, 60, 46] ∧
    main 24 default_conf [43, 43, 62, 43, 43, 43, 43, 43, 91, 60, 43, 62, 45, 93, 60, 46] []
      = some (Exit.success, ⟨[43, 43, 62, 43, 43, 43, 43, 43, 91, 60, 43, 62, 45, 93, 60, 46], 16⟩,
          { ptr := { prev := [], cur := { data := 7, cell := 0 },
                     next := [{ data := 0, cell := 1 }] },
            stdin := [], stdout := [Out.char 7], stderr := [] }) ∧
    ∃ n, main n default_conf (sum_source 2 5) []
      = some (Exit.success, ⟨sum_source 2 5, (sum_source 2 5).length⟩,
          { ptr := { prev := [], cur := { data := ((2 + 5 : Nat) : Int), cell := 0 },
                     next := [{ data := 0, cell := 1 }] },
            stdin := [],
            stdout := [Out.char ⟨(2 + 5) % 256, Nat.mod_lt _ (by decide)⟩],
            stderr := [] }) :=
  ⟨by decide, rfl, by decide, by decide!, main_sum_program 2 5 (by decide) default_conf rfl []⟩


/-! ## Reading input -/

/-- C6: `get_cell_data` (the instruction `,`), for every tape, input and
options.  If the input is not empty it takes exactly one byte `b` off it and
stores `b`, a value in 0..255, in the current cell.  At end of input it stores
the replacement value when one is configured (`eof` other than 9999) and
otherwise leaves the current cell as it is.  A warning is emitted exactly
when end of input was hit and warnings are enabled.  In every case the other
cells, the number of the current cell and the output are unchanged. -/
theorem get_cell_data_behaviour (opts : conf) (w : World) :
    (get_cell_data opts w).ptr.prev = w.ptr.prev ∧
    (get_cell_data opts w).ptr.next = w.ptr.next ∧
    (get_cell_data opts w).ptr.cur.cell = w.ptr.cur.cell ∧
    (get_cell_data opts w).stdout = w.stdout ∧
    (get_cell_data opts w).stderr
      = (if w.stdin = [] ∧ opts.warn ≠ 0 then w.stderr ++ [Warn.eof_input] else w.stderr) ∧
    (∀ (b : Byte) (rest : List Byte), w.stdin = b :: rest →
      (get_cell_data opts w).stdin = rest ∧
      (get_cell_data opts w).ptr.cur.data = (b.val : Int) ∧
      0 ≤ (get_cell_data opts w).ptr.cur.data ∧ (get_cell_data opts w).ptr.cur.data ≤ 255) ∧
    (w.stdin = [] →
      (get_cell_data opts w).stdin = [] ∧
      (get_cell_data opts w).ptr.cur.data
        = (if opts.eof ≠ 9999 then opts.eof else w.ptr.cur.data)) := by
  obtain ⟨ptr, stdin, stdout, stderr⟩ := w
  cases stdin with
  | nil =>
    have hE : EOF = EOF := rfl
    by_cases hw : opts.warn = 0 <;> by_cases he : opts.eof = 9999 <;>
      simp [get_cell_data, getchar, set_data, hw, he]
  | cons b rest =>
    have hb : ¬ (((b.val : Nat) : Int) = EOF) := byte_ne_EOF b
    simp only [get_cell_data, getchar, set_data, hb, if_false]
    simp only [List.cons.injEq, and_imp, true_and, reduceCtorEq, false_and, if_false,
      false_implies, and_true, implies_true]
    intro b' rest' h1 h2
    subst h1 h2
    refine ⟨rfl, rfl, ?_, ?_⟩ <;> omega

theorem get_cell_data_behaviour_witness :
    get_cell_data default_conf (initial_world [65, 66])
      = { ptr := { prev := [], cur := { data := 65, cell := 0 }, next := [] },
          stdin := [66], stdout := [], stderr := [] } ∧
    get_cell_data { dump := 9999, eof := 0, warn := 1 }
        { ptr := { prev := [], cur := { data := 7, cell := 0 }, next := [] },
          stdin := [], stdout := [], stderr := [] }
      = { ptr := { prev := [], cur := { data := 0, cell := 0 }, next := [] },
          stdin := [], stdout := [], stderr := [Warn.eof_input] } ∧
    get_cell_data default_conf
        { ptr := { prev := [], cur := { data := 7, cell := 0 }, next := [] },
          stdin := [], stdout := [], stderr := [] }
      = { ptr := { prev := [], cur := { data := 7, cell := 0 }, next := [] },
          stdin := [], stdout := [], stderr := [] } ∧
    (get_cell_data default_conf (initial_world [65, 66])).stdin = [66] ∧
    (get_cell_data default_conf (initial_world [65, 66])).ptr.cur.data = 65 :=
  ⟨by decide, by decide, by decide,
    ((get_cell_data_behaviour default_conf (initial_world [65, 66])).2.2.2.2.2.1 65 [66] rfl).1,
    ((get_cell_data_behaviour default_conf (initial_world [65, 66])).2.2.2.2.2.1 65 [66] rfl).2.1⟩

/-- C7: the source `,.` run by `main` on an input that starts with the byte
`b`, with a dump character (if any) other than `,` and `.`: the run ends
normally having written exactly the byte `b` and having taken exactly that
byte off the input. -/
theorem main_echo_one_byte (n : Nat) (opts : conf) (b : Byte) (rest : List Byte)
    (h1 : opts.dump ≠ 44) (h2 : opts.dump ≠ 46) :
    main (n + 3) opts [44, 46] (b :: rest)
      = some (Exit.success, ⟨[44, 46], 2⟩,
          { ptr := { prev := [], cur := { data := (b.val : Int), cell := 0 }, next := [] },
            stdin := rest, stdout := [Out.char b], stderr := [] }) := by
  have hb : ¬ (((b.val : Nat) : Int) = EOF) := byte_ne_EOF b
  have e : (⟨(((b.val : Nat) : Int) % 256).toNat, by omega⟩ : Byte) = b := by
    apply Fin.ext
    simp only
    omega
  have g1 := fgetc_at [44, 46] [] [46] 44 0 rfl rfl
  have g2 := fgetc_at [44, 46] [44] [] 46 1 rfl rfl
  have g3 := fgetc_eof [44, 46] 2 (by simp)
  have v44 : (((44 : Byte).val : Nat) : Int) = 44 := rfl
  have v46 : (((46 : Byte).val : Nat) : Int) = 46 := rfl
  rw [v44] at g1
  rw [v46] at g2
  have c1 : ¬ ((44 : Int) = EOF) := by unfold EOF; omega
  have c2 : ¬ ((46 : Int) = EOF) := by unfold EOF; omega
  have p : parens_match ⟨[44, 46], 0⟩ = (1, ⟨[44, 46], 0⟩) := by
    rw [parens_match_eq]; rfl
  simp only [main, p, one_ne_zero, if_false, main_loop, g1, g2, g3, c1, c2, if_true, interpret,
    Ne.symm h1, Ne.symm h2, show ¬ ((44 : Int) = 62) by decide, show ¬ ((44 : Int) = 60) by decide,
    show ¬ ((44 : Int) = 43) by decide, show ¬ ((44 : Int) = 45) by decide,
    show ¬ ((44 : Int) = 46) by decide, show ¬ ((46 : Int) = 62) by decide,
    show ¬ ((46 : Int) = 60) by decide, show ¬ ((46 : Int) = 43) by decide,
    show ¬ ((46 : Int) = 45) by decide, get_cell_data, getchar, initial_world, initial_tape, hb,
    set_data, putchar, e, List.nil_append]

theorem main_echo_one_byte_witness :
    default_conf.dump ≠ 44 ∧ default_conf.dump ≠ 46 ∧
    main 3 default_conf [44, 46] [65]
      = some (Exit.success, ⟨[44, 46], 2⟩,
          { ptr := { prev := [], cur := { data := 65, cell := 0 }, next := [] },
            stdin := [], stdout := [Out.char 65], stderr := [] }) :=
  ⟨by decide, by decide, main_echo_one_byte 0 default_conf 65 [] (by decide) (by decide)⟩


/-! ## Moving on the tape -/

theorem prev_cell_ptr (opts : conf) (w : World) :
    (prev_cell opts w).ptr
      = (match w.ptr.prev with
        | [] => insert_first w.ptr
        | p :: ps => { prev := ps, cur := p, next := w.ptr.cur :: w.ptr.next }) ∧
    (prev_cell opts w).stdin = w.stdin ∧ (prev_cell opts w).stdout = w.stdout := by
  unfold prev_cell
  split
  · dsimp only
    split <;> exact ⟨rfl, rfl, rfl⟩
  · exact ⟨rfl, rfl, rfl⟩

theorem prev_cell_of_cons (opts : conf) (w : World) (p : node) (ps : List node)
    (h : w.ptr.prev = p :: ps) :
    prev_cell opts w = { w with ptr := { prev := ps, cur := p, next := w.ptr.cur :: w.ptr.next } } := by
  unfold prev_cell
  split
  · rename_i h'; rw [h] at h'; cases h'
  · rename_i q qs h'
    rw [h] at h'
    cases h'
    rfl

/-- C8: `>` then `<`, and `<` then `>`, on any tape: the current cell is
again the cell it was, with the same number and the same content, and every
cell that existed keeps its place and content.  The only possible difference
is one new cell holding 0 at the end that was stepped over: after the last
cell in the first case, before the first cell in the second.  Input and output
are untouched, and `>` then `<` emits no warning.  In particular `<` then `>`
from the initial cell returns to cell 0 with the new cell -1 on its left. -/
theorem move_round_trip (opts : conf) (w : World) :
    (prev_cell opts { w with ptr := next_cell w.ptr })
      = { w with ptr := { w.ptr with
            next := if w.ptr.next = [] then [{ data := 0, cell := w.ptr.cur.cell + 1 }]
                    else w.ptr.next } } ∧
    next_cell (prev_cell opts w).ptr
      = { w.ptr with
            prev := if w.ptr.prev = [] then [{ data := 0, cell := w.ptr.cur.cell - 1 }]
                    else w.ptr.prev } ∧
    (prev_cell opts w).stdin = w.stdin ∧ (prev_cell opts w).stdout = w.stdout ∧
    next_cell (prev_cell opts (initial_world [])).ptr
      = { prev := [{ data := 0, cell := -1 }], cur := { data := 0, cell := 0 }, next := [] } := by
  have hinit : ∀ v : World, v.ptr.prev = [] → next_cell (prev_cell opts v).ptr
      = { v.ptr with prev := [{ data := 0, cell := v.ptr.cur.cell - 1 }] } := by
    intro v hv
    rw [(prev_cell_ptr opts v).1, hv]
    simp only [insert_first, next_cell]
  refine ⟨?_, ?_, (prev_cell_ptr opts w).2.1, (prev_cell_ptr opts w).2.2, ?_⟩
  · obtain ⟨⟨prev, cur, next⟩, stdin, stdout, stderr⟩ := w
    cases next with
    | nil =>
      rw [prev_cell_of_cons opts _ cur prev (by simp [next_cell, insert_last])]
      simp [next_cell, insert_last]
    | cons n ns =>
      rw [prev_cell_of_cons opts _ cur prev (by simp [next_cell])]
      simp [next_cell]
  · cases hp : w.ptr.prev with
    | nil => rw [hinit w hp]; simp
    | cons p ps =>
      rw [prev_cell_of_cons opts w p ps hp]
      simp only [next_cell, reduceCtorEq, if_false]
  · rw [hinit _ rfl]
    rfl

/-! ## Decrementing -/

theorem ref_instr_minus (opts : conf) (v : World) :
    (ref_instr opts 45 v).ptr = { v.ptr with cur := { v.ptr.cur with data := v.ptr.cur.data - 1 } } ∧
    (ref_instr opts 45 v).stdin = v.stdin ∧ (ref_instr opts 45 v).stdout = v.stdout ∧
    (ref_instr opts 45 v).stderr = (if v.ptr.cur.data = 0 ∧ opts.warn ≠ 0
        then v.stderr ++ [Warn.negative_value v.ptr.cur.cell] else v.stderr) := by
  have hc : (v.ptr.cur.data - 1 = -1) ↔ (v.ptr.cur.data = 0) := by omega
  simp only [ref_instr, show ¬ ((45 : Byte) = 62) by decide, show ¬ ((45 : Byte) = 60) by decide,
    show ¬ ((45 : Byte) = 43) by decide, if_false, if_true, set_data, hc]
  split <;> exact ⟨rfl, rfl, rfl, rfl⟩

theorem interpret_minus (m : Nat) (opts : conf) (f : FILE) (w : World) :
    interpret (m + 1) 45 opts f w
      = some (1, f, ref_instr opts 45 (if (45 : Int) = opts.dump then mem_dump w else w)) := by
  simp only [interpret, ref_instr, show ¬ ((45 : Int) = 62) by decide,
    show ¬ ((45 : Int) = 60) by decide, show ¬ ((45 : Int) = 43) by decide,
    show ¬ ((45 : Byte) = 62) by decide, show ¬ ((45 : Byte) = 60) by decide,
    show ¬ ((45 : Byte) = 43) by decide, if_false, if_true]
  split_ifs <;> rfl

theorem decrement_step (m : Nat) (opts : conf) (f : FILE) (w : World) :
    ∃ w1, interpret (m + 1) 45 opts f w = some (1, f, w1) ∧
      w1.ptr = { w.ptr with cur := { w.ptr.cur with data := w.ptr.cur.data - 1 } } ∧
      w1.stdin = w.stdin ∧
      w1.stderr = (if w.ptr.cur.data = 0 ∧ opts.warn ≠ 0
        then w.stderr ++ [Warn.negative_value w.ptr.cur.cell] else w.stderr) := by
  refine ⟨_, interpret_minus m opts f w, ?_⟩
  obtain ⟨h1, h2, _, h4⟩ :=
    ref_instr_minus opts (if (45 : Int) = opts.dump then mem_dump w else w)
  rw [h1, h2, h4]
  split <;> exact ⟨rfl, rfl, rfl⟩

theorem decrement_run (opts : conf) (content : List Byte) :
    ∀ (k : Nat) (pre : List Byte) (w : World), content = pre ++ List.replicate k 45 →
      w.ptr.cur.data < 0 →
      ∃ w', main_loop (k + 1) opts ⟨content, pre.length⟩ w = some (⟨content, content.length⟩, w') ∧
        w'.ptr = { w.ptr with cur := { w.ptr.cur with data := w.ptr.cur.data - k } } ∧
        w'.stdin = w.stdin ∧ w'.stderr = w.stderr := by
  intro k
  induction k with
  | zero =>
    intro pre w hc _
    have hlen : content.length = pre.length := by simp [hc]
    refine ⟨w, ?_, by simp, rfl, rfl⟩
    rw [main_loop_eof 0 opts content pre.length w (by omega), hlen]
  | succ k ih =>
    intro pre w hc hneg
    have hc1 : content = pre ++ 45 :: List.replicate k 45 := by
      simpa [List.replicate_succ] using hc
    obtain ⟨w1, hi, hptr, hin, herr⟩ := decrement_step k opts ⟨content, pre.length + 1⟩ w
    have hne : ¬ (w.ptr.cur.data = 0 ∧ opts.warn ≠ 0) := by
      intro h; omega
    simp only [hne, if_false] at herr
    obtain ⟨w', hrun, hptr', hin', herr'⟩ := ih (pre ++ [45]) w1 (by simp [hc1])
      (by rw [hptr]; simp only; omega)
    refine ⟨w', ?_, ?_, by rw [hin', hin], by rw [herr', herr]⟩
    · rw [main_loop_at (k + 1) opts content pre _ 45 pre.length w hc1 rfl,
        show (((45 : Byte).val : Nat) : Int) = 45 from rfl, hi]
      simp only
      simpa using hrun
    · rw [hptr', hptr]
      simp only [Nat.cast_add, Nat.cast_one]
      congr 2
      omega

/-- C9: `n ≥ 1` consecutive `-` read by the loop of `main` while the current
cell holds 0, for any options.  The first `-` alone takes the cell to -1 and
emits the warning "value of cell is negative" exactly when warnings are
enabled; the whole run of `n` ends at the end of the file with the cell at
`-n`, the rest of the tape and the input unchanged, and on the error stream
just that one warning when warnings are enabled and nothing when they are
not: decrements 2..n emit none.  Every `interpret` returns 1 and the loop goes
on to the end. -/
theorem repeated_decrement_warns_once (n : Nat) (hn : 1 ≤ n) (opts : conf) (w : World)
    (h0 : w.ptr.cur.data = 0) :
    (∃ w1, interpret 1 45 opts ⟨List.replicate n 45, 1⟩ w
        = some (1, ⟨List.replicate n 45, 1⟩, w1) ∧
      w1.ptr.cur.data = -1 ∧
      w1.stderr = (if opts.warn ≠ 0 then w.stderr ++ [Warn.negative_value w.ptr.cur.cell]
        else w.stderr)) ∧
    (∃ w', main_loop (n + 1) opts ⟨List.replicate n 45, 0⟩ w
        = some (⟨List.replicate n 45, n⟩, w') ∧
      w'.ptr = { w.ptr with cur := { w.ptr.cur with data := -(n : Int) } } ∧
      w'.stdin = w.stdin ∧
      w'.stderr = (if opts.warn ≠ 0 then w.stderr ++ [Warn.negative_value w.ptr.cur.cell]
        else w.stderr)) := by
  obtain ⟨k, rfl⟩ : ∃ k, n = k + 1 := ⟨n - 1, by omega⟩
  constructor
  · obtain ⟨w1, hi, hptr, _, herr⟩ := decrement_step 0 opts ⟨List.replicate (k + 1) 45, 1⟩ w
    refine ⟨w1, hi, by rw [hptr]; simp only; omega, ?_⟩
    rw [herr]
    simp [h0]
  · obtain ⟨w1, hi, hptr, hin, herr⟩ := decrement_step k opts ⟨List.replicate (k + 1) 45, 0 + 1⟩ w
    obtain ⟨w', hrun, hptr', hin', herr'⟩ := decrement_run opts (List.replicate (k + 1) 45) k [45]
      w1 (by simp [List.replicate_succ]) (by rw [hptr]; simp only; omega)
    refine ⟨w', ?_, ?_, by rw [hin', hin], ?_⟩
    · rw [main_loop_at (k + 1) opts (List.replicate (k + 1) 45) [] (List.replicate k 45) 45 0 w
        (by simp [List.replicate_succ]) rfl,
        show (((45 : Byte).val : Nat) : Int) = 45 from rfl, hi]
      simp only
      simpa using hrun
    · rw [hptr', hptr]
      simp only [h0, Nat.cast_add, Nat.cast_one]
      congr 2
      omega
    · rw [herr', herr]
      simp [h0]

theorem repeated_decrement_warns_once_witness :
    1 ≤ 3 ∧ (initial_world []).ptr.cur.data = 0 ∧
    main_loop 4 { dump := 9999, eof := 9999, warn := 1 } ⟨[45, 45, 45], 0⟩ (initial_world [])
      = some (⟨[45, 45, 45], 3⟩,
          { ptr := { prev := [], cur := { data := -3, cell := 0 }, next := [] },
            stdin := [], stdout := [], stderr := [Warn.negative_value 0] }) ∧
    main_loop 4 default_conf ⟨[45, 45, 45], 0⟩ (initial_world [])
      = some (⟨[45, 45, 45], 3⟩,
          { ptr := { prev := [], cur := { data := -3, cell := 0 }, next := [] },
            stdin := [], stdout := [], stderr := [] }) ∧
    (∃ w', main_loop (3 + 1) { dump := 9999, eof := 9999, warn := 1 }
        ⟨List.replicate 3 45, 0⟩ (initial_world [])
        = some (⟨List.replicate 3 45, 3⟩, w') ∧
      w'.ptr = { (initial_world []).ptr with
        cur := { (initial_world []).ptr.cur with data := -((3 : Nat) : Int) } } ∧
      w'.stdin = (initial_world []).stdin ∧
      w'.stderr = (if ({ dump := 9999, eof := 9999, warn := 1 } : conf).warn ≠ 0
        then (initial_world []).stderr ++ [Warn.negative_value (initial_world []).ptr.cur.cell]
        else (initial_world []).stderr)) :=
  ⟨by decide, by decide, by decide, by decide,
    (repeated_decrement_warns_once 3 (by decide) { dump := 9999, eof := 9999, warn := 1 }
      (initial_world []) (by decide)).2⟩


/-! ## The negative-value warning -/

theorem prev_cell_count_negative_value (opts : conf) (w : World) (cell : Int) :
    (prev_cell opts w).stderr.count (Warn.negative_value cell)
      = w.stderr.count (Warn.negative_value cell) := by
  unfold prev_cell
  split
  · dsimp only
    split
    · simp [List.count_append, List.count_cons]
    · rfl
  · rfl

theorem get_cell_data_count_negative_value (opts : conf) (w : World) (cell : Int) :
    (get_cell_data opts w).stderr.count (Warn.negative_value cell)
      = w.stderr.count (Warn.negative_value cell) := by
  obtain ⟨ptr, stdin, stdout, stderr⟩ := w
  cases stdin with
  | nil =>
    by_cases hw : opts.warn = 0 <;> by_cases he : opts.eof = 9999 <;>
      simp [get_cell_data, getchar, set_data, hw, he, List.count_append, List.count_cons]
  | cons b rest =>
    have hb : ¬ (((b.val : Nat) : Int) = EOF) := byte_ne_EOF b
    simp only [get_cell_data, getchar, set_data, hb, if_false]

/-- C10, as stated, does not hold: with warnings enabled the source `-+-`
takes cell 0 to -1, back to 0 and to -1 again, and `main` ends with two
"value of cell #0 is negative" warnings on the error stream, so it is not
true that every run emits at most one such warning per cell. -/
theorem negative_value_warning_repeats :
    main 4 { dump := 9999, eof := 9999, warn := 1 } [45, 43, 45] []
      = some (Exit.success, ⟨[45, 43, 45], 3⟩,
          { ptr := { prev := [], cur := { data := -1, cell := 0 }, next := [] },
            stdin := [], stdout := [],
            stderr := [Warn.negative_value 0, Warn.negative_value 0] }) ∧
    ¬ (∀ (fuel : Nat) (source input : List Byte) (e : Exit) (f : FILE) (w : World) (cell : Int),
        main fuel { dump := 9999, eof := 9999, warn := 1 } source input = some (e, f, w) →
        w.stderr.count (Warn.negative_value cell) ≤ 1) := by
  have hrun : main 4 { dump := 9999, eof := 9999, warn := 1 } [45, 43, 45] []
      = some (Exit.success, ⟨[45, 43, 45], 3⟩,
          { ptr := { prev := [], cur := { data := -1, cell := 0 }, next := [] },
            stdin := [], stdout := [],
            stderr := [Warn.negative_value 0, Warn.negative_value 0] }) := by decide
  refine ⟨hrun, ?_⟩
  intro h
  have h2 := h 4 [45, 43, 45] [] _ _ _ 0 hrun
  revert h2
  decide

/-- C10, amended: a `-` emits the warning "value of cell is negative" for the
current cell exactly when it takes that cell from 0 to -1 and warnings are
enabled, every time it does so, whether or not the cell was at -1 before; and
no character other than `-` (and `[`, whose effect is that of the characters
of the loop) adds such a warning. -/
theorem negative_value_warning_on_each_crossing (m : Nat) (opts : conf) (f : FILE) (w : World) :
    (∃ w1, interpret (m + 1) 45 opts f w = some (1, f, w1) ∧
      w1.ptr.cur.data = w.ptr.cur.data - 1 ∧
      w1.stderr = (if w.ptr.cur.data = 0 ∧ opts.warn ≠ 0
        then w.stderr ++ [Warn.negative_value w.ptr.cur.cell] else w.stderr)) ∧
    (∀ (c : Byte), c ≠ 45 → c ≠ 91 → ∀ (r : Int) (f1 : FILE) (w1 : World),
      interpret (m + 1) (c.val : Int) opts f w = some (r, f1, w1) →
      ∀ cell : Int, w1.stderr.count (Warn.negative_value cell)
        = w.stderr.count (Warn.negative_value cell)) := by
  constructor
  · obtain ⟨w1, hi, hptr, _, herr⟩ := decrement_step m opts f w
    exact ⟨w1, hi, by rw [hptr], herr⟩
  · intro c h45 h91 r f1 w1 h cell
    have e45 : ((c.val : Nat) : Int) = 45 ↔ c = 45 := byte_eq_lit c 45 (by omega)
    simp only [interpret, e45, h45, byte_eq_91, h91, if_false] at h
    split_ifs at h <;> simp only [Option.some.injEq, Prod.mk.injEq] at h <;>
      obtain ⟨_, _, rfl⟩ := h
    all_goals first
      | rfl
      | exact prev_cell_count_negative_value _ _ _
      | exact get_cell_data_count_negative_value _ _ _

theorem negative_value_warning_on_each_crossing_witness :
    interpret 1 45 { dump := 9999, eof := 9999, warn := 1 } ⟨[45, 43, 45], 3⟩
        { ptr := { prev := [], cur := { data := 0, cell := 0 }, next := [] },
          stdin := [], stdout := [], stderr := [Warn.negative_value 0] }
      = some (1, ⟨[45, 43, 45], 3⟩,
          { ptr := { prev := [], cur := { data := -1, cell := 0 }, next := [] },
            stdin := [], stdout := [],
            stderr := [Warn.negative_value 0, Warn.negative_value 0] }) ∧
    ((43 : Byte) ≠ 45 ∧ (43 : Byte) ≠ 91 ∧
      ∀ cell : Int,
        ({ ptr := { prev := [], cur := { data := 0, cell := 0 }, next := [] },
           stdin := [], stdout := [], stderr := [Warn.negative_value 0] } : World).stderr.count
            (Warn.negative_value cell)
          = ([Warn.negative_value 0] : List Warn).count (Warn.negative_value cell)) :=
  ⟨by decide, by decide, by decide,
    (negative_value_warning_on_each_crossing 0 { dump := 9999, eof := 9999, warn := 1 }
      ⟨[45, 43, 45], 1⟩
      { ptr := { prev := [], cur := { data := -1, cell := 0 }, next := [] },
        stdin := [], stdout := [], stderr := [Warn.negative_value 0] }).2 43 (by decide)
      (by decide) 1 ⟨[45, 43, 45], 1⟩
      { ptr := { prev := [], cur := { data := 0, cell := 0 }, next := [] },
        stdin := [], stdout := [], stderr := [Warn.negative_value 0] } (by decide)⟩


/-! ## Properties kept by every instruction -/

theorem interpret_simple (n : Nat) (c : Int) (opts : conf) (f : FILE) (w : World) (h91 : c ≠ 91) :
    ∃ v, interpret (n + 1) c opts f w = some (if c = 93 then 0 else 1, f, v) ∧
      (v = (if c = opts.dump then mem_dump w else w) ∨
        ∃ b : Byte, (b.val : Int) = c ∧
          v = ref_instr opts b (if c = opts.dump then mem_dump w else w)) := by
  simp only [interpret, h91, if_false]
  by_cases h62 : c = 62
  · subst h62; exact ⟨_, by simp; rfl, Or.inr ⟨62, rfl, rfl⟩⟩
  by_cases h60 : c = 60
  · subst h60; exact ⟨_, by simp; rfl, Or.inr ⟨60, rfl, rfl⟩⟩
  by_cases h43 : c = 43
  · subst h43; exact ⟨_, by simp; rfl, Or.inr ⟨43, rfl, rfl⟩⟩
  by_cases h45 : c = 45
  · subst h45
    refine ⟨ref_instr opts 45 (if (45 : Int) = opts.dump then mem_dump w else w), ?_,
      Or.inr ⟨45, rfl, rfl⟩⟩
    simp only [ref_instr, show ¬ ((45 : Int) = 62) by decide,
      show ¬ ((45 : Int) = 60) by decide, show ¬ ((45 : Int) = 43) by decide,
      show ¬ ((45 : Int) = 93) by decide,
      show ¬ ((45 : Byte) = 62) by decide, show ¬ ((45 : Byte) = 60) by decide,
      show ¬ ((45 : Byte) = 43) by decide, if_false, if_true]
    split_ifs <;> rfl
  by_cases h46 : c = 46
  · subst h46; exact ⟨_, by simp; rfl, Or.inr ⟨46, rfl, rfl⟩⟩
  by_cases h44 : c = 44
  · subst h44; exact ⟨_, by simp; rfl, Or.inr ⟨44, rfl, rfl⟩⟩
  by_cases h93 : c = 93
  · subst h93; exact ⟨_, by simp, Or.inl rfl⟩
  · exact ⟨_, by simp [h62, h60, h43, h45, h46, h44, h93], Or.inl rfl⟩

theorem run_preserves (opts : conf) (P : World → Prop) (hdump : ∀ w, P w → P (mem_dump w))
    (hinstr : ∀ w (b : Byte), P w → P (ref_instr opts b w)) : ∀ n,
    (∀ c f w r, P w → interpret n c opts f w = some r → P r.2.2) ∧
    (∀ f w r, P w → loop n opts f w = some r → P r.2) ∧
    (∀ s f w r, P w → loop_while n opts s f w = some r → P r.2) ∧
    (∀ f w r, P w → loop_body n opts f w = some r → P r.2) := by
  intro n
  induction n with
  | zero =>
    refine ⟨?_, ?_, ?_, ?_⟩ <;> intros <;> simp_all [interpret, loop, loop_while, loop_body]
  | succ n ih =>
    obtain ⟨ihi, ihl, ihw, ihb⟩ := ih
    have hW : ∀ (c : Int) w, P w → P (if c = opts.dump then mem_dump w else w) := by
      intro c w hw; split
      · exact hdump w hw
      · exact hw
    refine ⟨?_, ?_, ?_, ?_⟩
    · intro c f w r hw h
      by_cases h91 : c = 91
      · subst h91
        simp only [interpret, show ¬ ((91 : Int) = 62) by decide,
          show ¬ ((91 : Int) = 60) by decide, show ¬ ((91 : Int) = 43) by decide,
          show ¬ ((91 : Int) = 45) by decide, show ¬ ((91 : Int) = 46) by decide,
          show ¬ ((91 : Int) = 44) by decide, if_false, if_true] at h
        cases hq : loop n opts f (if 91 = opts.dump then mem_dump w else w) with
        | none => simp [hq] at h
        | some q =>
          rw [hq] at h
          simp only [Option.some.injEq] at h
          subst h
          exact ihl _ _ _ (hW 91 w hw) hq
      · obtain ⟨v, hv, hcase⟩ := interpret_simple n c opts f w h91
        rw [hv] at h
        simp only [Option.some.injEq] at h
        subst h
        rcases hcase with rfl | ⟨b, _, rfl⟩
        · exact hW c w hw
        · exact hinstr _ b (hW c w hw)
    · intro f w r hw h
      simp only [loop] at h
      by_cases hd : w.ptr.cur.data ≤ 0
      · simp only [hd, if_true, Option.some.injEq] at h
        subst h; exact hw
      · simp only [hd, if_false] at h
        exact ihw _ _ _ _ hw h
    · intro s f w r hw h
      simp only [loop_while] at h
      by_cases hd : w.ptr.cur.data > 0
      · simp only [hd, if_true] at h
        cases hq : loop_body n opts (fsetpos f s) w with
        | none => simp [hq] at h
        | some q =>
          rw [hq] at h
          exact ihw _ _ _ _ (ihb _ _ _ hw hq) h
      · simp only [hd, if_false, Option.some.injEq] at h
        subst h; exact hw
    · intro f w r hw h
      simp only [loop_body] at h
      by_cases he : (fgetc f).1 = EOF
      · simp only [he, if_true, Option.some.injEq] at h
        subst h; exact hw
      · simp only [he, if_false] at h
        cases hq : interpret n (fgetc f).1 opts (fgetc f).2 w with
        | none => simp [hq] at h
        | some q =>
          rw [hq] at h
          have hq' := ihi _ _ _ _ hw hq
          obtain ⟨rv, f2, w2⟩ := q
          simp only at h hq'
          by_cases hr : rv = 0
          · simp only [hr, if_true, Option.some.injEq] at h
            subst h; exact hq'
          · simp only [hr, if_false] at h
            exact ihb _ _ _ hq' h

theorem main_loop_preserves (opts : conf) (P : World → Prop) (hdump : ∀ w, P w → P (mem_dump w))
    (hinstr : ∀ w (b : Byte), P w → P (ref_instr opts b w)) :
    ∀ n f w r, P w → main_loop n opts f w = some r → P r.2 := by
  intro n
  induction n with
  | zero => intro f w r _ h; simp [main_loop] at h
  | succ n ih =>
    intro f w r hw h
    simp only [main_loop] at h
    by_cases he : (fgetc f).1 = EOF
    · simp only [he, if_true, Option.some.injEq] at h
      subst h; exact hw
    · simp only [he, if_false] at h
      cases hq : interpret n (fgetc f).1 opts (fgetc f).2 w with
      | none => simp [hq] at h
      | some q =>
        rw [hq] at h
        have hq' := (run_preserves opts P hdump hinstr n).1 _ _ _ _ hw hq
        obtain ⟨rv, f2, w2⟩ := q
        simp only at h hq'
        exact ih _ _ _ hq' h


/-! ## The tape invariant -/

theorem tape_inv_iff (t : Tape) :
    tape_inv t = true ↔ numbered_down (t.cur.cell - 1) t.prev = true ∧
      numbered_up (t.cur.cell + 1) t.next = true ∧ t.lo ≤ 0 ∧ 0 ≤ t.hi := by
  simp only [tape_inv, Bool.and_eq_true, decide_eq_true_eq, and_assoc]

theorem next_cell_inv (t : Tape) (h : tape_inv t = true) :
    tape_inv (next_cell t) = true ∧ (next_cell t).cur.cell = t.cur.cell + 1 ∧
    (next_cell t).lo = t.lo ∧
    (next_cell t).hi = (if t.next = [] then t.hi + 1 else t.hi) ∧
    (next_cell t).cells
      = (if t.next = [] then t.cells ++ [{ data := 0, cell := t.hi + 1 }] else t.cells) := by
  obtain ⟨prev, cur, next⟩ := t
  rw [tape_inv_iff] at h
  obtain ⟨h1, h2, h3, h4⟩ := h
  cases next with
  | nil =>
    simp only [Tape.lo, Tape.hi, List.length_nil, Nat.cast_zero, add_zero] at h3 h4 ⊢
    refine ⟨?_, rfl, ?_, ?_, ?_⟩
    · rw [tape_inv_iff]
      simp only [next_cell, insert_last, numbered_down, numbered_up, Tape.lo, Tape.hi,
        List.length_cons, List.length_nil, Bool.and_eq_true, decide_eq_true_eq, Nat.cast_add,
        Nat.cast_one, Nat.cast_zero, add_sub_cancel_right, true_and]
      exact ⟨h1, by omega, by omega⟩
    · simp only [next_cell, insert_last, List.length_cons, Nat.cast_add, Nat.cast_one]; omega
    · simp [next_cell, insert_last]
    · simp [next_cell, insert_last, Tape.cells]
  | cons n ns =>
    simp only [numbered_up, Bool.and_eq_true, decide_eq_true_eq] at h2
    obtain ⟨hn, h2⟩ := h2
    simp only [Tape.lo, Tape.hi, List.length_cons, Nat.cast_add, Nat.cast_one] at h3 h4 ⊢
    refine ⟨?_, hn, ?_, ?_, ?_⟩
    · rw [tape_inv_iff]
      simp only [next_cell, numbered_down, numbered_up, Tape.lo, Tape.hi,
        List.length_cons, Bool.and_eq_true, decide_eq_true_eq, Nat.cast_add,
        Nat.cast_one, hn, add_sub_cancel_right, true_and]
      exact ⟨h1, h2, by omega, by omega⟩
    · simp only [next_cell, hn, List.length_cons, Nat.cast_add, Nat.cast_one]; omega
    · simp only [next_cell, hn, reduceCtorEq, if_false]; omega
    · simp [next_cell, Tape.cells]

theorem prev_cell_inv (opts : conf) (w : World) (h : tape_inv w.ptr = true) :
    tape_inv (prev_cell opts w).ptr = true ∧
    (prev_cell opts w).ptr.cur.cell = w.ptr.cur.cell - 1 ∧
    (prev_cell opts w).ptr.hi = w.ptr.hi ∧
    (prev_cell opts w).ptr.lo = (if w.ptr.prev = [] then w.ptr.lo - 1 else w.ptr.lo) ∧
    (prev_cell opts w).ptr.cells
      = (if w.ptr.prev = [] then { data := 0, cell := w.ptr.lo - 1 } :: w.ptr.cells
         else w.ptr.cells) := by
  rw [(prev_cell_ptr opts w).1]
  obtain ⟨⟨prev, cur, next⟩, stdin, stdout, stderr⟩ := w
  rw [tape_inv_iff] at h
  obtain ⟨h1, h2, h3, h4⟩ := h
  simp only at h1 h2 h3 h4 ⊢
  cases prev with
  | nil =>
    simp only [Tape.lo, Tape.hi, List.length_nil, Nat.cast_zero, sub_zero] at h3 h4 ⊢
    refine ⟨?_, rfl, ?_, ?_, ?_⟩
    · rw [tape_inv_iff]
      simp only [insert_first, numbered_down, numbered_up, Tape.lo, Tape.hi,
        List.length_cons, List.length_nil, Bool.and_eq_true, decide_eq_true_eq, Nat.cast_add,
        Nat.cast_one, Nat.cast_zero, sub_add_cancel, true_and]
      exact ⟨h2, by omega, by omega⟩
    · simp only [insert_first, List.length_cons, Nat.cast_add, Nat.cast_one]; omega
    · simp [insert_first]
    · simp [insert_first, Tape.cells]
  | cons p ps =>
    simp only [numbered_down, Bool.and_eq_true, decide_eq_true_eq] at h1
    obtain ⟨hp, h1⟩ := h1
    simp only [Tape.lo, Tape.hi, List.length_cons, Nat.cast_add, Nat.cast_one] at h3 h4 ⊢
    refine ⟨?_, hp, ?_, ?_, ?_⟩
    · rw [tape_inv_iff]
      simp only [numbered_down, numbered_up, Tape.lo, Tape.hi,
        List.length_cons, Bool.and_eq_true, decide_eq_true_eq, Nat.cast_add,
        Nat.cast_one, hp, sub_add_cancel, true_and]
      exact ⟨h1, h2, by omega, by omega⟩
    · simp only [hp, List.length_cons, Nat.cast_add, Nat.cast_one]; omega
    · simp only [hp, reduceCtorEq, if_false]; omega
    · simp [Tape.cells]

theorem set_cur_data_inv (t : Tape) (v : Int) (h : tape_inv t = true) :
    tape_inv { t with cur := { t.cur with data := v } } = true := h

theorem get_cell_data_ptr (opts : conf) (w : World) :
    ∃ v, (get_cell_data opts w).ptr = { w.ptr with cur := { w.ptr.cur with data := v } } := by
  obtain ⟨ptr, stdin, stdout, stderr⟩ := w
  cases stdin with
  | nil =>
    by_cases hw : opts.warn = 0 <;> by_cases he : opts.eof = 9999
    · exact ⟨ptr.cur.data, by simp [get_cell_data, getchar, set_data, hw, he]⟩
    · exact ⟨opts.eof, by simp [get_cell_data, getchar, set_data, hw, he]⟩
    · exact ⟨ptr.cur.data, by simp [get_cell_data, getchar, set_data, hw, he]⟩
    · exact ⟨opts.eof, by simp [get_cell_data, getchar, set_data, hw, he]⟩
  | cons b rest =>
    have hb : ¬ (((b.val : Nat) : Int) = EOF) := byte_ne_EOF b
    exact ⟨(b.val : Int), by simp only [get_cell_data, getchar, set_data, hb, if_false]⟩

/-- What an instruction other than a bracket does to the list of cells: it
moves right, moves left, or stores a value in the current cell. -/
theorem ref_instr_ptr (opts : conf) (b : Byte) (w : World) :
    (ref_instr opts b w).ptr = next_cell w.ptr ∨
    (ref_instr opts b w).ptr = (prev_cell opts w).ptr ∨
    ∃ v, (ref_instr opts b w).ptr = { w.ptr with cur := { w.ptr.cur with data := v } } := by
  by_cases h62 : b = 62
  · subst h62; exact Or.inl rfl
  by_cases h60 : b = 60
  · subst h60; exact Or.inr (Or.inl rfl)
  by_cases h43 : b = 43
  · subst h43; exact Or.inr (Or.inr ⟨_, rfl⟩)
  by_cases h45 : b = 45
  · subst h45; exact Or.inr (Or.inr ⟨_, (ref_instr_minus opts w).1⟩)
  by_cases h46 : b = 46
  · subst h46; exact Or.inr (Or.inr ⟨w.ptr.cur.data, rfl⟩)
  by_cases h44 : b = 44
  · subst h44
    obtain ⟨v, hv⟩ := get_cell_data_ptr opts w
    exact Or.inr (Or.inr ⟨v, hv⟩)
  · refine Or.inr (Or.inr ⟨w.ptr.cur.data, ?_⟩)
    simp only [ref_instr, h62, h60, h43, h45, h46, h44, if_false]


theorem prev_cell_stderr (opts : conf) (w : World) :
    (prev_cell opts w).stderr
      = (if w.ptr.prev = [] ∧ w.ptr.cur.cell = 0 ∧ opts.warn ≠ 0
          then w.stderr ++ [Warn.negative_cell] else w.stderr) := by
  obtain ⟨⟨prev, cur, next⟩, stdin, stdout, stderr⟩ := w
  cases prev with
  | nil =>
    have hc : (cur.cell - 1 = -1) ↔ (cur.cell = 0) := by omega
    simp only [prev_cell, insert_first, hc, true_and]
    split <;> rfl
  | cons p ps => simp [prev_cell]

theorem get_cell_data_count_negative_cell (opts : conf) (w : World) :
    (get_cell_data opts w).stderr.count Warn.negative_cell
      = w.stderr.count Warn.negative_cell := by
  obtain ⟨ptr, stdin, stdout, stderr⟩ := w
  cases stdin with
  | nil =>
    by_cases hw : opts.warn = 0 <;> by_cases he : opts.eof = 9999 <;>
      simp [get_cell_data, getchar, set_data, hw, he, List.count_append, List.count_cons]
  | cons b rest =>
    have hb : ¬ (((b.val : Nat) : Int) = EOF) := byte_ne_EOF b
    simp only [get_cell_data, getchar, set_data, hb, if_false]

/-- The three kinds of instruction other than brackets, as far as the list of
cells and the warning for a negative cell number are concerned. -/
theorem ref_instr_cases (opts : conf) (b : Byte) (w : World) :
    (b = 62 ∧ ref_instr opts b w = { w with ptr := next_cell w.ptr }) ∨
    (b = 60 ∧ ref_instr opts b w = prev_cell opts w) ∨
    (b ≠ 62 ∧ b ≠ 60 ∧
      (∃ v, (ref_instr opts b w).ptr = { w.ptr with cur := { w.ptr.cur with data := v } }) ∧
      (ref_instr opts b w).stderr.count Warn.negative_cell
        = w.stderr.count Warn.negative_cell) := by
  by_cases h62 : b = 62
  · subst h62; exact Or.inl ⟨rfl, rfl⟩
  by_cases h60 : b = 60
  · subst h60; exact Or.inr (Or.inl ⟨rfl, rfl⟩)
  refine Or.inr (Or.inr ⟨h62, h60, ?_⟩)
  by_cases h43 : b = 43
  · subst h43; exact ⟨⟨_, rfl⟩, rfl⟩
  by_cases h45 : b = 45
  · subst h45
    refine ⟨⟨_, (ref_instr_minus opts w).1⟩, ?_⟩
    rw [(ref_instr_minus opts w).2.2.2]
    split
    · simp [List.count_append, List.count_cons]
    · rfl
  by_cases h46 : b = 46
  · subst h46; exact ⟨⟨w.ptr.cur.data, rfl⟩, rfl⟩
  by_cases h44 : b = 44
  · subst h44
    exact ⟨get_cell_data_ptr opts w, get_cell_data_count_negative_cell opts w⟩
  · have e : ref_instr opts b w = w := by
      simp only [ref_instr, h62, h60, h43, h45, h46, h44, if_false]
    rw [e]
    exact ⟨⟨w.ptr.cur.data, rfl⟩, rfl⟩

/-- The property behind the warning for a negative cell number: the tape
invariant holds, and the warning has been emitted once if warnings are enabled
and a cell with a negative number exists, and not at all otherwise. -/
theorem negative_cell_inv_step (opts : conf) (w : World) (b : Byte)
    (h : tape_inv w.ptr = true ∧ w.stderr.count Warn.negative_cell
      = (if opts.warn ≠ 0 ∧ w.ptr.lo ≤ -1 then 1 else 0)) :
    tape_inv (ref_instr opts b w).ptr = true ∧
    (ref_instr opts b w).stderr.count Warn.negative_cell
      = (if opts.warn ≠ 0 ∧ (ref_instr opts b w).ptr.lo ≤ -1 then 1 else 0) := by
  obtain ⟨hinv, hcount⟩ := h
  rcases ref_instr_cases opts b w with ⟨_, h⟩ | ⟨_, h⟩ | ⟨_, _, ⟨v, hv⟩, hc⟩
  · rw [h]
    obtain ⟨h1, _, h3, _, _⟩ := next_cell_inv w.ptr hinv
    exact ⟨h1, by simp only [h3]; exact hcount⟩
  · rw [h]
    obtain ⟨h1, _, _, h4, _⟩ := prev_cell_inv opts w hinv
    refine ⟨h1, ?_⟩
    rw [h4, prev_cell_stderr]
    have hlo := ((tape_inv_iff w.ptr).mp hinv).2.2.1
    cases hp : w.ptr.prev with
    | nil =>
      have hlo' : w.ptr.lo = w.ptr.cur.cell := by simp [Tape.lo, hp]
      rw [hlo'] at hcount hlo ⊢
      simp only [true_and, if_true]
      by_cases hw : opts.warn = 0
      · simp only [hw, ne_eq, not_true_eq_false, and_false, false_and, if_false] at hcount ⊢
        exact hcount
      · by_cases h0 : w.ptr.cur.cell = 0
        · have e1 : ¬ (w.ptr.cur.cell ≤ -1) := by omega
          have e2 : w.ptr.cur.cell - 1 ≤ -1 := by omega
          simp only [hw, ne_eq, not_false_eq_true, e1, and_false, true_and, if_false, h0,
            and_self, if_true, e2] at hcount ⊢
          simp [List.count_append, hcount]
        · have e1 : w.ptr.cur.cell ≤ -1 := by omega
          have e2 : w.ptr.cur.cell - 1 ≤ -1 := by omega
          simp only [hw, ne_eq, not_false_eq_true, e1, and_self, if_true, h0, false_and,
            if_false, e2] at hcount ⊢
          exact hcount
    | cons p ps =>
      simp only [reduceCtorEq, false_and, if_false]
      exact hcount
  · rw [hv, hc]
    exact ⟨hinv, hcount⟩

theorem negative_cell_inv_run (opts : conf) (n : Nat) (f : FILE) (w : World) (r : FILE × World)
    (h : tape_inv w.ptr = true ∧ w.stderr.count Warn.negative_cell
      = (if opts.warn ≠ 0 ∧ w.ptr.lo ≤ -1 then 1 else 0))
    (hrun : main_loop n opts f w = some r) :
    tape_inv r.2.ptr = true ∧ r.2.stderr.count Warn.negative_cell
      = (if opts.warn ≠ 0 ∧ r.2.ptr.lo ≤ -1 then 1 else 0) :=
  main_loop_preserves opts
    (fun w => tape_inv w.ptr = true ∧ w.stderr.count Warn.negative_cell
      = (if opts.warn ≠ 0 ∧ w.ptr.lo ≤ -1 then 1 else 0))
    (fun _ hw => hw) (fun w b hw => negative_cell_inv_step opts w b hw) n f w r h hrun

theorem main_cases (fuel : Nat) (opts : conf) (source input : List Byte) (e : Exit) (f : FILE)
    (w : World) (h : main fuel opts source input = some (e, f, w)) :
    w = initial_world input ∨
      main_loop fuel opts ⟨source, 0⟩ (initial_world input) = some (f, w) := by
  simp only [main, parens_match_eq] at h
  by_cases hc : source.count 91 = source.count 93
  · right
    simp only [hc, if_true, one_ne_zero, if_false] at h
    cases hq : main_loop fuel opts ⟨source, 0⟩ (initial_world input) with
    | none => simp [hq] at h
    | some q =>
      rw [hq] at h
      obtain ⟨f', w'⟩ := q
      simp only [Option.some.injEq, Prod.mk.injEq] at h
      rw [h.2.1, h.2.2]
  · left
    simp only [hc, if_false, if_true, Option.some.injEq, Prod.mk.injEq] at h
    exact h.2.2.symm

theorem initial_tape_inv : tape_inv initial_tape = true := by decide

theorem initial_tape_lo : initial_tape.lo = 0 := by decide

theorem initial_tape_hi : initial_tape.hi = 0 := by decide

/-- C11: the warning "you reached a 'negative' memory cell".  A `<` emits it
exactly when warnings are enabled and it creates the cell number -1, that is
when it is executed on cell 0 and cell 0 is the first cell; a `<` that creates
cell -2, -3, ..., or that moves onto an existing cell, emits nothing, and no
character other than `<` (and `[`, through the characters of its body) adds
the warning.  Consequently, in every run of `main` the warning is on the error
stream once if warnings are enabled and a cell with a negative number exists
and not at all otherwise: never more than once, and never with warnings
disabled. -/
theorem negative_cell_warning_once (opts : conf) :
    (∀ w : World, (prev_cell opts w).stderr
        = (if w.ptr.prev = [] ∧ w.ptr.cur.cell = 0 ∧ opts.warn ≠ 0
            then w.stderr ++ [Warn.negative_cell] else w.stderr)) ∧
    (∀ w : World, (w.ptr.prev = [] ∧ w.ptr.cur.cell = 0) ↔
        (prev_cell opts w).ptr.cells = { data := 0, cell := -1 } :: w.ptr.cells) ∧
    (∀ (n : Nat) (c : Int) (f : FILE) (w : World) (r : Int × FILE × World),
        c ≠ 60 → c ≠ 91 → interpret (n + 1) c opts f w = some r →
        r.2.2.stderr.count Warn.negative_cell = w.stderr.count Warn.negative_cell) ∧
    (∀ (fuel : Nat) (source input : List Byte) (e : Exit) (f : FILE) (w : World),
        main fuel opts source input = some (e, f, w) →
        w.stderr.count Warn.negative_cell = (if opts.warn ≠ 0 ∧ w.ptr.lo ≤ -1 then 1 else 0) ∧
        w.stderr.count Warn.negative_cell ≤ 1 ∧
        (opts.warn = 0 → w.stderr.count Warn.negative_cell = 0)) := by
  refine ⟨prev_cell_stderr opts, ?_, ?_, ?_⟩
  · intro w
    rw [(prev_cell_ptr opts w).1]
    obtain ⟨⟨prev, cur, next⟩, stdin, stdout, stderr⟩ := w
    cases prev with
    | nil =>
      simp only [insert_first, Tape.cells, List.reverse_nil, List.nil_append, true_and,
        List.cons.injEq, and_true, node.mk.injEq]
      constructor
      · intro h; omega
      · intro h; omega
    | cons p ps =>
      simp only [reduceCtorEq, false_and, Tape.cells, List.reverse_cons, List.append_assoc,
        List.singleton_append, false_iff]
      intro h
      have := congrArg List.length h
      simp at this
  · intro n c f w r h60 h91 h
    obtain ⟨v, hv, hcase⟩ := interpret_simple n c opts f w h91
    rw [hv] at h
    simp only [Option.some.injEq] at h
    subst h
    have hW : (if c = opts.dump then mem_dump w else w).stderr = w.stderr := by
      split <;> rfl
    rcases hcase with rfl | ⟨b, hb, rfl⟩
    · simp only [hW]
    · rcases ref_instr_cases opts b (if c = opts.dump then mem_dump w else w) with
        ⟨_, h⟩ | ⟨hb60, _⟩ | ⟨_, _, _, hc⟩
      · simp only [h, hW]
      · exfalso; apply h60; rw [← hb, hb60]; rfl
      · simp only [hc, hW]
  · intro fuel source input e f w h
    have hJ : tape_inv w.ptr = true ∧ w.stderr.count Warn.negative_cell
        = (if opts.warn ≠ 0 ∧ w.ptr.lo ≤ -1 then 1 else 0) := by
      have h0 : tape_inv (initial_world input).ptr = true ∧
          (initial_world input).stderr.count Warn.negative_cell
            = (if opts.warn ≠ 0 ∧ (initial_world input).ptr.lo ≤ -1 then 1 else 0) := by
        refine ⟨initial_tape_inv, ?_⟩
        have hlo : (initial_world input).ptr.lo = 0 := initial_tape_lo
        rw [hlo]
        simp [initial_world]
      rcases main_cases fuel opts source input e f w h with rfl | hrun
      · exact h0
      · exact negative_cell_inv_run opts fuel _ _ (f, w) h0 hrun
    refine ⟨hJ.2, ?_, ?_⟩
    · rw [hJ.2]; split <;> omega
    · intro hw; rw [hJ.2]; simp [hw]

theorem negative_cell_warning_once_witness :
    main 6 { dump := 9999, eof := 9999, warn := 1 } [60, 60, 62, 60] []
      = some (Exit.success, ⟨[60, 60, 62, 60], 4⟩,
          { ptr := { prev := [], cur := { data := 0, cell := -2 },
                     next := [{ data := 0, cell := -1 }, { data := 0, cell := 0 }] },
            stdin := [], stdout := [], stderr := [Warn.negative_cell] }) ∧
    main 6 default_conf [60, 60, 62, 60] []
      = some (Exit.success, ⟨[60, 60, 62, 60], 4⟩,
          { ptr := { prev := [], cur := { data := 0, cell := -2 },
                     next := [{ data := 0, cell := -1 }, { data := 0, cell := 0 }] },
            stdin := [], stdout := [], stderr := [] }) ∧
    ([Warn.negative_cell] : List Warn).count Warn.negative_cell ≤ 1 :=
  ⟨by decide!, by decide!,
    ((negative_cell_warning_once { dump := 9999, eof := 9999, warn := 1 }).2.2.2 6
      [60, 60, 62, 60] [] Exit.success ⟨[60, 60, 62, 60], 4⟩
      { ptr := { prev := [], cur := { data := 0, cell := -2 },
                 next := [{ data := 0, cell := -1 }, { data := 0, cell := 0 }] },
        stdin := [], stdout := [], stderr := [Warn.negative_cell] } (by decide!)).2.1⟩


/-! ## The dump -/

theorem numbered_up_append : ∀ (l1 l2 : List node) (k : Int),
    numbered_up k (l1 ++ l2) = (numbered_up k l1 && numbered_up (k + l1.length) l2) := by
  intro l1
  induction l1 with
  | nil => intro l2 k; simp [numbered_up]
  | cons n ns ih =>
    intro l2 k
    have e : k + 1 + (ns.length : Int) = k + ((ns.length : Int) + 1) := by omega
    show numbered_up k (n :: (ns ++ l2)) = _
    simp only [numbered_up, List.length_cons, Nat.cast_add, Nat.cast_one]
    rw [ih, e, Bool.and_assoc]

theorem numbered_down_reverse : ∀ (l : List node) (k : Int), numbered_down k l = true →
    numbered_up (k - l.length + 1) l.reverse = true := by
  intro l
  induction l with
  | nil => intro k _; rfl
  | cons n ns ih =>
    intro k h
    simp only [numbered_down, Bool.and_eq_true, decide_eq_true_eq] at h
    obtain ⟨hn, hns⟩ := h
    have h1 := ih (k - 1) hns
    simp only [List.reverse_cons, numbered_up_append, List.length_cons, Nat.cast_add,
      Nat.cast_one, List.length_reverse, numbered_up, Bool.and_true, Bool.and_eq_true,
      decide_eq_true_eq]
    refine ⟨?_, by omega⟩
    have e : k - ((ns.length : Int) + 1) + 1 = k - 1 - (ns.length : Int) + 1 := by omega
    rw [e]
    exact h1

theorem tape_inv_cells (t : Tape) (h : tape_inv t = true) : numbered_up t.lo t.cells = true := by
  rw [tape_inv_iff] at h
  obtain ⟨h1, h2, _, _⟩ := h
  have hr := numbered_down_reverse t.prev (t.cur.cell - 1) h1
  have e1 : t.cur.cell - 1 - (t.prev.length : Int) + 1 = t.lo := by simp only [Tape.lo]; omega
  rw [e1] at hr
  have e2 : t.lo + (t.prev.length : Int) = t.cur.cell := by simp only [Tape.lo]; omega
  have e3 : t.lo + (t.prev.length : Int) + 1 = t.cur.cell + 1 := by omega
  simp only [Tape.cells, numbered_up_append, hr, List.length_reverse, numbered_up, e2, e3, h2,
    decide_True, Bool.and_self]

theorem numbered_up_get : ∀ (l : List node) (k : Int), numbered_up k l = true →
    ∀ (i : Nat) (nd : node), l[i]? = some nd → nd.cell = k + i := by
  intro l
  induction l with
  | nil => intro k _ i nd h; simp at h
  | cons n ns ih =>
    intro k h i nd hi
    simp only [numbered_up, Bool.and_eq_true, decide_eq_true_eq] at h
    cases i with
    | zero =>
      simp only [List.getElem?_cons_zero, Option.some.injEq] at hi
      subst hi
      simp [h.1]
    | succ j =>
      simp only [List.getElem?_cons_succ] at hi
      have := ih (k + 1) h.2 j nd hi
      rw [this]
      push_cast
      omega

theorem cells_length (t : Tape) : (t.cells.length : Int) = t.hi - t.lo + 1 := by
  simp only [Tape.cells, Tape.hi, Tape.lo, List.length_append, List.length_reverse,
    List.length_cons, Nat.cast_add, Nat.cast_one]
  omega

/-- The dump on the values for which `isgraph` is defined.  `mem_dump`,
whatever cell is current, writes the header line and then exactly one row per
existing cell, from the first cell to the last, and nothing else; it leaves
the list of cells, their contents, the current position, the input and the
warnings as they are.  On a tape that satisfies the tape invariant (every tape
the program reaches) the rows number `hi - lo + 1`, and row `i` shows the cell
number `lo + i` and the content of that cell; when the content is a value of
`unsigned char` or `EOF`, the character column is the content if it is a
graphic character (33..126) and a space (32) if it is not. -/
theorem mem_dump_lists_cells (w : World) (h : tape_inv w.ptr = true) :
    (mem_dump w).ptr = w.ptr ∧ (mem_dump w).stdin = w.stdin ∧ (mem_dump w).stderr = w.stderr ∧
    (mem_dump w).stdout = w.stdout ++ Out.dump_header :: w.ptr.cells.map dump_row ∧
    ((w.ptr.cells.map dump_row).length : Int) = w.ptr.hi - w.ptr.lo + 1 ∧
    (∀ (i : Nat) (nd : node), w.ptr.cells[i]? = some nd →
      nd.cell = w.ptr.lo + i ∧
      (∃ ch, (w.ptr.cells.map dump_row)[i]? = some (Out.dump_row (w.ptr.lo + i) nd.data ch)) ∧
      ((0 ≤ nd.data ∧ nd.data ≤ 255) ∨ nd.data = EOF →
        (w.ptr.cells.map dump_row)[i]?
          = some (Out.dump_row (w.ptr.lo + i) nd.data
              (some (if 33 ≤ nd.data ∧ nd.data ≤ 126 then nd.data else 32))))) := by
  refine ⟨rfl, rfl, rfl, rfl, ?_, ?_⟩
  · rw [List.length_map]; exact cells_length w.ptr
  · intro i nd hi
    have hc := numbered_up_get w.ptr.cells w.ptr.lo (tape_inv_cells w.ptr h) i nd hi
    refine ⟨hc, ⟨(isgraph nd.data).map (fun r => if r then nd.data else 32), ?_⟩, ?_⟩
    · rw [List.getElem?_map, hi]
      simp only [Option.map_some', dump_row, hc]
      cases isgraph nd.data <;> rfl
    · intro hdom
      rw [List.getElem?_map, hi]
      simp only [Option.map_some', dump_row, isgraph, if_pos hdom, decide_eq_true_eq, hc]

theorem mem_dump_lists_cells_witness :
    tape_inv { prev := [{ data := 65, cell := -1 }], cur := { data := 7, cell := 0 },
               next := [{ data := 0, cell := 1 }] } = true ∧
    (mem_dump { ptr := { prev := [{ data := 65, cell := -1 }], cur := { data := 7, cell := 0 },
                         next := [{ data := 0, cell := 1 }] },
                stdin := [], stdout := [Out.char 1], stderr := [] }).stdout
      = [Out.char 1, Out.dump_header, Out.dump_row (-1) 65 (some 65), Out.dump_row 0 7 (some 32),
          Out.dump_row 1 0 (some 32)] :=
  ⟨by decide,
    (mem_dump_lists_cells
      { ptr := { prev := [{ data := 65, cell := -1 }], cur := { data := 7, cell := 0 },
                 next := [{ data := 0, cell := 1 }] },
        stdin := [], stdout := [Out.char 1], stderr := [] } (by decide)).2.2.2.1.trans
      (by decide)⟩

/-! ## The dump character -/

theorem interpret_byte (n : Nat) (b : Byte) (opts : conf) (f : FILE) (w : World) (h : b ≠ 91) :
    interpret (n + 1) (b.val : Int) opts f w
      = some (if b = 93 then 0 else 1, f,
          ref_instr opts b (if ((b.val : Nat) : Int) = opts.dump then mem_dump w else w)) := by
  have e62 : ((b.val : Nat) : Int) = 62 ↔ b = 62 := byte_eq_lit b 62 (by omega)
  have e60 : ((b.val : Nat) : Int) = 60 ↔ b = 60 := byte_eq_lit b 60 (by omega)
  have e43 : ((b.val : Nat) : Int) = 43 ↔ b = 43 := byte_eq_lit b 43 (by omega)
  have e45 : ((b.val : Nat) : Int) = 45 ↔ b = 45 := byte_eq_lit b 45 (by omega)
  have e46 : ((b.val : Nat) : Int) = 46 ↔ b = 46 := byte_eq_lit b 46 (by omega)
  have e44 : ((b.val : Nat) : Int) = 44 ↔ b = 44 := byte_eq_lit b 44 (by omega)
  simp only [interpret, ref_instr, e62, e60, e43, e45, e46, e44, byte_eq_91, byte_eq_93, h,
    if_false]
  generalize (if ((b.val : Nat) : Int) = opts.dump then mem_dump w else w) = W
  split_ifs <;> first | rfl | (exfalso; simp_all)

theorem get_cell_data_stdout (opts : conf) (w : World) :
    (get_cell_data opts w).stdout = w.stdout := by
  obtain ⟨ptr, stdin, stdout, stderr⟩ := w
  cases stdin with
  | nil =>
    by_cases hw : opts.warn = 0 <;> by_cases he : opts.eof = 9999 <;>
      simp [get_cell_data, getchar, set_data, hw, he]
  | cons b rest =>
    have hb : ¬ (((b.val : Nat) : Int) = EOF) := byte_ne_EOF b
    simp only [get_cell_data, getchar, set_data, hb, if_false]

theorem ref_instr_stdout (opts : conf) (b : Byte) (u : World) :
    (ref_instr opts b u).stdout
      = (if b = 46 then (putchar u.ptr.cur.data u).stdout else u.stdout) := by
  by_cases h62 : b = 62
  · subst h62; rfl
  by_cases h60 : b = 60
  · subst h60; exact (prev_cell_ptr opts u).2.2
  by_cases h43 : b = 43
  · subst h43; rfl
  by_cases h45 : b = 45
  · subst h45; exact (ref_instr_minus opts u).2.2.1
  by_cases h46 : b = 46
  · subst h46; rfl
  by_cases h44 : b = 44
  · subst h44; exact get_cell_data_stdout opts u
  · simp only [ref_instr, h62, h60, h43, h45, h46, h44, if_false]

theorem ref_instr_count_header (opts : conf) (b : Byte) (u : World) :
    (ref_instr opts b u).stdout.count Out.dump_header = u.stdout.count Out.dump_header := by
  rw [ref_instr_stdout]
  split
  · simp [putchar, List.count_append, List.count_cons]
  · rfl

theorem count_header_rows (l : List node) :
    (l.map dump_row).count Out.dump_header = 0 := by
  induction l with
  | nil => rfl
  | cons n ns ih => simp [List.count_cons, dump_row, ih]

/-- C13: the dump character.  `interpret` on a byte `b` other than `[` acts
as the instruction `b` (nothing for `]` and for a comment) on the world it was
given if `b` is not the dump character, and on that world after one
`mem_dump` if it is; for `[` the loop is run from the world given, after one
`mem_dump` if `[` is the dump character.  The dump precedes the instruction:
its rows are the cells as they were before `b` took effect.  The instruction
itself writes no dump, so the number of dumps written by `interpret` on `b` is
one if `b` is the dump character and zero if it is not, and zero for every
`b` when no dump character is configured (`dump = 9999`). -/
theorem dump_exactly_on_trigger (n : Nat) (opts : conf) (f : FILE) (w : World) :
    (∀ b : Byte, b ≠ 91 →
      interpret (n + 1) (b.val : Int) opts f w
        = some (if b = 93 then 0 else 1, f,
            ref_instr opts b (if ((b.val : Nat) : Int) = opts.dump then mem_dump w else w))) ∧
    interpret (n + 1) 91 opts f w
      = (match loop n opts f (if (91 : Int) = opts.dump then mem_dump w else w) with
        | none => none
        | some (f1, w1) => some (1, f1, w1)) ∧
    ((mem_dump w).stdout = w.stdout ++ Out.dump_header :: w.ptr.cells.map dump_row ∧
      (mem_dump w).ptr = w.ptr) ∧
    (∀ (b : Byte) (r : Int) (f1 : FILE) (v : World), b ≠ 91 →
      interpret (n + 1) (b.val : Int) opts f w = some (r, f1, v) →
      v.stdout.count Out.dump_header
        = w.stdout.count Out.dump_header + (if ((b.val : Nat) : Int) = opts.dump then 1 else 0)) ∧
    (∀ b : Byte, opts.dump = 9999 → ¬ (((b.val : Nat) : Int) = opts.dump)) := by
  refine ⟨fun b hb => interpret_byte n b opts f w hb, ?_, ⟨rfl, rfl⟩, ?_, ?_⟩
  · simp only [interpret, show ¬ ((91 : Int) = 62) by decide,
      show ¬ ((91 : Int) = 60) by decide, show ¬ ((91 : Int) = 43) by decide,
      show ¬ ((91 : Int) = 45) by decide, show ¬ ((91 : Int) = 46) by decide,
      show ¬ ((91 : Int) = 44) by decide, if_false, if_true]
  · intro b r f1 v hb h
    rw [interpret_byte n b opts f w hb] at h
    simp only [Option.some.injEq, Prod.mk.injEq] at h
    obtain ⟨_, _, rfl⟩ := h
    rw [ref_instr_count_header]
    split
    · simp only [mem_dump, List.count_append, List.count_cons, count_header_rows, beq_self_eq_true,
        if_true]
    · rfl
  · intro b hd
    rw [hd]
    exact byte_ne_9999 b

theorem dump_exactly_on_trigger_witness :
    (43 : Byte) ≠ 91 ∧
    interpret 1 43 { dump := 43, eof := 9999, warn := 0 } ⟨[43], 1⟩
        { ptr := { prev := [], cur := { data := 5, cell := 0 }, next := [] },
          stdin := [], stdout := [], stderr := [] }
      = some (1, ⟨[43], 1⟩,
          { ptr := { prev := [], cur := { data := 6, cell := 0 }, next := [] },
            stdin := [], stdout := [Out.dump_header, Out.dump_row 0 5 (some 32)], stderr := [] }) ∧
    interpret 1 45 { dump := 43, eof := 9999, warn := 0 } ⟨[45], 1⟩
        { ptr := { prev := [], cur := { data := 5, cell := 0 }, next := [] },
          stdin := [], stdout := [], stderr := [] }
      = some (1, ⟨[45], 1⟩,
          { ptr := { prev := [], cur := { data := 4, cell := 0 }, next := [] },
            stdin := [], stdout := [], stderr := [] }) ∧
    interpret 1 93 { dump := 93, eof := 9999, warn := 0 } ⟨[93], 1⟩
        { ptr := { prev := [], cur := { data := 5, cell := 0 }, next := [] },
          stdin := [], stdout := [], stderr := [] }
      = some (0, ⟨[93], 1⟩,
          { ptr := { prev := [], cur := { data := 5, cell := 0 }, next := [] },
            stdin := [], stdout := [Out.dump_header, Out.dump_row 0 5 (some 32)], stderr := [] }) ∧
    ([Out.dump_header, Out.dump_row 0 5 (some 32)] : List Out).count Out.dump_header
      = ([] : List Out).count Out.dump_header
        + (if (((43 : Byte).val : Nat) : Int)
            = ({ dump := 43, eof := 9999, warn := 0 } : conf).dump then 1 else 0) :=
  ⟨by decide, by decide, by decide, by decide,
    (dump_exactly_on_trigger 0 { dump := 43, eof := 9999, warn := 0 } ⟨[43], 1⟩
      { ptr := { prev := [], cur := { data := 5, cell := 0 }, next := [] },
        stdin := [], stdout := [], stderr := [] }).2.2.2.1 43 1 ⟨[43], 1⟩
      { ptr := { prev := [], cur := { data := 6, cell := 0 }, next := [] },
        stdin := [], stdout := [Out.dump_header, Out.dump_row 0 5 (some 32)], stderr := [] }
      (by decide) (by decide)⟩


/-! ## Writing a byte -/

theorem plus_then_dot_ref (opts : conf) (input : List Byte) (k : Nat) :
    ref_exec (1 + (List.replicate k (43 : Byte) ++ [46]).length) opts
        (ops (List.replicate k 43 ++ [46]) Prog.nil) (initial_world input)
      = some { ptr := { prev := [], cur := { data := (k : Int), cell := 0 }, next := [] },
               stdin := input,
               stdout := [Out.char ⟨k % 256, Nat.mod_lt _ (by decide)⟩], stderr := [] } := by
  rw [ref_exec_ops, List.foldl_append, foldl_plus]
  have e : ((k : Int) % 256).toNat = k % 256 := by omega
  simp only [ref_exec, List.foldl_cons, List.foldl_nil, ref_instr, set_data, putchar,
    initial_world, initial_tape, show ¬ ((46 : Byte) = 62) by decide,
    show ¬ ((46 : Byte) = 60) by decide, show ¬ ((46 : Byte) = 43) by decide,
    show ¬ ((46 : Byte) = 45) by decide, if_false, if_true, List.nil_append, e, zero_add]

theorem plus_then_dot_main (opts : conf) (hd : opts.dump = 9999) (input : List Byte) (k : Nat) :
    ∃ fuel, main fuel opts (List.replicate k 43 ++ [46]) input
      = some (Exit.success, ⟨List.replicate k 43 ++ [46], k + 1⟩,
          { ptr := { prev := [], cur := { data := (k : Int), cell := 0 }, next := [] },
            stdin := input,
            stdout := [Out.char ⟨k % 256, Nat.mod_lt _ (by decide)⟩], stderr := [] }) := by
  have href := plus_then_dot_ref opts input k
  have hok : (ops (List.replicate k (43 : Byte) ++ [46]) Prog.nil).ok = true := by
    apply ops_ok _ _ _ (by rfl)
    intro c hc
    rcases List.mem_append.mp hc with h | h
    · exact replicate_43_not_bracket k c h
    · simp only [List.mem_singleton] at h
      subst h; decide
  have hflat : (ops (List.replicate k (43 : Byte) ++ [46]) Prog.nil).flatten
      = List.replicate k 43 ++ [46] := by
    rw [ops_flatten]; simp [Prog.flatten]
  have hlen : (List.replicate k (43 : Byte) ++ [46]).length = k + 1 := by simp
  obtain ⟨m, hm⟩ := main_loop_complete opts hd _ _ _ _ hok href
    (List.replicate k 43 ++ [46]) [] [] 0 1
    (⟨List.replicate k 43 ++ [46], k + 1⟩, _)
    (by simp [hflat]) rfl
    (by
      rw [hflat, hlen, Nat.zero_add]
      exact main_loop_eof 0 opts _ _ _ (by simp))
  refine ⟨m, ?_⟩
  have hcount : (List.replicate k (43 : Byte) ++ [46]).count 91
      = (List.replicate k (43 : Byte) ++ [46]).count 93 := by
    simp [List.count_append, List.count_replicate, List.count_cons]
  simp only [main, parens_match_eq, hcount, if_true, one_ne_zero, if_false, hm]

/-- C15: the instruction `.` on a current cell holding any integer `v`:
`interpret` appends exactly one byte to the output, the byte with value
`v mod 256` in 0..255 (after the dump, if `.` is the dump character), and
leaves the tape, with `v` itself not reduced, the position, the input and the
warnings unchanged.  For instance 256 `+` followed by `.` make `main` write
the byte 0 while the cell holds 256. -/
theorem dot_writes_low_byte (n : Nat) (opts : conf) (f : FILE) (w : World) :
    (∃ byte : Byte, ((byte.val : Nat) : Int) = w.ptr.cur.data % 256 ∧
      interpret (n + 1) 46 opts f w
        = some (1, f,
            { w with stdout := (if (46 : Int) = opts.dump then (mem_dump w).stdout else w.stdout)
                                  ++ [Out.char byte] })) ∧
    (∃ fuel, main fuel default_conf (List.replicate 256 43 ++ [46]) []
      = some (Exit.success, ⟨List.replicate 256 43 ++ [46], 257⟩,
          { ptr := { prev := [], cur := { data := 256, cell := 0 }, next := [] },
            stdin := [], stdout := [Out.char 0], stderr := [] })) := by
  constructor
  · refine ⟨⟨(w.ptr.cur.data % 256).toNat, by omega⟩, by simp only; omega, ?_⟩
    have h := interpret_byte n 46 opts f w (by decide)
    rw [show (((46 : Byte).val : Nat) : Int) = 46 from rfl] at h
    rw [h]
    simp only [show ¬ ((46 : Byte) = 93) by decide, if_false, ref_instr,
      show ¬ ((46 : Byte) = 62) by decide,
      show ¬ ((46 : Byte) = 60) by decide, show ¬ ((46 : Byte) = 43) by decide,
      show ¬ ((46 : Byte) = 45) by decide, if_true, putchar]
    split <;> rfl
  · exact plus_then_dot_main default_conf rfl [] 256


/-! ## The tape invariant along a run -/

theorem numbered_up_ge : ∀ (l : List node) (k : Int), numbered_up k l = true →
    ∀ x ∈ l, k ≤ x.cell := by
  intro l
  induction l with
  | nil => intro k _ x hx; simp at hx
  | cons n ns ih =>
    intro k h x hx
    simp only [numbered_up, Bool.and_eq_true, decide_eq_true_eq] at h
    rcases List.mem_cons.mp hx with rfl | hx
    · omega
    · have := ih (k + 1) h.2 x hx
      omega

theorem numbered_up_nodup : ∀ (l : List node) (k : Int), numbered_up k l = true →
    (l.map node.cell).Nodup := by
  intro l
  induction l with
  | nil => intro k _; simp
  | cons n ns ih =>
    intro k h
    simp only [numbered_up, Bool.and_eq_true, decide_eq_true_eq] at h
    simp only [List.map_cons, List.nodup_cons, List.mem_map, not_exists, not_and]
    refine ⟨?_, ih (k + 1) h.2⟩
    intro x hx hxn
    have := numbered_up_ge ns (k + 1) h.2 x hx
    omega

theorem tape_bounds_step (opts : conf) (lo0 hi0 : Int) (w : World) (b : Byte)
    (h : tape_inv w.ptr = true ∧ w.ptr.lo ≤ lo0 ∧ hi0 ≤ w.ptr.hi) :
    tape_inv (ref_instr opts b w).ptr = true ∧ (ref_instr opts b w).ptr.lo ≤ lo0 ∧
      hi0 ≤ (ref_instr opts b w).ptr.hi := by
  obtain ⟨hinv, hlo, hhi⟩ := h
  rcases ref_instr_cases opts b w with ⟨_, h⟩ | ⟨_, h⟩ | ⟨_, _, ⟨v, hv⟩, _⟩
  · rw [h]
    obtain ⟨h1, _, h3, h4, _⟩ := next_cell_inv w.ptr hinv
    refine ⟨h1, by simp only [h3]; exact hlo, ?_⟩
    simp only [h4]
    split <;> omega
  · rw [h]
    obtain ⟨h1, _, h3, h4, _⟩ := prev_cell_inv opts w hinv
    refine ⟨h1, ?_, by rw [h3]; exact hhi⟩
    rw [h4]
    split <;> omega
  · rw [hv]
    exact ⟨hinv, hlo, hhi⟩

/-- C16: the tape invariant.  It holds of the initial single cell (number 0,
content 0).  On a tape that satisfies it the cells, from first to last, carry
the consecutive numbers `lo..hi`, with `lo ≤ 0 ≤ hi` and no number twice, and
the current cell is one of them.  `>` and `<` keep the invariant and change
the current number by exactly +1 and -1; they create a cell only when the new
number is outside `lo..hi` (one cell, holding 0, at that end) and otherwise
leave the list of cells as it is.  Every other character that is not a
bracket at most stores a value in the current cell.  Hence every call of
`interpret` (loops included), every run of the read loop and every run of
`main` keeps the invariant, and never removes a cell: `lo` does not increase
and `hi` does not decrease. -/
theorem tape_invariant (opts : conf) :
    (tape_inv initial_tape = true ∧ initial_tape.lo = 0 ∧ initial_tape.hi = 0 ∧
      initial_tape.cells = [{ data := 0, cell := 0 }]) ∧
    (∀ t : Tape, tape_inv t = true →
      numbered_up t.lo t.cells = true ∧ (t.cells.map node.cell).Nodup ∧
      t.lo ≤ 0 ∧ 0 ≤ t.hi ∧ (t.cells.length : Int) = t.hi - t.lo + 1 ∧
      t.lo ≤ t.cur.cell ∧ t.cur.cell ≤ t.hi ∧ t.cells[t.prev.length]? = some t.cur) ∧
    (∀ t : Tape, tape_inv t = true →
      tape_inv (next_cell t) = true ∧ (next_cell t).cur.cell = t.cur.cell + 1 ∧
      (t.next = [] ↔ t.hi < t.cur.cell + 1) ∧
      (next_cell t).cells
        = (if t.next = [] then t.cells ++ [{ data := 0, cell := t.hi + 1 }] else t.cells)) ∧
    (∀ w : World, tape_inv w.ptr = true →
      tape_inv (prev_cell opts w).ptr = true ∧
      (prev_cell opts w).ptr.cur.cell = w.ptr.cur.cell - 1 ∧
      (w.ptr.prev = [] ↔ w.ptr.cur.cell - 1 < w.ptr.lo) ∧
      (prev_cell opts w).ptr.cells
        = (if w.ptr.prev = [] then { data := 0, cell := w.ptr.lo - 1 } :: w.ptr.cells
           else w.ptr.cells)) ∧
    (∀ (w : World) (b : Byte), b ≠ 62 → b ≠ 60 →
      ∃ v, (ref_instr opts b w).ptr = { w.ptr with cur := { w.ptr.cur with data := v } }) ∧
    (∀ (n : Nat) (c : Int) (f : FILE) (w : World) (r : Int × FILE × World),
      tape_inv w.ptr = true → interpret n c opts f w = some r →
      tape_inv r.2.2.ptr = true ∧ r.2.2.ptr.lo ≤ w.ptr.lo ∧ w.ptr.hi ≤ r.2.2.ptr.hi) ∧
    (∀ (n : Nat) (f : FILE) (w : World) (r : FILE × World),
      tape_inv w.ptr = true → main_loop n opts f w = some r →
      tape_inv r.2.ptr = true ∧ r.2.ptr.lo ≤ w.ptr.lo ∧ w.ptr.hi ≤ r.2.ptr.hi) ∧
    (∀ (fuel : Nat) (source input : List Byte) (e : Exit) (f : FILE) (w : World),
      main fuel opts source input = some (e, f, w) →
      tape_inv w.ptr = true ∧ w.ptr.lo ≤ 0 ∧ 0 ≤ w.ptr.hi) := by
  refine ⟨⟨initial_tape_inv, initial_tape_lo, initial_tape_hi, rfl⟩, ?_, ?_, ?_, ?_, ?_, ?_, ?_⟩
  · intro t h
    have hc := tape_inv_cells t h
    obtain ⟨_, _, h3, h4⟩ := (tape_inv_iff t).mp h
    refine ⟨hc, numbered_up_nodup _ _ hc, h3, h4, cells_length t, ?_, ?_, ?_⟩
    · simp only [Tape.lo]; omega
    · simp only [Tape.hi]; omega
    · simp only [Tape.cells]
      rw [List.getElem?_append_right (by simp)]
      simp
  · intro t h
    obtain ⟨h1, h2, _, _, h5⟩ := next_cell_inv t h
    refine ⟨h1, h2, ?_, h5⟩
    simp only [Tape.hi]
    cases t.next with
    | nil => simp
    | cons n ns => simp only [reduceCtorEq, List.length_cons, Nat.cast_add, Nat.cast_one,
        false_iff]; omega
  · intro w h
    obtain ⟨h1, h2, _, _, h5⟩ := prev_cell_inv opts w h
    refine ⟨h1, h2, ?_, h5⟩
    simp only [Tape.lo]
    cases w.ptr.prev with
    | nil => simp
    | cons n ns => simp only [reduceCtorEq, List.length_cons, Nat.cast_add, Nat.cast_one,
        false_iff]; omega
  · intro w b h62 h60
    rcases ref_instr_cases opts b w with ⟨h, _⟩ | ⟨h, _⟩ | ⟨_, _, hv, _⟩
    · exact absurd h h62
    · exact absurd h h60
    · exact hv
  · intro n c f w r h hrun
    exact (run_preserves opts
      (fun v => tape_inv v.ptr = true ∧ v.ptr.lo ≤ w.ptr.lo ∧ w.ptr.hi ≤ v.ptr.hi)
      (fun _ hv => hv) (fun v b hv => tape_bounds_step opts _ _ v b hv) n).1 c f w r
      ⟨h, le_refl _, le_refl _⟩ hrun
  · intro n f w r h hrun
    exact main_loop_preserves opts
      (fun v => tape_inv v.ptr = true ∧ v.ptr.lo ≤ w.ptr.lo ∧ w.ptr.hi ≤ v.ptr.hi)
      (fun _ hv => hv) (fun v b hv => tape_bounds_step opts _ _ v b hv) n f w r
      ⟨h, le_refl _, le_refl _⟩ hrun
  · intro fuel source input e f w h
    have h0 : tape_inv (initial_world input).ptr = true ∧ (initial_world input).ptr.lo ≤ 0 ∧
        0 ≤ (initial_world input).ptr.hi := by
      have hlo : (initial_world input).ptr.lo = 0 := initial_tape_lo
      have hhi : (initial_world input).ptr.hi = 0 := initial_tape_hi
      exact ⟨initial_tape_inv, by rw [hlo], by rw [hhi]⟩
    rcases main_cases fuel opts source input e f w h with rfl | hrun
    · exact h0
    · exact main_loop_preserves opts
        (fun v => tape_inv v.ptr = true ∧ v.ptr.lo ≤ 0 ∧ 0 ≤ v.ptr.hi)
        (fun _ hv => hv) (fun v b hv => tape_bounds_step opts _ _ v b hv) fuel _ _ (f, w)
        h0 hrun

theorem tape_invariant_witness :
    tape_inv { prev := [{ data := 3, cell := -1 }], cur := { data := 7, cell := 0 },
               next := [] } = true ∧
    next_cell { prev := [{ data := 3, cell := -1 }], cur := { data := 7, cell := 0 }, next := [] }
      = { prev := [{ data := 7, cell := 0 }, { data := 3, cell := -1 }],
          cur := { data := 0, cell := 1 }, next := [] } ∧
    tape_inv (next_cell { prev := [{ data := 3, cell := -1 }], cur := { data := 7, cell := 0 },
                          next := [] }) = true :=
  ⟨by decide, by decide,
    ((tape_invariant default_conf).2.2.1
      { prev := [{ data := 3, cell := -1 }], cur := { data := 7, cell := 0 }, next := [] }
      (by decide)).1⟩


/-! ## Leaving a loop -/

theorem loop_while_exit : ∀ (k : Nat) (opts : conf) (s : Nat) (f : FILE) (w : World)
    (r : FILE × World), loop_while k opts s f w = some r → r.2.ptr.cur.data ≤ 0 := by
  intro k
  induction k with
  | zero => intro opts s f w r h; simp [loop_while] at h
  | succ k ih =>
    intro opts s f w r h
    simp only [loop_while] at h
    by_cases hd : w.ptr.cur.data > 0
    · simp only [hd, if_true] at h
      cases hq : loop_body k opts (fsetpos f s) w with
      | none => simp [hq] at h
      | some q =>
        rw [hq] at h
        exact ih opts s _ _ r h
    · simp only [hd, if_false, Option.some.injEq] at h
      subst h
      simp only
      omega

/-- C17: whenever `loop` (the handling of a `[`) returns, for any source,
tape, input and options, the cell that is then current holds a value ≤ 0; the
same holds when `interpret` returns from a `[`.  And if the current cell was
> 0 when the `[` was met, the body was run at least once before that: a first
pass from the position saved at the `[` has returned, and the loop went on
from its result. -/
theorem loop_exit_condition (n : Nat) (opts : conf) (f : FILE) (w : World) (f1 : FILE)
    (w1 : World) (h : loop n opts f w = some (f1, w1)) :
    w1.ptr.cur.data ≤ 0 ∧
    (0 < w.ptr.cur.data →
      ∃ (k : Nat) (f2 : FILE) (w2 : World), k < n ∧
        loop_body k opts ⟨f.content, f.pos⟩ w = some (f2, w2) ∧
        loop_while k opts f.pos f2 w2 = some (f1, w1)) ∧
    (∀ (m : Nat) (r : Int) (g g1 : FILE) (u v : World),
      interpret m 91 opts g u = some (r, g1, v) → v.ptr.cur.data ≤ 0) := by
  obtain ⟨n, rfl⟩ : ∃ j, n = j + 1 := by
    cases n with
    | zero => simp [loop] at h
    | succ j => exact ⟨j, rfl⟩
  refine ⟨?_, ?_, ?_⟩
  · simp only [loop] at h
    by_cases hd : w.ptr.cur.data ≤ 0
    · simp only [hd, if_true, Option.some.injEq, Prod.mk.injEq] at h
      rw [← h.2]; exact hd
    · simp only [hd, if_false] at h
      exact loop_while_exit n opts _ f w (f1, w1) h
  · intro hpos
    have hd : ¬ (w.ptr.cur.data ≤ 0) := by omega
    simp only [loop, hd, if_false, fgetpos] at h
    obtain ⟨k, rfl⟩ : ∃ j, n = j + 1 := by
      cases n with
      | zero => simp [loop_while] at h
      | succ j => exact ⟨j, rfl⟩
    have hgt : w.ptr.cur.data > 0 := hpos
    simp only [loop_while, hgt, if_true, fsetpos] at h
    cases hq : loop_body k opts ⟨f.content, f.pos⟩ w with
    | none => simp [hq] at h
    | some q =>
      obtain ⟨f2, w2⟩ := q
      rw [hq] at h
      exact ⟨k, f2, w2, by omega, hq, h⟩
  · intro m r g g1 u v hi
    obtain ⟨m, rfl⟩ : ∃ j, m = j + 1 := by
      cases m with
      | zero => simp [interpret] at hi
      | succ j => exact ⟨j, rfl⟩
    simp only [interpret, show ¬ ((91 : Int) = 62) by decide,
      show ¬ ((91 : Int) = 60) by decide, show ¬ ((91 : Int) = 43) by decide,
      show ¬ ((91 : Int) = 45) by decide, show ¬ ((91 : Int) = 46) by decide,
      show ¬ ((91 : Int) = 44) by decide, if_false, if_true] at hi
    cases hq : loop m opts g (if 91 = opts.dump then mem_dump u else u) with
    | none => simp [hq] at hi
    | some q =>
      obtain ⟨f2, w2⟩ := q
      rw [hq] at hi
      simp only [Option.some.injEq, Prod.mk.injEq] at hi
      obtain ⟨_, _, rfl⟩ := hi
      obtain ⟨m, rfl⟩ : ∃ j, m = j + 1 := by
        cases m with
        | zero => simp [loop] at hq
        | succ j => exact ⟨j, rfl⟩
      simp only [loop] at hq
      by_cases hd : (if (91 : Int) = opts.dump then mem_dump u else u).ptr.cur.data ≤ 0
      · simp only [hd, if_true, Option.some.injEq, Prod.mk.injEq] at hq
        rw [← hq.2]; exact hd
      · simp only [hd, if_false] at hq
        exact loop_while_exit m opts _ _ _ (f2, w2) hq

theorem loop_exit_condition_witness :
    loop 8 default_conf ⟨[91, 45, 93], 1⟩
        { ptr := { prev := [], cur := { data := 2, cell := 0 }, next := [] },
          stdin := [], stdout := [], stderr := [] }
      = some (⟨[91, 45, 93], 3⟩,
          { ptr := { prev := [], cur := { data := 0, cell := 0 }, next := [] },
            stdin := [], stdout := [], stderr := [] }) ∧
    ({ ptr := { prev := [], cur := { data := 0, cell := 0 }, next := [] },
       stdin := [], stdout := [], stderr := [] } : World).ptr.cur.data ≤ 0 :=
  ⟨by decide!,
    (loop_exit_condition 8 default_conf ⟨[91, 45, 93], 1⟩
      { ptr := { prev := [], cur := { data := 2, cell := 0 }, next := [] },
        stdin := [], stdout := [], stderr := [] } ⟨[91, 45, 93], 3⟩
      { ptr := { prev := [], cur := { data := 0, cell := 0 }, next := [] },
        stdin := [], stdout := [], stderr := [] } (by decide!)).1⟩


/-! ## A closing bracket outside any loop -/

theorem interpret_result (n : Nat) (c : Int) (opts : conf) (f : FILE) (w : World) (r : Int)
    (f1 : FILE) (w1 : World) (h : interpret n c opts f w = some (r, f1, w1)) :
    r = (if c = 93 then 0 else 1) := by
  obtain ⟨n, rfl⟩ : ∃ j, n = j + 1 := by
    cases n with
    | zero => simp [interpret] at h
    | succ j => exact ⟨j, rfl⟩
  by_cases h91 : c = 91
  · subst h91
    simp only [interpret, show ¬ ((91 : Int) = 62) by decide,
      show ¬ ((91 : Int) = 60) by decide, show ¬ ((91 : Int) = 43) by decide,
      show ¬ ((91 : Int) = 45) by decide, show ¬ ((91 : Int) = 46) by decide,
      show ¬ ((91 : Int) = 44) by decide, if_false, if_true] at h
    cases hq : loop n opts f (if 91 = opts.dump then mem_dump w else w) with
    | none => simp [hq] at h
    | some q =>
      rw [hq] at h
      simp only [Option.some.injEq, Prod.mk.injEq] at h
      rw [← h.1]; decide
  · obtain ⟨v, hv, _⟩ := interpret_simple n c opts f w h91
    rw [hv] at h
    simp only [Option.some.injEq, Prod.mk.injEq] at h
    exact h.1.symm

theorem main_loop_ops (opts : conf) (hd : opts.dump = 9999) (content : List Byte) :
    ∀ (cs pre rest : List Byte) (pos n : Nat) (w : World),
      (∀ c ∈ cs, c ≠ 91 ∧ c ≠ 93) → content = pre ++ (cs ++ rest) → pos = pre.length →
      main_loop (n + 1 + cs.length) opts ⟨content, pos⟩ w
        = main_loop (n + 1) opts ⟨content, pos + cs.length⟩
            (cs.foldl (fun w c => ref_instr opts c w) w) := by
  intro cs
  induction cs with
  | nil => intro pre rest pos n w _ _ _; rfl
  | cons c cs ih =>
    intro pre rest pos n w hcs hc hp
    have hc1 := hcs c (List.mem_cons_self _ _)
    have e : n + 1 + (c :: cs).length = (n + cs.length + 1) + 1 := by simp; omega
    rw [e, main_loop_at _ opts content pre (cs ++ rest) c pos w (by simpa using hc) hp,
      interpret_op _ c opts _ w hd hc1.1 hc1.2]
    simp only [List.foldl_cons, List.length_cons]
    have e2 : n + cs.length + 1 = n + 1 + cs.length := by omega
    have e3 : pos + (cs.length + 1) = pos + 1 + cs.length := by omega
    rw [e2, e3]
    exact ih (pre ++ [c]) rest (pos + 1) n (ref_instr opts c w)
      (fun x hx => hcs x (List.mem_cons_of_mem _ hx)) (by simp [hc]) (by simp [hp])

theorem main_loop_ops_run (opts : conf) (hd : opts.dump = 9999) (content cs pre : List Byte)
    (pos N : Nat) (w : World) (hcs : ∀ c ∈ cs, c ≠ 91 ∧ c ≠ 93) (hc : content = pre ++ cs)
    (hp : pos = pre.length) (hN : cs.length + 1 ≤ N) :
    main_loop N opts ⟨content, pos⟩ w
      = some (⟨content, content.length⟩, cs.foldl (fun w c => ref_instr opts c w) w) := by
  have h := main_loop_ops opts hd content cs pre [] pos 0 w hcs (by simpa using hc) hp
  have hlen : content.length = pos + cs.length := by simp [hc, hp]
  rw [main_loop_eof 0 opts content _ _ (by omega), ← hlen] at h
  exact main_loop_mono _ N (by omega) _ _ _ _ h

/-- C18: `interpret` returns 0 exactly when its character is `]` and 1 for
every other character.  The read loop of `main` does not use that value, so a
`]` it meets outside any loop changes nothing and the loop goes on with the
next character: for all `P` and `Q` without brackets, with no dump character,
the read loop on `P ] Q` and on `P Q` both run to the end of the file and end
in the same world, the one reached by the instructions of `P` and then of `Q`
in sequence, from any tape and input. -/
theorem stray_close_is_skipped (opts : conf) :
    (∀ (n : Nat) (c : Int) (f : FILE) (w : World) (r : Int) (f1 : FILE) (w1 : World),
      interpret n c opts f w = some (r, f1, w1) →
      (r = 0 ↔ c = 93) ∧ (c ≠ 93 → r = 1)) ∧
    (∀ (P Q : List Byte) (w : World), opts.dump = 9999 →
      (∀ c ∈ P, c ≠ 91 ∧ c ≠ 93) → (∀ c ∈ Q, c ≠ 91 ∧ c ≠ 93) →
      main_loop (P.length + Q.length + 3) opts ⟨P ++ 93 :: Q, 0⟩ w
        = some (⟨P ++ 93 :: Q, (P ++ 93 :: Q).length⟩,
            (P ++ Q).foldl (fun w c => ref_instr opts c w) w) ∧
      main_loop (P.length + Q.length + 3) opts ⟨P ++ Q, 0⟩ w
        = some (⟨P ++ Q, (P ++ Q).length⟩,
            (P ++ Q).foldl (fun w c => ref_instr opts c w) w)) := by
  constructor
  · intro n c f w r f1 w1 h
    have hr := interpret_result n c opts f w r f1 w1 h
    by_cases h93 : c = 93
    · simp only [h93, if_true] at hr
      simp [hr, h93]
    · simp only [h93, if_false] at hr
      simp [hr, h93]
  · intro P Q w hd hP hQ
    constructor
    · have h1 := main_loop_ops opts hd (P ++ 93 :: Q) P [] (93 :: Q) 0 (Q.length + 2) w hP
        (by simp) rfl
      have e1 : P.length + Q.length + 3 = Q.length + 2 + 1 + P.length := by omega
      rw [e1, h1, Nat.zero_add]
      rw [main_loop_at _ opts (P ++ 93 :: Q) P Q 93 P.length _ rfl rfl, int_val_93,
        interpret_close _ opts _ _ hd]
      simp only
      rw [main_loop_ops_run opts hd (P ++ 93 :: Q) Q (P ++ [93]) (P.length + 1) _ _ hQ
        (by simp) (by simp) (by omega), List.foldl_append]
    · exact main_loop_ops_run opts hd (P ++ Q) (P ++ Q) [] 0 _ w
        (by
          intro c hc
          rcases List.mem_append.mp hc with h | h
          · exact hP c h
          · exact hQ c h)
        (by simp) rfl (by simp)

theorem stray_close_is_skipped_witness :
    default_conf.dump = 9999 ∧
    main_loop 5 default_conf ⟨[43, 93, 46], 0⟩ (initial_world [])
      = some (⟨[43, 93, 46], 3⟩,
          { ptr := { prev := [], cur := { data := 1, cell := 0 }, next := [] },
            stdin := [], stdout := [Out.char 1], stderr := [] }) ∧
    main_loop 5 default_conf ⟨[43, 46], 0⟩ (initial_world [])
      = some (⟨[43, 46], 2⟩,
          { ptr := { prev := [], cur := { data := 1, cell := 0 }, next := [] },
            stdin := [], stdout := [Out.char 1], stderr := [] }) :=
  ⟨rfl,
    (((stray_close_is_skipped default_conf).2 [43] [46] (initial_world []) rfl
      (by intro c hc; simp only [List.mem_singleton] at hc; subst hc; decide)
      (by intro c hc; simp only [List.mem_singleton] at hc; subst hc; decide)).1.trans
        (by decide)),
    (((stray_close_is_skipped default_conf).2 [43] [46] (initial_world []) rfl
      (by intro c hc; simp only [List.mem_singleton] at hc; subst hc; decide)
      (by intro c hc; simp only [List.mem_singleton] at hc; subst hc; decide)).2.trans
        (by decide))⟩


/-! ## A loop whose body runs to the end of the file -/

theorem loop_while_sound_of_pass (opts : conf) (content : List Byte) (b : Prog) (start : Nat)
    (fend : FILE) (hfend : fend.content = content)
    (hpass : ∀ (n : Nat) (w : World) (res : FILE × World),
      loop_body n opts ⟨content, start⟩ w = some res →
      ∃ m w', ref_exec m opts b w = some w' ∧ res = (fend, w')) :
    ∀ (k : Nat) (f : FILE) (w : World) (f2 : FILE) (w2 : World), f.content = content →
      0 < w.ptr.cur.data →
      loop_while k opts start f w = some (f2, w2) →
      f2 = fend ∧
      ∀ (r : Prog) (m : Nat) (wr : World), ref_exec m opts r w2 = some wr →
        ∃ m', ref_exec m' opts (Prog.loop b r) w = some wr := by
  intro k
  induction k with
  | zero => intro f w f2 w2 _ _ h; simp [loop_while] at h
  | succ k ih =>
    intro f w f2 w2 hf hpos h
    have hgt : w.ptr.cur.data > 0 := hpos
    simp only [loop_while, hgt, if_true] at h
    have hfs : fsetpos f start = ⟨content, start⟩ := by
      cases f; simp only [fsetpos] at hf ⊢; simp_all
    rw [hfs] at h
    cases hq : loop_body k opts ⟨content, start⟩ w with
    | none => simp [hq] at h
    | some q =>
      rw [hq] at h
      obtain ⟨m, w', href, hres⟩ := hpass k w q hq
      subst hres
      simp only at h
      by_cases hd' : 0 < w'.ptr.cur.data
      · obtain ⟨hf2, hrest⟩ := ih fend w' f2 w2 hfend hd' h
        refine ⟨hf2, ?_⟩
        intro r mm wr hr
        obtain ⟨m', hm'⟩ := hrest r mm wr hr
        refine ⟨max m m' + 1, ?_⟩
        simp only [ref_exec, hgt, if_true]
        rw [ref_exec_mono m (max m m') (le_max_left _ _) _ _ _ _ href]
        exact ref_exec_mono m' (max m m') (le_max_right _ _) _ _ _ _ hm'
      · have hng : ¬ (w'.ptr.cur.data > 0) := hd'
        obtain ⟨j, rfl⟩ : ∃ j, k = j + 1 := by
          cases k with
          | zero => simp [loop_while] at h
          | succ j => exact ⟨j, rfl⟩
        simp only [loop_while, hng, if_false, Option.some.injEq, Prod.mk.injEq] at h
        obtain ⟨hf2, hw2⟩ := h
        subst hf2 hw2
        refine ⟨rfl, ?_⟩
        intro r mm wr hr
        refine ⟨max m (mm + 1) + 1, ?_⟩
        simp only [ref_exec, hgt, if_true]
        rw [ref_exec_mono m (max m (mm + 1)) (le_max_left _ _) _ _ _ _ href]
        apply ref_exec_mono (mm + 1) (max m (mm + 1)) (le_max_right _ _)
        simp only [ref_exec, hng, if_false]
        exact hr

theorem flatten_append (p q : Prog) : (p.append q).flatten = p.flatten ++ q.flatten := by
  induction p with
  | nil => simp [Prog.append, Prog.flatten]
  | op c r ih => simp [Prog.append, Prog.flatten, ih]
  | loop b r _ ihr => simp [Prog.append, Prog.flatten, ihr]

theorem ok_append (p q : Prog) : (p.append q).ok = (p.ok && q.ok) := by
  induction p with
  | nil => simp [Prog.append, Prog.ok]
  | op c r ih => simp [Prog.append, Prog.ok, ih, Bool.and_assoc]
  | loop b r _ ihr => simp [Prog.append, Prog.ok, ihr, Bool.and_assoc]

theorem ref_exec_append_split (opts : conf) (q : Prog) :
    ∀ (m : Nat) (p : Prog) (w r : World), ref_exec m opts (p.append q) w = some r →
      ∃ w1, ref_exec m opts p w = some w1 ∧ ref_exec m opts q w1 = some r := by
  intro m
  induction m with
  | zero => intro p w r h; simp [ref_exec] at h
  | succ m ih =>
    intro p w r h
    cases p with
    | nil =>
      simp only [Prog.append] at h
      exact ⟨w, by simp [ref_exec], h⟩
    | op c rest =>
      simp only [Prog.append, ref_exec] at h ⊢
      obtain ⟨w1, h1, h2⟩ := ih rest _ r h
      exact ⟨w1, h1, ref_exec_mono m (m + 1) (Nat.le_succ m) _ _ _ _ h2⟩
    | loop body rest =>
      simp only [Prog.append, ref_exec] at h ⊢
      by_cases hd : w.ptr.cur.data > 0
      · simp only [hd, if_true] at h ⊢
        cases hq : ref_exec m opts body w with
        | none => simp [hq] at h
        | some x =>
          rw [hq] at h
          simp only at h ⊢
          obtain ⟨w1, h1, h2⟩ := ih (Prog.loop body rest) x r h
          exact ⟨w1, h1, ref_exec_mono m (m + 1) (Nat.le_succ m) _ _ _ _ h2⟩
      · simp only [hd, if_false] at h ⊢
        obtain ⟨w1, h1, h2⟩ := ih rest w r h
        exact ⟨w1, h1, ref_exec_mono m (m + 1) (Nat.le_succ m) _ _ _ _ h2⟩

theorem ref_exec_append_join (opts : conf) (q : Prog) (k : Nat) (w1 r : World)
    (hq : ref_exec k opts q w1 = some r) :
    ∀ (m : Nat) (p : Prog) (w : World), ref_exec m opts p w = some w1 →
      ref_exec (m + k) opts (p.append q) w = some r := by
  intro m
  induction m with
  | zero => intro p w h; simp [ref_exec] at h
  | succ m ih =>
    intro p w h
    have e : m + 1 + k = (m + k) + 1 := by omega
    cases p with
    | nil =>
      simp only [ref_exec, Option.some.injEq] at h
      subst h
      simp only [Prog.append]
      exact ref_exec_mono k _ (by omega) _ _ _ _ hq
    | op c rest =>
      simp only [ref_exec] at h
      rw [e]
      simp only [Prog.append, ref_exec]
      exact ih rest _ h
    | loop body rest =>
      simp only [ref_exec] at h
      rw [e]
      simp only [Prog.append, ref_exec]
      by_cases hd : w.ptr.cur.data > 0
      · simp only [hd, if_true] at h ⊢
        cases hx : ref_exec m opts body w with
        | none => simp [hx] at h
        | some x =>
          rw [hx] at h
          simp only at h
          rw [ref_exec_mono m (m + k) (by omega) _ _ _ _ hx]
          exact ih (Prog.loop body rest) x h
      · simp only [hd, if_false] at h ⊢
        exact ih rest w h

theorem close_ok : ∀ t : Tail, t.ok = true → t.close.ok = true := by
  intro t
  induction t with
  | closed p => intro h; exact h
  | unclosed p body ih =>
    intro h
    simp only [Tail.ok, Bool.and_eq_true] at h
    simp [Tail.close, ok_append, Prog.ok, h.1, ih h.2]

theorem close_flatten : ∀ t : Tail,
    t.close.flatten = t.flatten ++ List.replicate t.depth 93 := by
  intro t
  induction t with
  | closed p => simp [Tail.close, Tail.flatten, Tail.depth]
  | unclosed p body ih =>
    simp [Tail.close, Tail.flatten, Tail.depth, flatten_append, Prog.flatten, ih,
      List.replicate_succ']

theorem cons_op_flatten (c : Byte) (t : Tail) : (t.cons_op c).flatten = c :: t.flatten := by
  cases t <;> simp [Tail.cons_op, Tail.flatten, Prog.flatten]

theorem cons_op_ok (c : Byte) (t : Tail) (h1 : c ≠ 91) (h2 : c ≠ 93) (ht : t.ok = true) :
    (t.cons_op c).ok = true := by
  cases t <;> simp_all [Tail.cons_op, Tail.ok, Prog.ok]

theorem cons_loop_flatten (b : Prog) (t : Tail) :
    (t.cons_loop b).flatten = 91 :: (b.flatten ++ 93 :: t.flatten) := by
  cases t <;> simp [Tail.cons_loop, Tail.flatten, Prog.flatten]

theorem cons_loop_ok (b : Prog) (t : Tail) (hb : b.ok = true) (ht : t.ok = true) :
    (t.cons_loop b).ok = true := by
  cases t <;> simp_all [Tail.cons_loop, Tail.ok, Prog.ok]

theorem no_stray_close_go_shape : ∀ (s : List Byte) (d : Nat), no_stray_close_go d s = true →
    ∃ (qs : List Prog) (t : Tail), qs.length ≤ d ∧ (∀ q ∈ qs, q.ok = true) ∧ t.ok = true ∧
      closes qs t = s := by
  intro s
  induction s with
  | nil =>
    intro d _
    exact ⟨[], Tail.closed Prog.nil, by simp, by simp, rfl, rfl⟩
  | cons c l ih =>
    intro d h
    simp only [no_stray_close_go] at h
    by_cases h1 : c = 91
    · simp only [h1, if_true] at h
      obtain ⟨qs, t, hlen, hqs, ht, hu⟩ := ih (d + 1) h
      subst h1
      cases qs with
      | nil =>
        refine ⟨[], Tail.unclosed Prog.nil t, by simp, by simp, by simp [Tail.ok, Prog.ok, ht], ?_⟩
        rw [← hu]
        simp [closes, Tail.flatten, Prog.flatten]
      | cons q qs =>
        cases qs with
        | nil =>
          refine ⟨[], t.cons_loop q, by simp, by simp,
            cons_loop_ok q t (hqs q (List.mem_cons_self _ _)) ht, ?_⟩
          rw [← hu]
          simp [closes, cons_loop_flatten]
        | cons q2 qs =>
          refine ⟨Prog.loop q q2 :: qs, t, by simpa using hlen, ?_, ht, ?_⟩
          · intro x hx
            rcases List.mem_cons.mp hx with rfl | hx
            · simp [Prog.ok, hqs q (List.mem_cons_self _ _),
                hqs q2 (List.mem_cons_of_mem _ (List.mem_cons_self _ _))]
            · exact hqs x (List.mem_cons_of_mem _ (List.mem_cons_of_mem _ hx))
          · rw [← hu]
            simp [closes, Prog.flatten]
    · simp only [h1, if_false] at h
      by_cases h2 : c = 93
      · simp only [h2, if_true] at h
        cases d with
        | zero => simp at h
        | succ d =>
          simp only at h
          obtain ⟨qs, t, hlen, hqs, ht, hu⟩ := ih d h
          refine ⟨Prog.nil :: qs, t, by simpa using hlen, ?_, ht, ?_⟩
          · intro x hx
            rcases List.mem_cons.mp hx with rfl | hx
            · rfl
            · exact hqs x hx
          · subst h2
            rw [← hu]
            simp [closes, Prog.flatten]
      · simp only [h2, if_false] at h
        obtain ⟨qs, t, hlen, hqs, ht, hu⟩ := ih d h
        cases qs with
        | nil =>
          refine ⟨[], t.cons_op c, by simp, by simp, cons_op_ok c t h1 h2 ht, ?_⟩
          rw [← hu]
          simp [closes, cons_op_flatten]
        | cons q qs =>
          refine ⟨Prog.op c q :: qs, t, hlen, ?_, ht, ?_⟩
          · intro x hx
            rcases List.mem_cons.mp hx with rfl | hx
            · simp [Prog.ok, h1, h2, hqs q (List.mem_cons_self _ _)]
            · exact hqs x (List.mem_cons_of_mem _ hx)
          · rw [← hu]
            simp [closes, Prog.flatten]

theorem no_stray_close_go_flatten : ∀ (p : Prog), p.ok = true → ∀ (d : Nat) (rest : List Byte),
    no_stray_close_go d (p.flatten ++ rest) = no_stray_close_go d rest := by
  intro p
  induction p with
  | nil => intro _ d rest; simp [Prog.flatten]
  | op c r ih =>
    intro hok d rest
    simp only [Prog.ok, Bool.and_eq_true, bne_iff_ne, ne_eq] at hok
    obtain ⟨⟨h1, h2⟩, hr⟩ := hok
    simp only [Prog.flatten, List.cons_append, no_stray_close_go, h1, h2, if_false]
    exact ih hr d rest
  | loop b r ihb ihr =>
    intro hok d rest
    simp only [Prog.ok, Bool.and_eq_true] at hok
    obtain ⟨hb, hr⟩ := hok
    have h9391 : ¬ ((93 : Byte) = 91) := by decide
    have e : (Prog.loop b r).flatten ++ rest
        = 91 :: (b.flatten ++ 93 :: (r.flatten ++ rest)) := by simp [Prog.flatten]
    rw [e]
    simp only [no_stray_close_go, if_true]
    rw [ihb hb (d + 1) (93 :: (r.flatten ++ rest))]
    simp only [no_stray_close_go, h9391, if_false, if_true]
    exact ihr hr d rest

theorem no_stray_close_go_tail : ∀ (t : Tail), t.ok = true → ∀ d : Nat,
    no_stray_close_go d t.flatten = true := by
  intro t
  induction t with
  | closed p =>
    intro hok d
    have := no_stray_close_go_flatten p hok d []
    simp only [List.append_nil] at this
    simp [Tail.flatten, this, no_stray_close_go]
  | unclosed p body ih =>
    intro hok d
    simp only [Tail.ok, Bool.and_eq_true] at hok
    simp only [Tail.flatten, no_stray_close_go_flatten p hok.1, no_stray_close_go, if_true]
    exact ih hok.2 (d + 1)

theorem no_stray_close_iff (s : List Byte) :
    no_stray_close s = true ↔ ∃ t : Tail, t.ok = true ∧ t.flatten = s := by
  constructor
  · intro h
    obtain ⟨qs, t, hlen, _, ht, hu⟩ := no_stray_close_go_shape s 0 h
    cases qs with
    | nil => exact ⟨t, ht, by simpa [closes] using hu⟩
    | cons q qs => simp at hlen
  · rintro ⟨t, ht, rfl⟩
    exact no_stray_close_go_tail t ht 0

theorem skip_loop_go_tail (content : List Byte) : ∀ (t : Tail), t.ok = true →
    ∀ (pre : List Byte) (pos n : Nat) (depth : Int), content = pre ++ t.flatten →
      pos = pre.length → 0 ≤ depth → t.flatten.length < n →
      skip_loop_go n depth ⟨content, pos⟩ = ⟨content, content.length⟩ := by
  intro t
  induction t with
  | closed p =>
    intro hok pre pos n depth hc hp hd hn
    simp only [Tail.flatten] at hn hc
    rw [skip_loop_go_prog content p hok pre [] pos n depth (by simp [hc]) hp hd (by omega)]
    obtain ⟨k, hk⟩ : ∃ k, n - p.flatten.length = k + 1 := ⟨n - p.flatten.length - 1, by omega⟩
    have hlen : pos + p.flatten.length = content.length := by simp [hc, hp]
    rw [hk, hlen]
    simp only [skip_loop_go, fgetc_eof content content.length (le_refl _), if_true]
  | unclosed p body ih =>
    intro hok pre pos n depth hc hp hd hn
    simp only [Tail.ok, Bool.and_eq_true] at hok
    simp only [Tail.flatten, List.length_append, List.length_cons] at hn hc
    rw [skip_loop_go_prog content p hok.1 pre (91 :: body.flatten) pos n depth hc hp hd (by omega)]
    obtain ⟨k, hk⟩ : ∃ k, n - p.flatten.length = k + 1 := ⟨n - p.flatten.length - 1, by omega⟩
    rw [hk]
    have hg := fgetc_at content (pre ++ p.flatten) body.flatten 91 (pos + p.flatten.length)
      (by simp [hc]) (by simp [hp])
    simp only [skip_loop_go, hg, int91_ne_EOF, if_false, int_val_91, if_true]
    exact ih hok.2 (pre ++ p.flatten ++ [91]) (pos + p.flatten.length + 1) k (depth + 1)
      (by simp [hc]) (by simp [hp]; omega) (by omega) (by omega)

theorem skip_loop_tail (t : Tail) (ht : t.ok = true) (content pre : List Byte) (pos : Nat)
    (hc : content = pre ++ t.flatten) (hp : pos = pre.length) :
    skip_loop ⟨content, pos⟩ = ⟨content, content.length⟩ := by
  unfold skip_loop
  exact skip_loop_go_tail content t ht pre pos _ 0 hc hp (le_refl _)
    (by simp [hc, hp])

theorem loop_while_complete_of_pass (opts : conf) (content : List Byte) (b : Prog)
    (start e : Nat)
    (hpass : ∀ (m : Nat) (w w' : World), ref_exec m opts b w = some w' →
      ∃ n, loop_body n opts ⟨content, start⟩ w = some (⟨content, e⟩, w')) :
    ∀ (m : Nat) (w w1 : World), ref_exec m opts (Prog.loop b Prog.nil) w = some w1 →
      0 < w.ptr.cur.data →
      ∀ p : Nat, ∃ k, loop_while k opts start ⟨content, p⟩ w = some (⟨content, e⟩, w1) := by
  intro m
  induction m with
  | zero => intro w w1 h; simp [ref_exec] at h
  | succ m ih =>
    intro w w1 h hpos p
    have hgt : w.ptr.cur.data > 0 := hpos
    simp only [ref_exec, hgt, if_true] at h
    cases hq : ref_exec m opts b w with
    | none => simp [hq] at h
    | some w' =>
      rw [hq] at h
      simp only at h
      obtain ⟨n1, hn1⟩ := hpass m w w' hq
      by_cases hd' : 0 < w'.ptr.cur.data
      · obtain ⟨k, hk⟩ := ih w' w1 h hd' e
        refine ⟨max n1 k + 1, ?_⟩
        simp only [loop_while, hgt, if_true, fsetpos]
        rw [loop_body_mono (le_max_left n1 k) hn1]
        exact loop_while_mono (le_max_right n1 k) hk
      · have hng : ¬ (w'.ptr.cur.data > 0) := hd'
        obtain ⟨j, rfl⟩ : ∃ j, m = j + 1 := by
          cases m with
          | zero => simp [ref_exec] at h
          | succ j => exact ⟨j, rfl⟩
        simp only [ref_exec, hng, if_false] at h
        obtain ⟨i, rfl⟩ : ∃ i, j = i + 1 := by
          cases j with
          | zero => simp [ref_exec] at h
          | succ i => exact ⟨i, rfl⟩
        simp only [ref_exec, Option.some.injEq] at h
        subst h
        refine ⟨n1 + 2, ?_⟩
        simp only [loop_while, hgt, if_true, fsetpos]
        rw [loop_body_mono (Nat.le_succ n1) hn1]
        simp only [hng, if_false]

theorem ref_exec_loop_skip (opts : conf) (b : Prog) (m : Nat) (w w' : World)
    (hle : w.ptr.cur.data ≤ 0) (h : ref_exec m opts (Prog.loop b Prog.nil) w = some w') :
    w' = w := by
  have hng : ¬ (w.ptr.cur.data > 0) := by omega
  obtain ⟨j, rfl⟩ : ∃ j, m = j + 1 := by
    cases m with
    | zero => simp [ref_exec] at h
    | succ j => exact ⟨j, rfl⟩
  simp only [ref_exec, hng, if_false] at h
  obtain ⟨i, rfl⟩ : ∃ i, j = i + 1 := by
    cases j with
    | zero => simp [ref_exec] at h
    | succ i => exact ⟨i, rfl⟩
  simp only [ref_exec, Option.some.injEq] at h
  exact h.symm

/-- A pass over a text with loops left open ends at the end of the file, and
has done what the reference semantics does for the text with its loops
closed there. -/
theorem tail_pass_sound (opts : conf) (hd : opts.dump = 9999) :
    ∀ (t : Tail), t.ok = true → ∀ (content pre : List Byte) (pos n : Nat) (w : World)
      (res : FILE × World), content = pre ++ t.flatten → pos = pre.length →
      loop_body n opts ⟨content, pos⟩ w = some res →
      ∃ m w', ref_exec m opts t.close w = some w' ∧ res = (⟨content, content.length⟩, w') := by
  intro t
  induction t with
  | closed p =>
    intro hok content pre pos n w res hc hp h
    simp only [Tail.flatten] at hc
    obtain ⟨m, w', href, hend⟩ := loop_body_sound opts hd p hok content pre [] pos n w res
      (by simp [hc]) hp h
    obtain ⟨n, rfl⟩ : ∃ j, n = j + 1 := by
      cases n with
      | zero => simp [loop_body] at h
      | succ j => exact ⟨j, rfl⟩
    have hlen : pos + p.flatten.length = content.length := by simp [hc, hp]
    rw [hlen, loop_body_eof n opts _ _ w' (le_refl _)] at hend
    simp only [Option.some.injEq] at hend
    exact ⟨m, w', href, hend.symm⟩
  | unclosed p body ih =>
    intro hok content pre pos n w res hc hp h
    simp only [Tail.ok, Bool.and_eq_true] at hok
    simp only [Tail.flatten] at hc
    obtain ⟨m1, w1, href1, hlb⟩ := loop_body_sound opts hd p hok.1 content pre
      (91 :: body.flatten) pos n w res hc hp h
    have hc2 : content = (pre ++ p.flatten ++ [91]) ++ body.flatten := by simp [hc]
    have hp2 : pos + p.flatten.length + 1 = (pre ++ p.flatten ++ [91]).length := by
      simp [hp]; omega
    obtain ⟨n, rfl⟩ : ∃ j, n = j + 1 := by
      cases n with
      | zero => simp [loop_body] at hlb
      | succ j => exact ⟨j, rfl⟩
    rw [loop_body_at n opts content (pre ++ p.flatten) body.flatten 91 (pos + p.flatten.length) w1
      (by simp [hc]) (by simp [hp]), int_val_91] at hlb
    obtain ⟨n, rfl⟩ : ∃ j, n = j + 1 := by
      cases n with
      | zero => simp [interpret] at hlb
      | succ j => exact ⟨j, rfl⟩
    rw [interpret_open n opts _ _ hd] at hlb
    cases hq : loop n opts ⟨content, pos + p.flatten.length + 1⟩ w1 with
    | none => simp [hq] at hlb
    | some q =>
      obtain ⟨f1, w2⟩ := q
      rw [hq] at hlb
      simp only [one_ne_zero, if_false] at hlb
      obtain ⟨k, rfl⟩ : ∃ j, n = j + 1 := by
        cases n with
        | zero => simp [loop] at hq
        | succ j => exact ⟨j, rfl⟩
      -- the open loop leaves the file at its end
      have hloop : f1 = ⟨content, content.length⟩ ∧
          ∃ m2, ref_exec m2 opts (Prog.loop body.close Prog.nil) w1 = some w2 := by
        by_cases hle : w1.ptr.cur.data ≤ 0
        · simp only [loop, hle, if_true, Option.some.injEq, Prod.mk.injEq] at hq
          obtain ⟨hf, hw⟩ := hq
          subst hw
          rw [skip_loop_tail body hok.2 content _ _ hc2 hp2] at hf
          refine ⟨hf.symm, 2, ?_⟩
          have hng : ¬ (w1.ptr.cur.data > 0) := by omega
          simp only [ref_exec, hng, if_false]
        · simp only [loop, hle, if_false, fgetpos] at hq
          obtain ⟨hf, href⟩ := loop_while_sound_of_pass opts content body.close
            (pos + p.flatten.length + 1) ⟨content, content.length⟩ rfl
            (fun n w res h => ih hok.2 content (pre ++ p.flatten ++ [91])
              (pos + p.flatten.length + 1) n w res hc2 hp2 h)
            k _ w1 f1 w2 rfl (by omega) hq
          exact ⟨hf, href Prog.nil 1 w2 (by simp [ref_exec])⟩
      obtain ⟨hf1, m2, href2⟩ := hloop
      subst hf1
      rw [loop_body_eof _ opts _ _ w2 (le_refl _)] at hlb
      simp only [Option.some.injEq] at hlb
      exact ⟨m1 + m2, w2, ref_exec_append_join opts _ m2 w1 w2 href2 m1 p w href1, hlb.symm⟩

/-- Whatever the reference semantics does for the text with its loops closed
at the end of the file, a pass over the text does, and it ends at the end of
the file. -/
theorem tail_pass_complete (opts : conf) (hd : opts.dump = 9999) :
    ∀ (t : Tail), t.ok = true → ∀ (content pre : List Byte) (pos m : Nat) (w w' : World),
      content = pre ++ t.flatten → pos = pre.length →
      ref_exec m opts t.close w = some w' →
      ∃ n, loop_body n opts ⟨content, pos⟩ w = some (⟨content, content.length⟩, w') := by
  intro t
  induction t with
  | closed p =>
    intro hok content pre pos m w w' hc hp h
    simp only [Tail.flatten] at hc
    have hlen : pos + p.flatten.length = content.length := by simp [hc, hp]
    exact loop_body_complete opts hd m p w w' hok h content pre [] pos 1 _ (by simp [hc]) hp
      (by rw [hlen]; exact loop_body_eof 0 opts _ _ w' (le_refl _))
  | unclosed p body ih =>
    intro hok content pre pos m w w' hc hp h
    simp only [Tail.ok, Bool.and_eq_true] at hok
    simp only [Tail.flatten] at hc
    simp only [Tail.close] at h
    obtain ⟨w1, h1, h2⟩ := ref_exec_append_split opts _ m p w w' h
    have hc2 : content = (pre ++ p.flatten ++ [91]) ++ body.flatten := by simp [hc]
    have hp2 : pos + p.flatten.length + 1 = (pre ++ p.flatten ++ [91]).length := by
      simp [hp]; omega
    have hopen : ∃ n, loop_body n opts ⟨content, pos + p.flatten.length⟩ w1
        = some (⟨content, content.length⟩, w') := by
      by_cases hle : w1.ptr.cur.data ≤ 0
      · have hw := ref_exec_loop_skip opts _ m w1 w' hle h2
        subst hw
        refine ⟨3, ?_⟩
        rw [loop_body_at 2 opts content (pre ++ p.flatten) body.flatten 91
          (pos + p.flatten.length) w' (by simp [hc]) (by simp [hp]), int_val_91,
          interpret_open 1 opts _ _ hd]
        simp only [loop, hle, if_true, skip_loop_tail body hok.2 content _ _ hc2 hp2,
          one_ne_zero, if_false]
        exact loop_body_eof 1 opts _ _ w' (le_refl _)
      · obtain ⟨k, hk⟩ := loop_while_complete_of_pass opts content body.close
          (pos + p.flatten.length + 1) content.length
          (fun m w w' h => ih hok.2 content (pre ++ p.flatten ++ [91])
            (pos + p.flatten.length + 1) m w w' hc2 hp2 h)
          m w1 w' h2 (by omega) (pos + p.flatten.length + 1)
        refine ⟨k + 3, ?_⟩
        rw [loop_body_at (k + 2) opts content (pre ++ p.flatten) body.flatten 91
          (pos + p.flatten.length) w1 (by simp [hc]) (by simp [hp]), int_val_91,
          interpret_open (k + 1) opts _ _ hd]
        simp only [loop, hle, if_false, fgetpos, hk, one_ne_zero]
        exact loop_body_eof (k + 1) opts _ _ w' (le_refl _)
    obtain ⟨n, hn⟩ := hopen
    exact loop_body_complete opts hd m p w w1 hok.1 h1 content pre (91 :: body.flatten) pos n _
      hc hp hn

/-- C19: a loop met with the current cell > 0 whose body `R` runs to the end
of the file without a `]` for the loop (every `]` of `R` closes a `[` of `R`;
loops opened in `R` may be left open as well), with no dump character.
Reaching the end of the file is not an error.  A pass over the body executes
every instruction of `R` up to the end of the file (a loop left open inside
`R` being itself a loop whose body runs to the end of the file) and returns
there; that is, it does exactly what the reference semantics does for `R`
with the missing `]` added at the end.  The cell is then tested again and the
pass repeated from the loop start while the cell is > 0, so that `loop`
behaves as "while the current cell is > 0, execute R".  Whenever `loop`
returns, the source is at the end of the file, the cell is ≤ 0, and the read
loop of `main` ends at once, normally. -/
theorem loop_body_to_end_of_file (opts : conf) (hd : opts.dump = 9999) (pre R : List Byte)
    (hR : no_stray_close R = true) (w : World) (hpos : 0 < w.ptr.cur.data) :
    (∃ t : Tail, t.ok = true ∧ t.flatten = R) ∧
    ∀ t : Tail, t.ok = true → t.flatten = R →
      (t.close.ok = true ∧ t.close.flatten = R ++ List.replicate t.depth 93) ∧
      (∀ (n : Nat) (v : World) (f1 : FILE) (v1 : World),
        loop_body n opts ⟨pre ++ 91 :: R, pre.length + 1⟩ v = some (f1, v1) →
        f1 = ⟨pre ++ 91 :: R, (pre ++ 91 :: R).length⟩ ∧
        ∃ m, ref_exec m opts t.close v = some v1) ∧
      (∀ (m : Nat) (v v1 : World), ref_exec m opts t.close v = some v1 →
        ∃ n, loop_body n opts ⟨pre ++ 91 :: R, pre.length + 1⟩ v
          = some (⟨pre ++ 91 :: R, (pre ++ 91 :: R).length⟩, v1)) ∧
      (∀ (n : Nat) (f1 : FILE) (w1 : World),
        loop n opts ⟨pre ++ 91 :: R, pre.length + 1⟩ w = some (f1, w1) →
        f1 = ⟨pre ++ 91 :: R, (pre ++ 91 :: R).length⟩ ∧
        w1.ptr.cur.data ≤ 0 ∧
        (∃ m, ref_exec m opts (Prog.loop t.close Prog.nil) w = some w1) ∧
        main_loop 1 opts f1 w1 = some (f1, w1)) ∧
      (∀ (m : Nat) (w1 : World), ref_exec m opts (Prog.loop t.close Prog.nil) w = some w1 →
        ∃ n, loop n opts ⟨pre ++ 91 :: R, pre.length + 1⟩ w
          = some (⟨pre ++ 91 :: R, (pre ++ 91 :: R).length⟩, w1)) := by
  refine ⟨(no_stray_close_iff R).mp hR, ?_⟩
  intro t ht hflat
  have hnle : ¬ (w.ptr.cur.data ≤ 0) := by omega
  have hc : pre ++ 91 :: R = (pre ++ [91]) ++ t.flatten := by simp [hflat]
  have hp : pre.length + 1 = (pre ++ [91]).length := by simp
  have hsound : ∀ (n : Nat) (v : World) (res : FILE × World),
      loop_body n opts ⟨pre ++ 91 :: R, pre.length + 1⟩ v = some res →
      ∃ m v1, ref_exec m opts t.close v = some v1 ∧
        res = (⟨pre ++ 91 :: R, (pre ++ 91 :: R).length⟩, v1) :=
    fun n v res h => tail_pass_sound opts hd t ht _ _ _ n v res hc hp h
  have hcomplete : ∀ (m : Nat) (v v1 : World), ref_exec m opts t.close v = some v1 →
      ∃ n, loop_body n opts ⟨pre ++ 91 :: R, pre.length + 1⟩ v
        = some (⟨pre ++ 91 :: R, (pre ++ 91 :: R).length⟩, v1) :=
    fun m v v1 h => tail_pass_complete opts hd t ht _ _ _ m v v1 hc hp h
  refine ⟨⟨close_ok t ht, by rw [close_flatten, hflat]⟩, ?_, hcomplete, ?_, ?_⟩
  · intro n v f1 v1 h
    obtain ⟨m, v', href, hres⟩ := hsound n v (f1, v1) h
    simp only [Prod.mk.injEq] at hres
    obtain ⟨hf, hv⟩ := hres
    subst hv
    exact ⟨hf, m, href⟩
  · intro n f1 w1 h
    obtain ⟨n, rfl⟩ : ∃ j, n = j + 1 := by
      cases n with
      | zero => simp [loop] at h
      | succ j => exact ⟨j, rfl⟩
    simp only [loop, hnle, if_false, fgetpos] at h
    have hexit := loop_while_exit n opts _ _ _ (f1, w1) h
    obtain ⟨hf, href⟩ := loop_while_sound_of_pass opts (pre ++ 91 :: R) t.close (pre.length + 1)
      ⟨pre ++ 91 :: R, (pre ++ 91 :: R).length⟩ rfl hsound n _ w f1 w1 rfl hpos h
    subst hf
    refine ⟨rfl, hexit, ?_, main_loop_eof 0 opts _ _ w1 (le_refl _)⟩
    exact href Prog.nil 1 w1 (by simp [ref_exec])
  · intro m w1 h
    obtain ⟨k, hk⟩ := loop_while_complete_of_pass opts (pre ++ 91 :: R) t.close (pre.length + 1)
      (pre ++ 91 :: R).length hcomplete m w w1 h hpos (pre.length + 1)
    refine ⟨k + 1, ?_⟩
    simp only [loop, hnle, if_false, fgetpos]
    exact hk

theorem loop_body_to_end_of_file_witness :
    default_conf.dump = 9999 ∧ no_stray_close [91, 45] = true ∧
    main 20 default_conf [93, 43, 43, 43, 91, 45] []
      = some (Exit.success, ⟨[93, 43, 43, 43, 91, 45], 6⟩,
          { ptr := { prev := [], cur := { data := 0, cell := 0 }, next := [] },
            stdin := [], stdout := [], stderr := [] }) ∧
    main 30 default_conf [93, 93, 43, 43, 91, 91, 45] []
      = some (Exit.success, ⟨[93, 93, 43, 43, 91, 91, 45], 7⟩,
          { ptr := { prev := [], cur := { data := 0, cell := 0 }, next := [] },
            stdin := [], stdout := [], stderr := [] }) ∧
    (∃ n, loop n default_conf ⟨[93, 93, 43, 43, 91, 91, 45], 5⟩
        { ptr := { prev := [], cur := { data := 2, cell := 0 }, next := [] },
          stdin := [], stdout := [], stderr := [] }
      = some (⟨[93, 93, 43, 43, 91, 91, 45], 7⟩,
          { ptr := { prev := [], cur := { data := 0, cell := 0 }, next := [] },
            stdin := [], stdout := [], stderr := [] })) :=
  ⟨rfl, by decide, by decide!, by decide!,
    ((loop_body_to_end_of_file default_conf rfl [93, 93, 43, 43] [91, 45] (by decide)
      { ptr := { prev := [], cur := { data := 2, cell := 0 }, next := [] },
        stdin := [], stdout := [], stderr := [] } (by decide)).2
      (Tail.unclosed Prog.nil (Tail.closed (Prog.op 45 Prog.nil))) (by decide) (by decide)).2.2.2.2
      12
      { ptr := { prev := [], cur := { data := 0, cell := 0 }, next := [] },
        stdin := [], stdout := [], stderr := [] } (by decide!)⟩


/-! ## A loop that starts at the end of the file -/

theorem loop_while_at_eof_diverges (opts : conf) (content : List Byte) (s : Nat)
    (hs : content.length ≤ s) :
    ∀ (k p : Nat) (w : World), 0 < w.ptr.cur.data →
      loop_while k opts s ⟨content, p⟩ w = none := by
  intro k
  induction k with
  | zero => intro p w _; simp [loop_while]
  | succ k ih =>
    intro p w hpos
    have hgt : w.ptr.cur.data > 0 := hpos
    simp only [loop_while, hgt, if_true, fsetpos]
    cases k with
    | zero => simp [loop_body]
    | succ j =>
      rw [loop_body_eof j opts content s w hs]
      exact ih s w hpos

theorem loop_at_eof_diverges (opts : conf) (content : List Byte) (s : Nat)
    (hs : content.length ≤ s) (n : Nat) (w : World) (hpos : 0 < w.ptr.cur.data) :
    loop n opts ⟨content, s⟩ w = none := by
  cases n with
  | zero => simp [loop]
  | succ n =>
    have hnle : ¬ (w.ptr.cur.data ≤ 0) := by omega
    simp only [loop, hnle, if_false, fgetpos]
    exact loop_while_at_eof_diverges opts content s hs n s w hpos

theorem maybe_dump_ptr (c : Int) (opts : conf) (w : World) :
    (if c = opts.dump then mem_dump w else w).ptr = w.ptr := by
  split <;> rfl

theorem close_plus_open_main_loop (opts : conf) (input : List Byte) (n : Nat) :
    main_loop (n + 4) opts ⟨[93, 43, 91], 0⟩ (initial_world input) = none := by
  rw [main_loop_at _ opts [93, 43, 91] [] [43, 91] 93 0 _ rfl rfl,
    interpret_byte _ 93 opts _ _ (by decide)]
  simp only [if_true]
  rw [main_loop_at _ opts [93, 43, 91] [93] [91] 43 1 _ rfl rfl,
    interpret_byte _ 43 opts _ _ (by decide)]
  simp only [show ¬ ((43 : Byte) = 93) by decide, if_false]
  rw [main_loop_at _ opts [93, 43, 91] [93, 43] [] 91 2 _ rfl rfl, int_val_91]
  simp only [interpret, show ¬ ((91 : Int) = 62) by decide,
    show ¬ ((91 : Int) = 60) by decide, show ¬ ((91 : Int) = 43) by decide,
    show ¬ ((91 : Int) = 45) by decide, show ¬ ((91 : Int) = 46) by decide,
    show ¬ ((91 : Int) = 44) by decide, if_false, if_true]
  rw [loop_at_eof_diverges opts [93, 43, 91] 3 (le_refl _) n]
  rw [maybe_dump_ptr]
  have h43 : ∀ u : World, (ref_instr opts 43 u).ptr.cur.data = u.ptr.cur.data + 1 := fun _ => rfl
  have h93 : ∀ u : World, ref_instr opts 93 u = u := fun _ => rfl
  rw [h43, maybe_dump_ptr, h93, maybe_dump_ptr]
  show (0 : Int) < 0 + 1
  omega

/-- C20: the source `]+[`.  The balance check accepts it (one `[`, one `]`).
With no dump character, the `]` changes nothing, the `+` sets cell 0 to 1, and
nothing has been written or read when the `[` is met.  The loop then saves a
start position that is the end of the file, so every pass of the body reads
the end of the file at once and returns with the world exactly as it was, and
with the cell > 0 the loop never returns.  Hence, for every fuel, whatever the
options and the input, `main` has not finished. -/
theorem stray_close_then_open_diverges :
    (parens_match ⟨[93, 43, 91], 0⟩).1 = 1 ∧
    (∀ (input : List Byte) (opts : conf), opts.dump = 9999 →
      interpret 1 93 opts ⟨[93, 43, 91], 1⟩ (initial_world input)
        = some (0, ⟨[93, 43, 91], 1⟩, initial_world input) ∧
      interpret 1 43 opts ⟨[93, 43, 91], 2⟩ (initial_world input)
        = some (1, ⟨[93, 43, 91], 2⟩,
            { ptr := { prev := [], cur := { data := 1, cell := 0 }, next := [] },
              stdin := input, stdout := [], stderr := [] })) ∧
    (∀ (k : Nat) (opts : conf) (w : World),
      loop_body (k + 1) opts ⟨[93, 43, 91], 3⟩ w = some (⟨[93, 43, 91], 3⟩, w)) ∧
    (∀ (n : Nat) (opts : conf) (w : World), 0 < w.ptr.cur.data →
      loop n opts ⟨[93, 43, 91], 3⟩ w = none) ∧
    (∀ (n : Nat) (opts : conf) (input : List Byte), main n opts [93, 43, 91] input = none) := by
  refine ⟨by rw [parens_match_eq]; rfl, ?_, ?_, ?_, ?_⟩
  · intro input opts hd
    constructor
    · rw [interpret_close 0 opts _ _ hd]
    · have := interpret_op 0 43 opts ⟨[93, 43, 91], 2⟩ (initial_world input) hd (by decide)
        (by decide)
      rw [show (((43 : Byte).val : Nat) : Int) = 43 from rfl] at this
      rw [this]
      rfl
  · intro k opts w
    exact loop_body_eof k opts _ _ w (le_refl _)
  · intro n opts w hpos
    exact loop_at_eof_diverges opts [93, 43, 91] 3 (le_refl _) n w hpos
  · intro n opts input
    have hloop : main_loop n opts ⟨[93, 43, 91], 0⟩ (initial_world input) = none := by
      cases hq : main_loop n opts ⟨[93, 43, 91], 0⟩ (initial_world input) with
      | none => rfl
      | some r =>
        have h1 := main_loop_mono n (n + 4) (by omega) _ _ _ _ hq
        rw [close_plus_open_main_loop] at h1
        cases h1
    have hp : parens_match ⟨[93, 43, 91], 0⟩ = (1, ⟨[93, 43, 91], 0⟩) := by
      rw [parens_match_eq]; rfl
    simp only [main, hp, one_ne_zero, if_false, hloop]

theorem stray_close_then_open_diverges_witness :
    default_conf.dump = 9999 ∧
    main 50 default_conf [93, 43, 91] [65] = none ∧
    interpret 1 43 default_conf ⟨[93, 43, 91], 2⟩ (initial_world [65])
      = some (1, ⟨[93, 43, 91], 2⟩,
          { ptr := { prev := [], cur := { data := 1, cell := 0 }, next := [] },
            stdin := [65], stdout := [], stderr := [] }) :=
  ⟨rfl, stray_close_then_open_diverges.2.2.2.2 50 default_conf [65],
    (stray_close_then_open_diverges.2.1 [65] default_conf rfl).2⟩


/-! ## Removing the comment characters -/

theorem fgetc_cases (f : FILE) :
    (f.content.length ≤ f.pos ∧ fgetc f = (EOF, f)) ∨
    (∃ (c : Byte) (pre l : List Byte), f.content = pre ++ c :: l ∧ f.pos = pre.length ∧
      fgetc f = ((c.val : Int), ⟨f.content, f.pos + 1⟩)) := by
  obtain ⟨s, p⟩ := f
  by_cases h : p < s.length
  · right
    refine ⟨s[p], s.take p, s.drop (p + 1), ?_, ?_, ?_⟩
    · simp only
      rw [← List.drop_eq_getElem_cons h, List.take_append_drop]
    · simp only [List.length_take]; omega
    · exact fgetc_at s (s.take p) (s.drop (p + 1)) s[p] p
        (by rw [← List.drop_eq_getElem_cons h, List.take_append_drop])
        (by simp only [List.length_take]; omega)
  · left
    exact ⟨by simp only; omega, fgetc_eof s p (by omega)⟩

theorem strip_append (a b : List Byte) : strip (a ++ b) = strip a ++ strip b := by
  simp [strip]

theorem strip_cons_instr (c : Byte) (l : List Byte) (h : is_instruction c = true) :
    strip (c :: l) = c :: strip l := by
  simp [strip, h]

theorem strip_cons_comment (c : Byte) (l : List Byte) (h : is_instruction c = false) :
    strip (c :: l) = strip l := by
  simp [strip, h]

theorem strip_pos_at (pre l : List Byte) : strip_pos (pre ++ l) pre.length = (strip pre).length := by
  simp only [strip_pos, List.take_left]

theorem strip_pos_eof (s : List Byte) (p : Nat) (h : s.length ≤ p) :
    strip_pos s p = (strip s).length := by
  simp only [strip_pos, List.take_of_length_le h]

theorem strip_pos_succ_instr (pre l : List Byte) (c : Byte) (h : is_instruction c = true) :
    strip_pos (pre ++ c :: l) (pre.length + 1) = (strip pre).length + 1 := by
  have e : pre ++ c :: l = (pre ++ [c]) ++ l := by simp
  have e2 : pre.length + 1 = (pre ++ [c]).length := by simp
  rw [e, e2, strip_pos_at, strip_append, strip_cons_instr c [] h]
  simp [strip]

theorem strip_pos_succ_comment (pre l : List Byte) (c : Byte) (h : is_instruction c = false) :
    strip_pos (pre ++ c :: l) (pre.length + 1) = (strip pre).length := by
  have e : pre ++ c :: l = (pre ++ [c]) ++ l := by simp
  have e2 : pre.length + 1 = (pre ++ [c]).length := by simp
  rw [e, e2, strip_pos_at, strip_append, strip_cons_comment c [] h]
  simp [strip]

/-- Reading an instruction character in the original file is reading the same
character in the stripped file. -/
theorem fgetc_strip_instr (s pre l : List Byte) (c : Byte) (p : Nat) (hs : s = pre ++ c :: l)
    (hp : p = pre.length) (h : is_instruction c = true) :
    fgetc (strip_file ⟨s, p⟩) = ((c.val : Int), strip_file ⟨s, p + 1⟩) := by
  subst hs hp
  simp only [strip_file, strip_pos_at, strip_pos_succ_instr pre l c h]
  exact fgetc_at _ (strip pre) (strip l) c _
    (by rw [strip_append, strip_cons_instr c l h]) rfl

/-- Stepping over a comment character in the original file does not move the
stripped file. -/
theorem strip_file_comment (s pre l : List Byte) (c : Byte) (p : Nat) (hs : s = pre ++ c :: l)
    (hp : p = pre.length) (h : is_instruction c = false) :
    strip_file ⟨s, p + 1⟩ = strip_file ⟨s, p⟩ := by
  subst hs hp
  simp only [strip_file, strip_pos_at, strip_pos_succ_comment pre l c h]

theorem fgetc_strip_eof (s : List Byte) (p : Nat) (h : s.length ≤ p) :
    fgetc (strip_file ⟨s, p⟩) = (EOF, strip_file ⟨s, p⟩) := by
  simp only [strip_file, strip_pos_eof s p h]
  exact fgetc_eof _ _ (le_refl _)

theorem ref_instr_comment (opts : conf) (c : Byte) (w : World) (h : is_instruction c = false) :
    ref_instr opts c w = w := by
  simp only [is_instruction, Bool.or_eq_false_iff, beq_eq_false_iff_ne, ne_eq] at h
  obtain ⟨⟨⟨⟨⟨⟨⟨h1, h2⟩, h3⟩, h4⟩, h5⟩, h6⟩, _⟩, _⟩ := h
  simp only [ref_instr, h1, h2, h3, h4, h5, h6, if_false]

theorem comment_not_bracket (c : Byte) (h : is_instruction c = false) : c ≠ 91 ∧ c ≠ 93 := by
  simp only [is_instruction, Bool.or_eq_false_iff, beq_eq_false_iff_ne, ne_eq] at h
  exact ⟨h.1.2, h.2⟩

/-- With no dump character `interpret` does nothing on a comment character. -/
theorem interpret_comment (n : Nat) (c : Byte) (opts : conf) (f : FILE) (w : World)
    (hd : opts.dump = 9999) (h : is_instruction c = false) :
    interpret (n + 1) (c.val : Int) opts f w = some (1, f, w) := by
  rw [interpret_op n c opts f w hd (comment_not_bracket c h).1 (comment_not_bracket c h).2,
    ref_instr_comment opts c w h]


theorem skip_go_count (s : List Byte) : ∀ (l pre : List Byte) (n : Nat) (depth : Int),
    s = pre ++ l → l.length < n →
    skip_loop_go n depth ⟨s, pre.length⟩ = ⟨s, pre.length + skip_count depth l⟩ := by
  intro l
  induction l with
  | nil =>
    intro pre n depth hs hn
    obtain ⟨n, rfl⟩ : ∃ k, n = k + 1 := ⟨n - 1, by simp at hn; omega⟩
    simp only [skip_loop_go, fgetc_eof s pre.length (by simp [hs]), if_true, skip_count,
      Nat.add_zero]
  | cons c l ih =>
    intro pre n depth hs hn
    obtain ⟨n, rfl⟩ : ∃ k, n = k + 1 := ⟨n - 1, by simp at hn; omega⟩
    have hn' : l.length < n := by simp at hn; omega
    have ih' := fun d => ih (pre ++ [c]) n d (by simp [hs]) hn'
    simp only [List.length_append, List.length_singleton] at ih'
    simp only [skip_loop_go, fgetc_at s pre l c pre.length hs rfl, byte_ne_EOF, if_false,
      byte_eq_91, byte_eq_93, skip_count]
    by_cases h1 : c = 91
    · simp only [h1, if_true, ih']
      congr 1; omega
    · by_cases h2 : c = 93
      · have h9391 : ¬ ((93 : Byte) = 91) := by decide
        by_cases hd : depth = 0
        · simp only [h2, h9391, if_false, if_true, hd]
        · simp only [h2, h9391, if_false, if_true, hd, ih']
          congr 1; omega
      · simp only [h1, h2, if_false, ih']
        congr 1; omega

theorem skip_count_le : ∀ (l : List Byte) (depth : Int), skip_count depth l ≤ l.length := by
  intro l
  induction l with
  | nil => intro depth; simp [skip_count]
  | cons c l ih =>
    intro depth
    simp only [skip_count, List.length_cons]
    split_ifs
    · have := ih (depth + 1); omega
    · omega
    · have := ih (depth - 1); omega
    · have := ih depth; omega

theorem skip_count_strip : ∀ (l : List Byte) (depth : Int),
    (strip (l.take (skip_count depth l))).length = skip_count depth (strip l) := by
  intro l
  induction l with
  | nil => intro depth; simp [skip_count, strip]
  | cons c l ih =>
    intro depth
    by_cases hi : is_instruction c = true
    · rw [strip_cons_instr c l hi]
      simp only [skip_count]
      by_cases h1 : c = 91
      · simp only [h1, if_true]
        have e : 1 + skip_count (depth + 1) l = skip_count (depth + 1) l + 1 := by omega
        rw [e, List.take_succ_cons, strip_cons_instr _ _ (by decide), List.length_cons, ih]
        omega
      · by_cases h2 : c = 93
        · subst h2
          have h9391 : ¬ ((93 : Byte) = 91) := by decide
          by_cases hd : depth = 0
          · simp only [h9391, if_false, if_true, hd]
            simp [strip, is_instruction]
          · simp only [h9391, if_false, if_true, hd]
            have e : 1 + skip_count (depth - 1) l = skip_count (depth - 1) l + 1 := by omega
            rw [e, List.take_succ_cons, strip_cons_instr _ _ (by decide), List.length_cons, ih]
            omega
        · simp only [h1, h2, if_false]
          have e : 1 + skip_count depth l = skip_count depth l + 1 := by omega
          rw [e, List.take_succ_cons, strip_cons_instr _ _ hi, List.length_cons, ih]
          omega
    · have hi' : is_instruction c = false := by simpa using hi
      have hb := comment_not_bracket c hi'
      rw [strip_cons_comment c l hi']
      simp only [skip_count, hb.1, hb.2, if_false]
      have e : 1 + skip_count depth l = skip_count depth l + 1 := by omega
      rw [e, List.take_succ_cons, strip_cons_comment _ _ hi', ih]

theorem skip_loop_strip (f : FILE) :
    (skip_loop f).content = f.content ∧ strip_file (skip_loop f) = skip_loop (strip_file f) := by
  obtain ⟨s, p⟩ := f
  by_cases hp : p ≤ s.length
  · have hs : s = s.take p ++ s.drop p := (List.take_append_drop p s).symm
    have hlen : (s.take p).length = p := by simp only [List.length_take]; omega
    have h1 := skip_go_count s (s.drop p) (s.take p) (s.length - p + 1) 0 hs
      (by simp only [List.length_drop]; omega)
    rw [hlen] at h1
    have h2 := skip_go_count (strip s) (strip (s.drop p)) (strip (s.take p))
      ((strip s).length - (strip (s.take p)).length + 1) 0
      (by rw [← strip_append, ← hs])
      (by
        have : (strip s).length = (strip (s.take p)).length + (strip (s.drop p)).length := by
          rw [← List.length_append, ← strip_append, ← hs]
        omega)
    simp only [skip_loop, h1, strip_file, strip_pos, h2, true_and]
    congr 1
    rw [List.take_add, strip_append, List.length_append, skip_count_strip]
  · have hp' : s.length ≤ p := by omega
    have e1 : s.length - p + 1 = 0 + 1 := by omega
    have h1 : skip_loop ⟨s, p⟩ = ⟨s, p⟩ := by
      simp only [skip_loop, e1, skip_loop_go, fgetc_eof s p hp', if_true]
    rw [h1]
    refine ⟨rfl, ?_⟩
    simp only [skip_loop, strip_file, strip_pos_eof s p hp', Nat.sub_self, skip_loop_go,
      fgetc_eof (strip s) (strip s).length (le_refl _), if_true]


theorem interpret_other_file (n : Nat) (c : Int) (opts : conf) (f g : FILE) (w : World)
    (h91 : c ≠ 91) :
    interpret (n + 1) c opts g w
      = (interpret (n + 1) c opts f w).map (fun r => (r.1, g, r.2.2)) := by
  simp only [interpret, h91, if_false]
  split_ifs <;> rfl

theorem loop_body_step (n : Nat) (opts : conf) (f f1 : FILE) (c : Int) (w : World)
    (hg : fgetc f = (c, f1)) (hc : c ≠ EOF) :
    loop_body (n + 1) opts f w
      = match interpret n c opts f1 w with
        | none => none
        | some (r, f2, w2) => if r = 0 then some (f2, w2) else loop_body n opts f2 w2 := by
  simp only [loop_body, hg, hc, if_false]

theorem main_loop_step (n : Nat) (opts : conf) (f f1 : FILE) (c : Int) (w : World)
    (hg : fgetc f = (c, f1)) (hc : c ≠ EOF) :
    main_loop (n + 1) opts f w
      = match interpret n c opts f1 w with
        | none => none
        | some (_, f2, w2) => main_loop n opts f2 w2 := by
  simp only [main_loop, hg, hc, if_false]

theorem loop_body_stop (n : Nat) (opts : conf) (f : FILE) (w : World) (hg : fgetc f = (EOF, f)) :
    loop_body (n + 1) opts f w = some (f, w) := by
  simp only [loop_body, hg, if_true]

theorem main_loop_stop (n : Nat) (opts : conf) (f : FILE) (w : World) (hg : fgetc f = (EOF, f)) :
    main_loop (n + 1) opts f w = some (f, w) := by
  simp only [main_loop, hg, if_true]

/-- From the original file to the stripped one: every finished run of the
original is a run of the stripped file, with the same fuel. -/
theorem strip_forward (opts : conf) (hd : opts.dump = 9999) : ∀ n,
    (∀ c f w r, interpret n c opts f w = some r →
      r.2.1.content = f.content ∧
      interpret n c opts (strip_file f) w = some (r.1, strip_file r.2.1, r.2.2)) ∧
    (∀ f w r, loop n opts f w = some r →
      r.1.content = f.content ∧ loop n opts (strip_file f) w = some (strip_file r.1, r.2)) ∧
    (∀ start f w r, loop_while n opts start f w = some r →
      r.1.content = f.content ∧
      loop_while n opts (strip_pos f.content start) (strip_file f) w
        = some (strip_file r.1, r.2)) ∧
    (∀ f w r, loop_body n opts f w = some r →
      r.1.content = f.content ∧ loop_body n opts (strip_file f) w = some (strip_file r.1, r.2)) := by
  intro n
  induction n with
  | zero =>
    refine ⟨?_, ?_, ?_, ?_⟩ <;> intros <;> simp_all [interpret, loop, loop_while, loop_body]
  | succ n ih =>
    obtain ⟨ihi, ihl, ihw, ihb⟩ := ih
    refine ⟨?_, ?_, ?_, ?_⟩
    · intro c f w r h
      by_cases h91 : c = 91
      · subst h91
        rw [interpret_open n opts f w hd] at h
        rw [interpret_open n opts _ w hd]
        cases hq : loop n opts f w with
        | none => simp [hq] at h
        | some q =>
          obtain ⟨f1, w1⟩ := q
          rw [hq] at h
          simp only [Option.some.injEq] at h
          subst h
          obtain ⟨hc, hl⟩ := ihl f w _ hq
          rw [hl]
          exact ⟨hc, rfl⟩
      · obtain ⟨v, hv, _⟩ := interpret_simple n c opts f w h91
        rw [hv] at h
        simp only [Option.some.injEq] at h
        subst h
        refine ⟨rfl, ?_⟩
        rw [interpret_other_file n c opts f (strip_file f) w h91, hv]
        rfl
    · intro f w r h
      simp only [loop] at h ⊢
      by_cases hdata : w.ptr.cur.data ≤ 0
      · simp only [hdata, if_true, Option.some.injEq] at h ⊢
        subst h
        exact ⟨(skip_loop_strip f).1, by rw [(skip_loop_strip f).2]⟩
      · simp only [hdata, if_false] at h ⊢
        exact ihw _ f w r h
    · intro start f w r h
      simp only [loop_while] at h ⊢
      by_cases hdata : w.ptr.cur.data > 0
      · simp only [hdata, if_true] at h ⊢
        cases hq : loop_body n opts (fsetpos f start) w with
        | none => simp [hq] at h
        | some q =>
          obtain ⟨f1, w1⟩ := q
          rw [hq] at h
          simp only at h
          obtain ⟨hc1, hb1⟩ := ihb _ w _ hq
          obtain ⟨hc2, hw2⟩ := ihw start f1 w1 r h
          have hc1' : f1.content = f.content := hc1
          have e : fsetpos (strip_file f) (strip_pos f.content start)
              = strip_file (fsetpos f start) := rfl
          rw [e, hb1]
          simp only
          rw [hc1'] at hw2
          exact ⟨hc2.trans hc1', hw2⟩
      · simp only [hdata, if_false, Option.some.injEq] at h ⊢
        subst h
        exact ⟨rfl, rfl⟩
    · intro f w r h
      obtain ⟨s, p⟩ := f
      rcases fgetc_cases ⟨s, p⟩ with ⟨hlen, hg⟩ | ⟨c, pre, l, hs, hp, hg⟩
      · rw [loop_body_stop n opts _ w hg] at h
        simp only [Option.some.injEq] at h
        subst h
        exact ⟨rfl, loop_body_stop n opts _ w (fgetc_strip_eof s p hlen)⟩
      · simp only at hs hp hg
        rw [loop_body_step n opts _ _ _ w hg (byte_ne_EOF c)] at h
        cases hq : interpret n (c.val : Int) opts ⟨s, p + 1⟩ w with
        | none => simp [hq] at h
        | some q =>
          obtain ⟨rv, f2, w2⟩ := q
          rw [hq] at h
          simp only at h
          by_cases hi : is_instruction c = true
          · obtain ⟨hc2, hi2⟩ := ihi _ _ w _ hq
            simp only at hc2 hi2
            rw [loop_body_step n opts _ _ _ w (fgetc_strip_instr s pre l c p hs hp hi)
              (byte_ne_EOF c), hi2]
            simp only
            by_cases hrv : rv = 0
            · simp only [hrv, if_true, Option.some.injEq] at h ⊢
              subst h
              exact ⟨hc2, rfl⟩
            · simp only [hrv, if_false] at h ⊢
              obtain ⟨hc3, hb3⟩ := ihb f2 w2 r h
              exact ⟨hc3.trans hc2, hb3⟩
          · have hi' : is_instruction c = false := by simpa using hi
            obtain ⟨m, rfl⟩ : ∃ j, n = j + 1 := by
              cases n with
              | zero => simp [interpret] at hq
              | succ j => exact ⟨j, rfl⟩
            rw [interpret_comment m c opts _ w hd hi'] at hq
            simp only [Option.some.injEq, Prod.mk.injEq] at hq
            obtain ⟨hrv, hf2, hw2⟩ := hq
            subst hrv hf2 hw2
            simp only [one_ne_zero, if_false] at h
            obtain ⟨hc3, hb3⟩ := ihb _ w r h
            rw [strip_file_comment s pre l c p hs hp hi'] at hb3
            exact ⟨hc3, loop_body_mono (Nat.le_succ _) hb3⟩

theorem main_loop_strip_forward (opts : conf) (hd : opts.dump = 9999) :
    ∀ (n : Nat) (f : FILE) (w : World) (r : FILE × World), main_loop n opts f w = some r →
      r.1.content = f.content ∧ main_loop n opts (strip_file f) w = some (strip_file r.1, r.2) := by
  intro n
  induction n with
  | zero => intro f w r h; simp [main_loop] at h
  | succ n ih =>
    intro f w r h
    obtain ⟨s, p⟩ := f
    rcases fgetc_cases ⟨s, p⟩ with ⟨hlen, hg⟩ | ⟨c, pre, l, hs, hp, hg⟩
    · rw [main_loop_stop n opts _ w hg] at h
      simp only [Option.some.injEq] at h
      subst h
      exact ⟨rfl, main_loop_stop n opts _ w (fgetc_strip_eof s p hlen)⟩
    · simp only at hs hp hg
      rw [main_loop_step n opts _ _ _ w hg (byte_ne_EOF c)] at h
      cases hq : interpret n (c.val : Int) opts ⟨s, p + 1⟩ w with
      | none => simp [hq] at h
      | some q =>
        obtain ⟨rv, f2, w2⟩ := q
        rw [hq] at h
        simp only at h
        by_cases hi : is_instruction c = true
        · obtain ⟨hc2, hi2⟩ := (strip_forward opts hd n).1 _ _ w _ hq
          simp only at hc2 hi2
          rw [main_loop_step n opts _ _ _ w (fgetc_strip_instr s pre l c p hs hp hi)
            (byte_ne_EOF c), hi2]
          simp only
          obtain ⟨hc3, hb3⟩ := ih f2 w2 r h
          exact ⟨hc3.trans hc2, hb3⟩
        · have hi' : is_instruction c = false := by simpa using hi
          obtain ⟨m, rfl⟩ : ∃ j, n = j + 1 := by
            cases n with
            | zero => simp [interpret] at hq
            | succ j => exact ⟨j, rfl⟩
          rw [interpret_comment m c opts _ w hd hi'] at hq
          simp only [Option.some.injEq, Prod.mk.injEq] at hq
          obtain ⟨_, hf2, hw2⟩ := hq
          subst hf2 hw2
          obtain ⟨hc3, hb3⟩ := ih _ w r h
          rw [strip_file_comment s pre l c p hs hp hi'] at hb3
          exact ⟨hc3, main_loop_mono _ _ (Nat.le_succ _) _ _ _ _ hb3⟩


/-- The read loop of `loop` on the stripped file, followed back to the
original file, given what is known for smaller fuel on the stripped side. -/
theorem loop_body_strip_back (opts : conf) (hd : opts.dump = 9999) (s : List Byte) (n : Nat)
    (ihi : ∀ c f w r, interpret n c opts (strip_file f) w = some r →
      ∃ N f', f'.content = f.content ∧ r.2.1 = strip_file f' ∧
        interpret N c opts f w = some (r.1, f', r.2.2))
    (ihb : ∀ f w r, loop_body n opts (strip_file f) w = some r →
      ∃ N f', f'.content = f.content ∧ r.1 = strip_file f' ∧
        loop_body N opts f w = some (f', r.2)) :
    ∀ (d p : Nat), s.length - p ≤ d → ∀ (w : World) (r : FILE × World),
      loop_body (n + 1) opts (strip_file ⟨s, p⟩) w = some r →
      ∃ N f', f'.content = s ∧ r.1 = strip_file f' ∧
        loop_body N opts ⟨s, p⟩ w = some (f', r.2) := by
  intro d
  induction d with
  | zero =>
    intro p hdp w r h
    have hlen : s.length ≤ p := by omega
    rw [loop_body_stop n opts _ w (fgetc_strip_eof s p hlen)] at h
    simp only [Option.some.injEq] at h
    subst h
    exact ⟨1, ⟨s, p⟩, rfl, rfl, loop_body_stop 0 opts _ w (fgetc_eof s p hlen)⟩
  | succ d ihd =>
    intro p hdp w r h
    rcases fgetc_cases ⟨s, p⟩ with ⟨hlen, hg⟩ | ⟨c, pre, l, hs, hp, hg⟩
    · simp only at hlen
      rw [loop_body_stop n opts _ w (fgetc_strip_eof s p hlen)] at h
      simp only [Option.some.injEq] at h
      subst h
      exact ⟨1, ⟨s, p⟩, rfl, rfl, loop_body_stop 0 opts _ w hg⟩
    · simp only at hs hp hg
      by_cases hi : is_instruction c = true
      · rw [loop_body_step n opts _ _ _ w (fgetc_strip_instr s pre l c p hs hp hi)
          (byte_ne_EOF c)] at h
        cases hq : interpret n (c.val : Int) opts (strip_file ⟨s, p + 1⟩) w with
        | none => simp [hq] at h
        | some q =>
          obtain ⟨rv, g2, w2⟩ := q
          rw [hq] at h
          simp only at h
          obtain ⟨N1, f2, hc2, hg2, hi2⟩ := ihi _ _ w _ hq
          simp only at hc2 hg2 hi2
          by_cases hrv : rv = 0
          · simp only [hrv, if_true, Option.some.injEq] at h
            subst h
            refine ⟨N1 + 1, f2, hc2, hg2, ?_⟩
            rw [loop_body_step N1 opts _ _ _ w hg (byte_ne_EOF c), hi2]
            simp only [hrv, if_true]
          · simp only [hrv, if_false] at h
            rw [hg2] at h
            obtain ⟨N2, f', hc3, hg3, hb3⟩ := ihb f2 w2 r h
            refine ⟨max N1 N2 + 1, f', hc3.trans hc2, hg3, ?_⟩
            rw [loop_body_step _ opts _ _ _ w hg (byte_ne_EOF c),
              interpret_mono (le_max_left N1 N2) hi2]
            simp only [hrv, if_false]
            exact loop_body_mono (le_max_right N1 N2) hb3
      · have hi' : is_instruction c = false := by simpa using hi
        rw [← strip_file_comment s pre l c p hs hp hi'] at h
        have hlt : p < s.length := by rw [hs, hp]; simp
        obtain ⟨N, f', hc3, hg3, hb3⟩ := ihd (p + 1) (by omega) w r h
        refine ⟨N + 2, f', hc3, hg3, ?_⟩
        rw [loop_body_step _ opts _ _ _ w hg (byte_ne_EOF c),
          interpret_comment N c opts _ w hd hi']
        simp only [one_ne_zero, if_false]
        exact loop_body_mono (Nat.le_succ N) hb3

/-- From the stripped file back to the original: every finished run on the
stripped file is a run of the original, with some fuel. -/
theorem strip_backward (opts : conf) (hd : opts.dump = 9999) : ∀ n,
    (∀ c f w r, interpret n c opts (strip_file f) w = some r →
      ∃ N f', f'.content = f.content ∧ r.2.1 = strip_file f' ∧
        interpret N c opts f w = some (r.1, f', r.2.2)) ∧
    (∀ f w r, loop n opts (strip_file f) w = some r →
      ∃ N f', f'.content = f.content ∧ r.1 = strip_file f' ∧
        loop N opts f w = some (f', r.2)) ∧
    (∀ start f w r,
      loop_while n opts (strip_pos f.content start) (strip_file f) w = some r →
      ∃ N f', f'.content = f.content ∧ r.1 = strip_file f' ∧
        loop_while N opts start f w = some (f', r.2)) ∧
    (∀ f w r, loop_body n opts (strip_file f) w = some r →
      ∃ N f', f'.content = f.content ∧ r.1 = strip_file f' ∧
        loop_body N opts f w = some (f', r.2)) := by
  intro n
  induction n with
  | zero =>
    refine ⟨?_, ?_, ?_, ?_⟩ <;> intros <;> simp_all [interpret, loop, loop_while, loop_body]
  | succ n ih =>
    obtain ⟨ihi, ihl, ihw, ihb⟩ := ih
    refine ⟨?_, ?_, ?_, ?_⟩
    · intro c f w r h
      by_cases h91 : c = 91
      · subst h91
        rw [interpret_open n opts _ w hd] at h
        cases hq : loop n opts (strip_file f) w with
        | none => simp [hq] at h
        | some q =>
          obtain ⟨g1, w1⟩ := q
          rw [hq] at h
          simp only [Option.some.injEq] at h
          subst h
          obtain ⟨N, f', hc, hg, hl⟩ := ihl f w _ hq
          refine ⟨N + 1, f', hc, hg, ?_⟩
          rw [interpret_open N opts f w hd, hl]
      · obtain ⟨v, hv, _⟩ := interpret_simple n c opts (strip_file f) w h91
        rw [hv] at h
        simp only [Option.some.injEq] at h
        subst h
        refine ⟨n + 1, f, rfl, rfl, ?_⟩
        rw [interpret_other_file n c opts (strip_file f) f w h91, hv]
        rfl
    · intro f w r h
      simp only [loop] at h
      by_cases hdata : w.ptr.cur.data ≤ 0
      · simp only [hdata, if_true, Option.some.injEq] at h
        subst h
        refine ⟨1, skip_loop f, (skip_loop_strip f).1, (skip_loop_strip f).2.symm, ?_⟩
        simp only [loop, hdata, if_true]
      · simp only [hdata, if_false] at h
        obtain ⟨N, f', hc, hg, hl⟩ := ihw f.pos f w r h
        refine ⟨N + 1, f', hc, hg, ?_⟩
        simp only [loop, hdata, if_false, fgetpos]
        exact hl
    · intro start f w r h
      simp only [loop_while] at h
      by_cases hdata : w.ptr.cur.data > 0
      · simp only [hdata, if_true] at h
        have e : fsetpos (strip_file f) (strip_pos f.content start)
            = strip_file (fsetpos f start) := rfl
        rw [e] at h
        cases hq : loop_body n opts (strip_file (fsetpos f start)) w with
        | none => simp [hq] at h
        | some q =>
          obtain ⟨g1, w1⟩ := q
          rw [hq] at h
          simp only at h
          obtain ⟨N1, f1, hc1, hg1, hb1⟩ := ihb _ w _ hq
          simp only at hg1 hb1
          have hc1' : f1.content = f.content := hc1
          rw [hg1, ← hc1'] at h
          obtain ⟨N2, f', hc2, hg2, hw2⟩ := ihw start f1 w1 r h
          refine ⟨max N1 N2 + 1, f', hc2.trans hc1', hg2, ?_⟩
          simp only [loop_while, hdata, if_true]
          rw [loop_body_mono (le_max_left N1 N2) hb1]
          exact loop_while_mono (le_max_right N1 N2) hw2
      · simp only [hdata, if_false, Option.some.injEq] at h
        subst h
        refine ⟨1, f, rfl, rfl, ?_⟩
        simp only [loop_while, hdata, if_false]
    · intro f w r h
      obtain ⟨s, p⟩ := f
      exact loop_body_strip_back opts hd s n ihi ihb (s.length - p) p (le_refl _) w r h

theorem main_loop_strip_back (opts : conf) (hd : opts.dump = 9999) (s : List Byte) :
    ∀ (n d p : Nat), s.length - p ≤ d → ∀ (w : World) (r : FILE × World),
      main_loop n opts (strip_file ⟨s, p⟩) w = some r →
      ∃ N f', f'.content = s ∧ r.1 = strip_file f' ∧
        main_loop N opts ⟨s, p⟩ w = some (f', r.2) := by
  intro n
  induction n with
  | zero => intro d p _ w r h; simp [main_loop] at h
  | succ n ih =>
    intro d
    induction d with
    | zero =>
      intro p hdp w r h
      have hlen : s.length ≤ p := by omega
      rw [main_loop_stop n opts _ w (fgetc_strip_eof s p hlen)] at h
      simp only [Option.some.injEq] at h
      subst h
      exact ⟨1, ⟨s, p⟩, rfl, rfl, main_loop_stop 0 opts _ w (fgetc_eof s p hlen)⟩
    | succ d ihd =>
      intro p hdp w r h
      rcases fgetc_cases ⟨s, p⟩ with ⟨hlen, hg⟩ | ⟨c, pre, l, hs, hp, hg⟩
      · simp only at hlen
        rw [main_loop_stop n opts _ w (fgetc_strip_eof s p hlen)] at h
        simp only [Option.some.injEq] at h
        subst h
        exact ⟨1, ⟨s, p⟩, rfl, rfl, main_loop_stop 0 opts _ w hg⟩
      · simp only at hs hp hg
        by_cases hi : is_instruction c = true
        · rw [main_loop_step n opts _ _ _ w (fgetc_strip_instr s pre l c p hs hp hi)
            (byte_ne_EOF c)] at h
          cases hq : interpret n (c.val : Int) opts (strip_file ⟨s, p + 1⟩) w with
          | none => simp [hq] at h
          | some q =>
            obtain ⟨rv, g2, w2⟩ := q
            rw [hq] at h
            simp only at h
            obtain ⟨N1, f2, hc2, hg2, hi2⟩ := (strip_backward opts hd n).1 _ _ w _ hq
            simp only at hc2 hg2 hi2
            obtain ⟨s2, p2⟩ := f2
            simp only at hc2
            subst hc2
            rw [hg2] at h
            obtain ⟨N2, f', hc3, hg3, hb3⟩ := ih (s2.length - p2) p2 (le_refl _) w2 r h
            refine ⟨max N1 N2 + 1, f', hc3, hg3, ?_⟩
            rw [main_loop_step _ opts _ _ _ w hg (byte_ne_EOF c),
              interpret_mono (le_max_left N1 N2) hi2]
            simp only
            exact main_loop_mono _ _ (le_max_right N1 N2) _ _ _ _ hb3
        · have hi' : is_instruction c = false := by simpa using hi
          rw [← strip_file_comment s pre l c p hs hp hi'] at h
          have hlt : p < s.length := by rw [hs, hp]; simp
          obtain ⟨N, f', hc3, hg3, hb3⟩ := ihd (p + 1) (by omega) w r h
          refine ⟨N + 2, f', hc3, hg3, ?_⟩
          rw [main_loop_step _ opts _ _ _ w hg (byte_ne_EOF c),
            interpret_comment N c opts _ w hd hi']
          simp only
          exact main_loop_mono _ _ (Nat.le_succ N) _ _ _ _ hb3


theorem strip_file_start (p : List Byte) : strip_file ⟨p, 0⟩ = ⟨strip p, 0⟩ := by
  simp [strip_file, strip_pos, strip]

theorem strip_counts (p : List Byte) :
    (strip p).count 91 = p.count 91 ∧ (strip p).count 93 = p.count 93 := by
  constructor
  · exact List.count_filter (by decide)
  · exact List.count_filter (by decide)

theorem main_eq (fuel : Nat) (opts : conf) (source input : List Byte) :
    main fuel opts source input
      = (if source.count 91 = source.count 93 then
          match main_loop fuel opts ⟨source, 0⟩ (initial_world input) with
          | none => none
          | some (f1, w1) => some (Exit.success, f1, w1)
        else some (Exit.failure "parens don't match", ⟨source, 0⟩, initial_world input)) := by
  simp only [main, parens_match_eq]
  by_cases hc : source.count 91 = source.count 93
  · simp only [hc, if_true, one_ne_zero, if_false]
  · simp only [hc, if_false, if_true]

/-- C14: characters other than `> < + - . , [ ]` are no-ops.  With no dump
character, for every source `p`, well nested or not, the read loop of `main`
on `p` and on `p` without its comment characters behave alike from every tape
and input: one ends exactly when the other does, and then in the same world
(tape, current position, remaining input, output, warnings).  The same holds
of `main` itself, with the same exit status.  This covers comment characters
inside loop bodies that are run again and again or skipped: the statement is
for all sources. -/
theorem comments_are_no_ops (opts : conf) (hd : opts.dump = 9999) (p : List Byte) :
    (∀ c ∈ strip p, is_instruction c = true) ∧
    (∀ c ∈ p, is_instruction c = true → c ∈ strip p) ∧
    (∀ w w' : World,
      (∃ n f, main_loop n opts ⟨p, 0⟩ w = some (f, w')) ↔
      (∃ n f, main_loop n opts ⟨strip p, 0⟩ w = some (f, w'))) ∧
    (∀ (input : List Byte) (e : Exit) (w' : World),
      (∃ n f, main n opts p input = some (e, f, w')) ↔
      (∃ n f, main n opts (strip p) input = some (e, f, w'))) := by
  have hloop : ∀ w w' : World,
      (∃ n f, main_loop n opts ⟨p, 0⟩ w = some (f, w')) ↔
      (∃ n f, main_loop n opts ⟨strip p, 0⟩ w = some (f, w')) := by
    intro w w'
    constructor
    · rintro ⟨n, f, h⟩
      obtain ⟨_, h2⟩ := main_loop_strip_forward opts hd n _ w _ h
      rw [strip_file_start] at h2
      exact ⟨n, _, h2⟩
    · rintro ⟨n, f, h⟩
      rw [← strip_file_start] at h
      obtain ⟨N, f', _, _, h2⟩ := main_loop_strip_back opts hd p n (p.length - 0) 0 (le_refl _)
        w _ h
      exact ⟨N, f', h2⟩
  refine ⟨?_, ?_, hloop, ?_⟩
  · intro c hc
    simp only [strip, List.mem_filter] at hc
    exact hc.2
  · intro c hc hi
    simp only [strip, List.mem_filter]
    exact ⟨hc, hi⟩
  · intro input e w'
    simp only [main_eq, (strip_counts p).1, (strip_counts p).2]
    by_cases hc : p.count 91 = p.count 93
    · simp only [hc, if_true]
      constructor
      · rintro ⟨n, f, h⟩
        cases hq : main_loop n opts ⟨p, 0⟩ (initial_world input) with
        | none => simp [hq] at h
        | some q =>
          obtain ⟨f1, w1⟩ := q
          rw [hq] at h
          simp only [Option.some.injEq, Prod.mk.injEq] at h
          obtain ⟨he, _, hw⟩ := h
          subst he hw
          obtain ⟨n2, f2, h2⟩ := (hloop _ _).mp ⟨n, f1, hq⟩
          exact ⟨n2, f2, by rw [h2]⟩
      · rintro ⟨n, f, h⟩
        cases hq : main_loop n opts ⟨strip p, 0⟩ (initial_world input) with
        | none => simp [hq] at h
        | some q =>
          obtain ⟨f1, w1⟩ := q
          rw [hq] at h
          simp only [Option.some.injEq, Prod.mk.injEq] at h
          obtain ⟨he, _, hw⟩ := h
          subst he hw
          obtain ⟨n2, f2, h2⟩ := (hloop _ _).mpr ⟨n, f1, hq⟩
          exact ⟨n2, f2, by rw [h2]⟩
    · simp only [hc, if_false, Option.some.injEq, Prod.mk.injEq]
      constructor
      · rintro ⟨_, _, he, _, hw⟩
        exact ⟨0, _, he, rfl, hw⟩
      · rintro ⟨_, _, he, _, hw⟩
        exact ⟨0, _, he, rfl, hw⟩

theorem comments_are_no_ops_witness :
    default_conf.dump = 9999 ∧
    strip [43, 91, 32, 45, 97, 93, 10, 46] = [43, 91, 45, 93, 46] ∧
    main 20 default_conf [43, 91, 32, 45, 97, 93, 10, 46] []
      = some (Exit.success, ⟨[43, 91, 32, 45, 97, 93, 10, 46], 8⟩,
          { ptr := { prev := [], cur := { data := 0, cell := 0 }, next := [] },
            stdin := [], stdout := [Out.char 0], stderr := [] }) ∧
    main 20 default_conf [43, 91, 45, 93, 46] []
      = some (Exit.success, ⟨[43, 91, 45, 93, 46], 5⟩,
          { ptr := { prev := [], cur := { data := 0, cell := 0 }, next := [] },
            stdin := [], stdout := [Out.char 0], stderr := [] }) ∧
    (∃ n f, main n default_conf (strip [43, 91, 32, 45, 97, 93, 10, 46]) []
      = some (Exit.success, f,
          { ptr := { prev := [], cur := { data := 0, cell := 0 }, next := [] },
            stdin := [], stdout := [Out.char 0], stderr := [] })) :=
  ⟨rfl, by decide, by decide!, by decide!,
    ((comments_are_no_ops default_conf rfl [43, 91, 32, 45, 97, 93, 10, 46]).2.2.2 []
      Exit.success _).mp ⟨20, ⟨[43, 91, 32, 45, 97, 93, 10, 46], 8⟩, by decide!⟩⟩


/-! ## A dump of a cell that holds no character -/

theorem minus_run_then_dump (opts : conf) (hd : opts.dump = 33) (hw : opts.warn = 0)
    (content : List Byte) :
    ∀ (k : Nat) (pre : List Byte) (w : World), content = pre ++ (List.replicate k 45 ++ [33]) →
      main_loop (k + 2) opts ⟨content, pre.length⟩ w
        = some (⟨content, content.length⟩, mem_dump (set_data w (w.ptr.cur.data - k))) := by
  have h33 : (((33 : Byte).val : Nat) : Int) = 33 := rfl
  have h45 : (((45 : Byte).val : Nat) : Int) = 45 := rfl
  intro k
  induction k with
  | zero =>
    intro pre w hc
    have hc1 : content = pre ++ 33 :: [] := by simpa using hc
    have hlen : pre.length + 1 = content.length := by simp [hc1]
    rw [main_loop_at 1 opts content pre [] 33 pre.length w hc1 rfl,
      interpret_byte 0 33 opts _ w (by decide)]
    simp only [h33, hd, if_true]
    rw [hlen, main_loop_eof 0 opts content _ _ (le_refl _)]
    obtain ⟨⟨prev, ⟨d, c⟩, next⟩, i, o, e⟩ := w
    simp [ref_instr, set_data]
  | succ k ih =>
    intro pre w hc
    have hc1 : content = pre ++ 45 :: (List.replicate k 45 ++ [33]) := by
      simpa [List.replicate_succ] using hc
    have hne : ¬ ((45 : Int) = opts.dump) := by rw [hd]; decide
    rw [main_loop_at (k + 2) opts content pre _ 45 pre.length w hc1 rfl, h45,
      interpret_minus (k + 1) opts _ w]
    simp only [hne, if_false]
    have hstep : ref_instr opts 45 w = set_data w (w.ptr.cur.data - 1) := by
      simp [ref_instr, hw]
    rw [hstep]
    have := ih (pre ++ [45]) (set_data w (w.ptr.cur.data - 1)) (by simp [hc1])
    simp only [List.length_append, List.length_singleton] at this
    rw [this]
    have e : (set_data w (w.ptr.cur.data - 1)).ptr.cur.data - (k : Int)
        = w.ptr.cur.data - ((k + 1 : Nat) : Int) := by
      simp only [set_data, Nat.cast_add, Nat.cast_one]; omega
    rw [e]
    rfl

theorem minus_run_then_dump_main (k n p : Nat) (v : Int) (hn : n = k + 2) (hp : p = k + 1)
    (hv : v = -(k : Int)) :
    main n { dump := 33, eof := 9999, warn := 0 } (List.replicate k 45 ++ [33]) []
      = some (Exit.success, ⟨List.replicate k 45 ++ [33], p⟩,
          { ptr := { prev := [], cur := { data := v, cell := 0 }, next := [] },
            stdin := [], stdout := [Out.dump_header, dump_row { data := v, cell := 0 }],
            stderr := [] }) := by
  subst hn hp hv
  have h1 : (List.replicate k (45 : Byte) ++ [33]).count 91 = 0 := by
    simp [List.count_append, List.count_replicate]
  have h2 : (List.replicate k (45 : Byte) ++ [33]).count 93 = 0 := by
    simp [List.count_append, List.count_replicate]
  rw [main_eq, h1, h2]
  simp only [if_true]
  have := minus_run_then_dump { dump := 33, eof := 9999, warn := 0 } rfl rfl
    (List.replicate k 45 ++ [33]) k [] (initial_world []) (by simp)
  simp only [List.length_nil] at this
  rw [this]
  simp [initial_world, initial_tape, set_data, mem_dump]

/-- C12, the input on which the program leaves the claim: 387 times `-` and
then `!`, with `!` as the dump character (`-d !`).  The run ends normally with
cell 0 holding -387, and the dump consists of the header and one row for cell
0 with the content -387.  -387 is not a graphic character, so the claim asks
for a space in the character column; the program calls `isgraph(-387)`, which
is outside the domain of `isgraph`, and its character column is therefore not
determined: it is not the space.  The same holds of every content outside
0..255 other than `EOF`, such as 300. -/
theorem mem_dump_character_outside_isgraph_domain :
    main 389 { dump := 33, eof := 9999, warn := 0 } (List.replicate 387 45 ++ [33]) []
      = some (Exit.success, ⟨List.replicate 387 45 ++ [33], 388⟩,
          { ptr := { prev := [], cur := { data := -387, cell := 0 }, next := [] },
            stdin := [], stdout := [Out.dump_header, dump_row { data := -387, cell := 0 }],
            stderr := [] }) ∧
    isgraph (-387) = none ∧
    dump_row { data := -387, cell := 0 } = Out.dump_row 0 (-387) none ∧
    dump_row { data := -387, cell := 0 } ≠ Out.dump_row 0 (-387) (some 32) ∧
    isgraph 300 = none ∧
    dump_row { data := 300, cell := 0 } = Out.dump_row 0 300 none :=
  ⟨minus_run_then_dump_main 387 389 388 (-387) rfl rfl rfl, by decide, by decide, by decide,
    by decide, by decide⟩

end Bfi
